import Mathlib

/-
Verification of the cluster state and replica-placement engine of the
sim-roach repository, a shallow embedding of
src/services/simulatorService.ts (the SimulatorService class) into Lean.

Modelling conventions, stated once here:
* Node ids are the strings "n1", "n2", ... in the source and range ids are
  "r1", "r2", ...; both are only ever produced by the sequential counters
  and compared for equality, and k maps to "n" ++ toString k injectively,
  so ids are modelled by their numeric part (a Nat).
* Region and zone names are genuine strings and are kept as String.
* JavaScript Math.random driven shuffles are modelled by explicit function
  parameters; a well formed run constrains each such function to permute
  its input (IsShuffle below).
* Array.prototype.sort with a numeric comparator is stable (ES2019); it is
  modelled by a stable insertion sort (sortByAsc / sortByDesc).
* The JS Map of per node replica counts is modelled as a function
  Nat -> Nat; a read of a missing key through (m.get(k) or 0) is the
  function returning 0, which agrees with the occurrence count.
* Date.now() timestamps are modelled by the constant 0: no engine decision
  reads a timestamp.
* Mutation of this.ranges inside forEach loops updates one index per
  visited element; JS indexOf on the visited object resolves, by object
  identity, to the index the element already occupies, so those loops are
  modelled as folds over index lists that List.set one index per step.
-/

namespace SimRoach

/-- Node status; the source uses the string union "online" | "offline". -/
inductive Status where
  | online
  | offline
deriving DecidableEq, Repr

/-- A cluster node (src/types.ts `Node`). -/
structure Node where
  id : Nat
  region : String
  zone : String
  status : Status
deriving DecidableEq, Repr

/-- A replica movement audit record (src/types.ts `ReplicaMovement`). -/
structure ReplicaMovement where
  rangeId : Nat
  fromNodeId : Nat
  toNodeId : Nat
  isLeaseholder : Bool
  timestamp : Nat
deriving DecidableEq, Repr

/-- A range (src/types.ts `Range`).  The optional recentMovements field is
modelled as a plain list with the absent field as []: the engine always
reads it through `range.recentMovements || []`. -/
structure Range where
  id : Nat
  replicas : List Nat
  leaseholder : Nat
  load : Nat
  recentMovements : List ReplicaMovement
deriving DecidableEq, Repr

/-- src/components/ControlPanel.tsx `SimulatorConfig`. -/
structure SimulatorConfig where
  regionCount : Nat
  replicationFactor : Nat
  nodeCount : Nat
  rangeCount : Nat
deriving DecidableEq, Repr

/-- One entry of the fixed candidate region pool. -/
structure RegionInfo where
  name : String
  zones : List String
deriving DecidableEq, Repr

/-- The fixed pool of ten candidate regions, each with three zones. -/
def availableRegions : List RegionInfo :=
  [ ⟨"us-east", ["a", "b", "c"]⟩,
    ⟨"us-west", ["a", "b", "c"]⟩,
    ⟨"eu-west", ["a", "b", "c"]⟩,
    ⟨"eu-central", ["a", "b", "c"]⟩,
    ⟨"ap-southeast", ["a", "b", "c"]⟩,
    ⟨"ap-northeast", ["a", "b", "c"]⟩,
    ⟨"sa-east", ["a", "b", "c"]⟩,
    ⟨"af-south", ["a", "b", "c"]⟩,
    ⟨"au-southeast", ["a", "b", "c"]⟩,
    ⟨"ca-central", ["a", "b", "c"]⟩ ]

/-- The private mutable state of a SimulatorService instance. -/
structure SimState where
  nodes : List Node
  ranges : List Range
  nextNodeId : Nat
  nextRangeId : Nat
  config : SimulatorConfig
  selectedRegions : List RegionInfo
deriving DecidableEq, Repr

/-- The two ways an engine operation can throw: the explicit capacity
Error thrown by addRange, and the TypeError raised by reading `.id` of
`sortedForLeaseholder[0]` when the replica selection is empty (possible
only when replicationFactor = 0, a value the UI never produces but the
code does not validate against). -/
inductive SimError where
  | capacity
  | typeError
deriving DecidableEq, Repr

/-- `this.nodes.find(n => n.id === id)`. -/
def findNode (nodes : List Node) (id : Nat) : Option Node :=
  nodes.find? (fun n => n.id == id)

/-- Whether a replica id resolves to a currently online node. -/
def isOnlineId (nodes : List Node) (id : Nat) : Bool :=
  match findNode nodes id with
  | some n => n.status == Status.online
  | none => false

/-- Stable insertion (ascending by key): an element is placed after every
element whose key is less than or equal to its own, matching the behaviour
of the stable Array.prototype.sort with comparator (a, b) => key a - key b. -/
def insertAsc (key : Node → Nat) (x : Node) : List Node → List Node
  | [] => [x]
  | y :: ys => if key y ≤ key x then y :: insertAsc key x ys else x :: y :: ys

/-- Stable sort ascending by key. -/
def sortByAsc (key : Node → Nat) (l : List Node) : List Node :=
  l.foldl (fun acc x => insertAsc key x acc) []

/-- Stable insertion (descending by key), matching the stable
Array.prototype.sort with comparator (a, b) => key b - key a. -/
def insertDesc (key : Node → Nat) (x : Node) : List Node → List Node
  | [] => [x]
  | y :: ys => if key x ≤ key y then y :: insertDesc key x ys else x :: y :: ys

/-- Stable sort descending by key. -/
def sortByDesc (key : Node → Nat) (l : List Node) : List Node :=
  l.foldl (fun acc x => insertDesc key x acc) []

/-- First-occurrence deduplication, the iteration order of a JS Set or of
the keys of a JS object populated during a single scan. -/
def insertionDedup (l : List String) : List String :=
  l.foldl (fun acc x => if x ∈ acc then acc else acc ++ [x]) []

/-- `movements.slice(-10)`: the most recent ten entries. -/
def lastTen (l : List ReplicaMovement) : List ReplicaMovement :=
  l.drop (l.length - 10)

/-- recordReplicaMovement: append a movement and keep the last ten. -/
def recordReplicaMovement (rangeId fromNodeId toNodeId : Nat) (isLh : Bool)
    (currentMovements : List ReplicaMovement) : List ReplicaMovement :=
  lastTen (currentMovements ++ [⟨rangeId, fromNodeId, toNodeId, isLh, 0⟩])

/-- calculateNodeReplicaCounts: the number of replicas currently hosted by
each node id, as a total function (0 for ids hosting none). -/
def calculateNodeReplicaCounts (ranges : List Range) : Nat → Nat :=
  fun id => (ranges.map (fun r => r.replicas.count id)).sum

/-- selectLeastLoadedNode: stable sort ascending by replica count, take
the first element (`sortedNodes[0]`, none on an empty list). -/
def selectLeastLoadedNode (nodes : List Node) (counts : Nat → Nat) : Option Node :=
  (sortByAsc (fun n => counts n.id) nodes).head?

/-- `replicas.map(rid => rid === a ? b : rid)`: replace every occurrence
of one id by another. -/
def replaceId (a b : Nat) (l : List Nat) : List Nat :=
  l.map (fun x => if x = a then b else x)

/-- One step of a forEach loop that rewrites this.ranges in place: read
the visited index from the live list and, when the body produces an
update, write it back to the same index. -/
def updateAt (g : List Range → Range → Option Range) (rs : List Range) (i : Nat) :
    List Range :=
  match rs[i]? with
  | none => rs
  | some r =>
    match g rs r with
    | none => rs
    | some r2 => rs.set i r2

/-- The `nodesByRegion[region][zone]` bucket built by the classification
scan of selectNodesForReplicas (members in encounter order). -/
def nodesByRegionZone (avail : List Node) (region zone : String) : List Node :=
  avail.filter (fun n => n.region == region && n.zone == zone)

/-- The `allRegions` set of selectNodesForReplicas, in insertion order. -/
def allRegionsOf (avail : List Node) : List String :=
  insertionDedup (avail.map (fun n => n.region))

/-- The `allZones[region]` set of selectNodesForReplicas, in insertion
order.  Zone keys "region/zone" are modelled as pairs; region names come
from the fixed pool and contain no slash, so the encodings agree. -/
def allZonesOf (avail : List Node) (region : String) : List String :=
  insertionDedup ((avail.filter (fun n => n.region == region)).map (fun n => n.zone))

/-- The mutable locals of a selectNodesForReplicas run: selectedNodes,
the live replicaCounts map, usedRegions and usedZones. -/
structure SelSt where
  selected : List Node
  counts : Nat → Nat
  usedRegions : List String
  usedZones : List (String × String)

/-- The repeated inner loop of selectNodesForReplicas: scan a list of
zones of one region, keeping the least loaded node seen so far (strict
improvement only, so the first zone wins ties), together with its zone. -/
def bestNodeInZones (avail : List Node) (region : String) (zones : List String)
    (counts : Nat → Nat) : Option (Node × String) :=
  zones.foldl
    (fun best zone =>
      match selectLeastLoadedNode (nodesByRegionZone avail region zone) counts with
      | none => best
      | some cand =>
        match best with
        | none => some (cand, zone)
        | some (b, bz) =>
          if counts cand.id < counts b.id then some (cand, zone) else some (b, bz))
    none

/-- Push one picked node: record it, mark its region and zone used and
bump its live replica count. -/
def SelSt.push (st : SelSt) (n : Node) (region zone : String) : SelSt :=
  { selected := st.selected ++ [n],
    counts := Function.update st.counts n.id (st.counts n.id + 1),
    usedRegions := st.usedRegions ++ [region],
    usedZones := st.usedZones ++ [(region, zone)] }

/-- Step 3 of selectNodesForReplicas (enough distinct regions): walk the
shuffled regions, taking the least loaded node of each, breaking once
replicationFactor nodes are selected. -/
def pickDiverseRegions (avail : List Node) (rf : Nat) :
    List String → SelSt → SelSt
  | [], st => st
  | region :: rest, st =>
    let st' :=
      match bestNodeInZones avail region (allZonesOf avail region) st.counts with
      | none => st
      | some (n, z) => st.push n region z
    if st'.selected.length = rf then st' else pickDiverseRegions avail rf rest st'

/-- Step 4 of selectNodesForReplicas (too few regions), first pass: one
least loaded node per available region, preferring unused zones;
breaks (inside the successful-pick branch) once rf nodes are selected. -/
def pickPerRegion (avail : List Node) (rf : Nat) :
    List String → SelSt → SelSt
  | [], st => st
  | region :: rest, st =>
    let zonesIR := allZonesOf avail region
    let unused := zonesIR.filter (fun z => !(st.usedZones.contains (region, z)))
    let pick :=
      if unused.isEmpty then bestNodeInZones avail region zonesIR st.counts
      else bestNodeInZones avail region unused st.counts
    match pick with
    | none => pickPerRegion avail rf rest st
    | some (n, z) =>
      let st' := st.push n region z
      if st'.selected.length = rf then st' else pickPerRegion avail rf rest st'

/-- Step 5 inner loop: within one region, pick the least loaded node of
each not yet used zone (usedRegions is not extended here, matching the
source), breaking once rf nodes are selected. -/
def fillZonesInRegion (avail : List Node) (rf : Nat) (region : String) :
    List String → SelSt → SelSt
  | [], st => st
  | zone :: zs, st =>
    if st.usedZones.contains (region, zone) then fillZonesInRegion avail rf region zs st
    else
      let nz := nodesByRegionZone avail region zone
      if nz.isEmpty then fillZonesInRegion avail rf region zs st
      else
        match selectLeastLoadedNode nz st.counts with
        | none => fillZonesInRegion avail rf region zs st
        | some n =>
          let st' : SelSt :=
            { selected := st.selected ++ [n],
              counts := Function.update st.counts n.id (st.counts n.id + 1),
              usedRegions := st.usedRegions,
              usedZones := st.usedZones ++ [(region, zone)] }
          if st'.selected.length = rf then st' else fillZonesInRegion avail rf region zs st'

/-- Step 5 of selectNodesForReplicas: walk the shuffled used regions,
filling unused zones, with the outer break once rf nodes are selected. -/
def fillZones (avail : List Node) (rf : Nat) :
    List String → SelSt → SelSt
  | [], st => st
  | region :: rest, st =>
    let st' := fillZonesInRegion avail rf region (allZonesOf avail region) st
    if st'.selected.length = rf then st' else fillZones avail rf rest st'

/-- Step 6 of selectNodesForReplicas: top up from all remaining nodes,
least loaded first.  (The source also bumps the live counts of the nodes
it appends; those counts are never read afterwards.) -/
def lastResort (avail : List Node) (rf : Nat) (st : SelSt) : SelSt :=
  let remaining := avail.filter (fun n => !(st.selected.any (fun sel => sel.id == n.id)))
  let sorted := sortByAsc (fun n => st.counts n.id) remaining
  let additional := sorted.take (rf - st.selected.length)
  { st with selected := st.selected ++ additional }

/-- The two Math.random shuffles drawn by one selectNodesForReplicas run. -/
structure SelChoice where
  shufRegions : List String → List String
  shufUsedRegions : List String → List String

/-- selectNodesForReplicas (the load balanced version at lines 1117 to
1315 of simulatorService.ts). -/
def selectNodesForReplicas (ranges : List Range) (availableNodes : List Node)
    (replicationFactor : Nat) (ch : SelChoice) : List Node :=
  let counts0 := calculateNodeReplicaCounts ranges
  let regions := allRegionsOf availableNodes
  let st0 : SelSt := ⟨[], counts0, [], []⟩
  if replicationFactor ≤ regions.length then
    (pickDiverseRegions availableNodes replicationFactor
      ((ch.shufRegions regions).take replicationFactor) st0).selected
  else
    let st1 := pickPerRegion availableNodes replicationFactor regions st0
    let st2 :=
      if st1.selected.length < replicationFactor then
        fillZones availableNodes replicationFactor
          (ch.shufUsedRegions st1.usedRegions) st1
      else st1
    let st3 :=
      if st2.selected.length < replicationFactor then
        lastResort availableNodes replicationFactor st2
      else st2
    st3.selected

/-- addRange (lines 1048 to 1081): throws the capacity Error when the
online node count is below replicationFactor; otherwise selects replicas,
picks the leaseholder from the most populated region (stable sort of the
selection descending by cluster wide region population) and appends the
new range with load 10 and no recentMovements field.  Returns the thrown
error (if any) together with the state the instance is left in. -/
def addRangeE (s : SimState) (ch : SelChoice) : Option SimError × SimState :=
  let onlineNodes := s.nodes.filter (fun n => n.status == Status.online)
  let replicationFactor := s.config.replicationFactor
  if onlineNodes.length < replicationFactor then (some SimError.capacity, s)
  else
    let selectedNodes := selectNodesForReplicas s.ranges onlineNodes replicationFactor ch
    let regionCounts : String → Nat :=
      fun reg => (s.nodes.filter (fun n => n.region == reg)).length
    let sortedForLeaseholder := sortByDesc (fun n => regionCounts n.region) selectedNodes
    match sortedForLeaseholder.head? with
    | none => (some SimError.typeError, s)
    | some lead =>
      let newRange : Range :=
        ⟨s.nextRangeId, selectedNodes.map (fun n => n.id), lead.id, 10, []⟩
      (none, { s with ranges := s.ranges ++ [newRange], nextRangeId := s.nextRangeId + 1 })

/-- calculateRegionLoad (lines 1625 to 1637): total load of the ranges
whose leaseholder resolves to a node of the given region. -/
def calculateRegionLoad (s : SimState) (region : String) : Nat :=
  ((s.ranges.filter (fun r =>
    match findNode s.nodes r.leaseholder with
    | some n => n.region == region
    | none => false)).map (fun r => r.load)).sum

/-- `range.replicas.map(find).filter(node is Node and online)`: the
replicas of a range resolved to their online nodes, order preserved. -/
def onlineReplicaNodesOf (nodes : List Node) (r : Range) : List Node :=
  r.replicas.filterMap (fun id =>
    match findNode nodes id with
    | some n => if n.status == Status.online then some n else none
    | none => none)

/-- balanceHotRange (lines 1590 to 1623). -/
def balanceHotRange (s : SimState) (rangeId : Nat) : SimState :=
  match s.ranges.findIdx? (fun r => r.id == rangeId) with
  | none => s
  | some rangeIndex =>
    match s.ranges[rangeIndex]? with
    | none => s
    | some range =>
      let onlineReplicaNodes := onlineReplicaNodesOf s.nodes range
      if onlineReplicaNodes.length ≤ 1 then s
      else
        match findNode s.nodes range.leaseholder with
        | none => s
        | some currentLeaseholderNode =>
          let regionLoad := calculateRegionLoad s currentLeaseholderNode.region
          if 40 < regionLoad then
            let replicasByRegionLoad :=
              sortByAsc (fun n => calculateRegionLoad s n.region) onlineReplicaNodes
            match replicasByRegionLoad.head? with
            | none => s
            | some best =>
              if best.id ≠ range.leaseholder then
                { s with ranges :=
                    s.ranges.set rangeIndex { range with leaseholder := best.id } }
              else s
          else s

/-- markRangeHot (lines 1318 to 1330): set the load of the named range to
80 and run balanceHotRange; a silent no-op when the id does not exist. -/
def markRangeHot (s : SimState) (rangeId : Nat) : SimState :=
  match s.ranges.findIdx? (fun r => r.id == rangeId) with
  | none => s
  | some rangeIndex =>
    match s.ranges[rangeIndex]? with
    | none => s
    | some r =>
      balanceHotRange
        { s with ranges := s.ranges.set rangeIndex { r with load := 80 } } rangeId

/-- The leaseholder handling step of the failure migrator (lines 1350 to
1391): the new leaseholder for a range whose leaseholder sits on the
failing node, together with the movement log after recording the
leaseholder movement. -/
def migrateLeaseholderChoice (nodes : List Node) (offlineNode : Node) (nodeId : Nat)
    (r : Range) : Nat × List ReplicaMovement :=
  if r.leaseholder = nodeId then
    let onlineReplicaIds := r.replicas.filter (fun rid =>
      rid != nodeId && isOnlineId nodes rid)
    if onlineReplicaIds.isEmpty then (r.leaseholder, r.recentMovements)
    else
      let replicaNodes := onlineReplicaIds.filterMap (findNode nodes)
      let differentRegionReplicas :=
        replicaNodes.filter (fun n => n.region != offlineNode.region)
      match differentRegionReplicas.head? with
      | some n =>
        (n.id, recordReplicaMovement r.id nodeId n.id true r.recentMovements)
      | none =>
        match replicaNodes.head? with
        | some n =>
          (n.id, recordReplicaMovement r.id nodeId n.id true r.recentMovements)
        | none => (r.leaseholder, r.recentMovements)
  else (r.leaseholder, r.recentMovements)

/-- The online nodes not already hosting a replica of the range (line
1395). -/
def availableReplaceNodesOf (nodes : List Node) (r : Range) : List Node :=
  nodes.filter (fun n =>
    n.status == Status.online && !(r.replicas.contains n.id))

/-- The replacement node choice of the failure migrator (lines 1399 to
1436): a least loaded node from a region new to the range, else from a
zone new to the range, else any least loaded available node.  `ranges` is
the live range list (the replica counts are recomputed from it). -/
def migrateReplacementChoice (nodes : List Node) (nodeId : Nat)
    (ranges : List Range) (r : Range) : Option Node :=
  let availableReplaceNodes := availableReplaceNodesOf nodes r
  let existingReplicaNodes :=
    (r.replicas.filter (fun rid => rid != nodeId)).filterMap (findNode nodes)
  let existingRegions := existingReplicaNodes.map (fun n => n.region)
  let existingZones := existingReplicaNodes.map (fun n => (n.region, n.zone))
  let replicaCounts := calculateNodeReplicaCounts ranges
  let nodesInNewRegions := availableReplaceNodes.filter (fun n =>
    !(existingRegions.contains n.region))
  if !nodesInNewRegions.isEmpty then
    selectLeastLoadedNode nodesInNewRegions replicaCounts
  else
    let nodesInNewZones := availableReplaceNodes.filter (fun n =>
      !(existingZones.contains (n.region, n.zone)))
    if !nodesInNewZones.isEmpty then
      selectLeastLoadedNode nodesInNewZones replicaCounts
    else selectLeastLoadedNode availableReplaceNodes replicaCounts

/-- The per range body of migrateLeaseholdersFromOfflineNode (lines 1339
to 1472).  `ranges` is the whole live range list at the time this range
is visited. -/
def migrateOneRange (nodes : List Node) (offlineNode : Node) (nodeId : Nat)
    (ranges : List Range) (r : Range) : Range :=
  if r.replicas.contains nodeId then
    let lhStep := migrateLeaseholderChoice nodes offlineNode nodeId r
    let newLeaseholder := lhStep.1
    let movements0 := lhStep.2
    if (availableReplaceNodesOf nodes r).isEmpty then
      if r.leaseholder = nodeId ∧ newLeaseholder ≠ nodeId then
        { r with leaseholder := newLeaseholder, recentMovements := movements0 }
      else r
    else
      match migrateReplacementChoice nodes nodeId ranges r with
      | none => r
      | some repl =>
        let newReplicas := replaceId nodeId repl.id r.replicas
        let movements1 := recordReplicaMovement r.id nodeId repl.id false movements0
        { r with replicas := newReplicas, leaseholder := newLeaseholder,
                 recentMovements := movements1 }
  else r

/-- migrateLeaseholdersFromOfflineNode (lines 1333 to 1473): visit every
range index in order, rewriting the range in place. -/
def migrateLeaseholdersFromOfflineNode (s : SimState) (nodeId : Nat) : SimState :=
  match findNode s.nodes nodeId with
  | none => s
  | some offlineNode =>
    let newRanges :=
      (List.range s.ranges.length).foldl
        (updateAt (fun rs r => some (migrateOneRange s.nodes offlineNode nodeId rs r)))
        s.ranges
    { s with ranges := newRanges }

/-- The online replica ids of a range (order preserved). -/
def onlineReplicasOf (nodes : List Node) (r : Range) : List Nat :=
  r.replicas.filter (fun rid => isOnlineId nodes rid)

/-- The per range body of the under replication repair pass of
rebalanceToOnlineNode (lines 1681 to 1760); none when the range is
skipped. -/
def repairRange (nodes : List Node) (rf : Nat) (nodeId : Nat) (r : Range) :
    Option Range :=
  let onlineReplicas := onlineReplicasOf nodes r
  if r.replicas.contains nodeId then none
  else if onlineReplicas.length < rf then
    let newReplicas0 := onlineReplicas ++ [nodeId]
    let newReplicas :=
      if newReplicas0.length < rf then
        newReplicas0 ++
          (r.replicas.filter (fun rid => !(onlineReplicas.contains rid))).take
            (rf - newReplicas0.length)
      else newReplicas0
    let replacedNodeIds := r.replicas.filter (fun rid => !(newReplicas.contains rid))
    let movs0 := replacedNodeIds.foldl
      (fun ms rid =>
        if rid ≠ nodeId then recordReplicaMovement r.id rid nodeId false ms else ms)
      r.recentMovements
    let oldLeaseholder := r.leaseholder
    let newLeaseholder :=
      if onlineReplicas.contains oldLeaseholder then oldLeaseholder else nodeId
    let movs :=
      if oldLeaseholder ≠ newLeaseholder then
        recordReplicaMovement r.id oldLeaseholder newLeaseholder true movs0
      else movs0
    some { r with replicas := newReplicas, leaseholder := newLeaseholder,
                  recentMovements := movs }
  else none

/-- The per range body of the opportunistic pass of rebalanceToOnlineNode
(lines 1795 to 1876).  The source also tracks a zoneKeys set and bumps
the live replica counts; neither is read afterwards. -/
def opportunisticOne (nodes : List Node) (overloadedNodes : List Node)
    (nodeId : Nat) (range : Range) : Range :=
  let replicaNodes := range.replicas.filterMap (findNode nodes)
  let regionCounts : String → Nat :=
    fun reg => (replicaNodes.filter (fun n => n.region == reg)).length
  let overloadedReplicas := range.replicas.filter (fun rid =>
    overloadedNodes.any (fun n => n.id == rid))
  match overloadedReplicas.head? with
  | none => range
  | some dflt =>
    let overrepRegionReplicas := overloadedReplicas.filter (fun rid =>
      match findNode nodes rid with
      | some n => decide (1 < regionCounts n.region)
      | none => false)
    let replicaToReplace :=
      if !overrepRegionReplicas.isEmpty then
        match overrepRegionReplicas.find? (fun rid => rid != range.leaseholder) with
        | some rid => rid
        | none => overrepRegionReplicas.headD dflt
      else
        match overloadedReplicas.find? (fun rid => rid != range.leaseholder) with
        | some rid => rid
        | none => dflt
    let newReplicas := replaceId replicaToReplace nodeId range.replicas
    let movs0 :=
      recordReplicaMovement range.id replicaToReplace nodeId false range.recentMovements
    let isLeaseholderChanging := range.leaseholder = replicaToReplace
    let movs :=
      if isLeaseholderChanging then
        recordReplicaMovement range.id replicaToReplace nodeId true movs0
      else movs0
    { range with replicas := newReplicas,
                 leaseholder := if isLeaseholderChanging then nodeId else range.leaseholder,
                 recentMovements := movs }

/-- rebalanceToOnlineNode (lines 1663 to 1878).  The candidate shuffle of
the opportunistic pass is modelled as a shuffle of the candidate indices.
The live replica count map updated during the repair pass is read again
only inside the opportunistic pass, which runs only when the repair pass
visited no range, so the counts read there equal the initial counts. -/
def rebalanceToOnlineNode (s : SimState) (nodeId : Nat)
    (shufIdx : List Nat → List Nat) : SimState :=
  match findNode s.nodes nodeId with
  | none => s
  | some node =>
    if node.status != Status.online then s
    else
      let replicaCounts := calculateNodeReplicaCounts s.ranges
      let rf := s.config.replicationFactor
      let underIdx := (List.range s.ranges.length).filter (fun i =>
        match s.ranges[i]? with
        | some r => decide ((onlineReplicasOf s.nodes r).length < rf)
        | none => false)
      let rs1 := underIdx.foldl
        (updateAt (fun _ r => repairRange s.nodes rf nodeId r))
        s.ranges
      if underIdx.isEmpty then
        let onlineNodes := s.nodes.filter (fun n => n.status == Status.online)
        let overloadedNodes0 := onlineNodes.filter (fun n =>
          n.id != nodeId && decide (replicaCounts nodeId + 1 < replicaCounts n.id))
        if overloadedNodes0.isEmpty then { s with ranges := rs1 }
        else
          let overloadedNodes := sortByDesc (fun n => replicaCounts n.id) overloadedNodes0
          let candIdx := (List.range rs1.length).filter (fun i =>
            match rs1[i]? with
            | some r =>
              !(r.replicas.contains nodeId) &&
                r.replicas.any (fun rid => overloadedNodes.any (fun n => n.id == rid))
            | none => false)
          let maxRangesToRebalance := min 3 ((candIdx.length + 3) / 4)
          let chosen := (shufIdx candIdx).take maxRangesToRebalance
          let rs2 :=
            chosen.foldl
              (updateAt (fun _ range => some (opportunisticOne s.nodes overloadedNodes nodeId range)))
              rs1
          { s with ranges := rs2 }
      else { s with ranges := rs1 }

/-- toggleNodeStatus (lines 1007 to 1025). -/
def toggleNodeStatus (s : SimState) (nodeId : Nat)
    (shufIdx : List Nat → List Nat) : SimState :=
  match s.nodes.findIdx? (fun n => n.id == nodeId) with
  | none => s
  | some nodeIndex =>
    match s.nodes[nodeIndex]? with
    | none => s
    | some nd =>
      let newStatus := if nd.status == Status.online then Status.offline else Status.online
      let s1 := { s with nodes := s.nodes.set nodeIndex { nd with status := newStatus } }
      if newStatus == Status.offline then migrateLeaseholdersFromOfflineNode s1 nodeId
      else rebalanceToOnlineNode s1 nodeId shufIdx

/-- getNodeWithMostReplicas (lines 1497 to 1510): first maximum wins. -/
def getNodeWithMostReplicas (counts : Nat → Nat) (nodeIds : List Nat) : Option Nat :=
  (nodeIds.foldl
    (fun best nid =>
      match best with
      | none => some (nid, counts nid)
      | some (b, bc) => if bc < counts nid then some (nid, counts nid) else some (b, bc))
    none).map (fun p => p.1)

/-- The `regionsCount` record of rebalanceReplicas for one range: per
region (in encounter order among the resolved replicas) the ids of the
replicas it hosts. -/
def regionEntriesOf (nodes : List Node) (r : Range) : List (String × List Nat) :=
  let replicaNodes := r.replicas.filterMap (findNode nodes)
  (insertionDedup (replicaNodes.map (fun n => n.region))).map
    (fun reg => (reg, (replicaNodes.filter (fun n => n.region == reg)).map (fun n => n.id)))

/-- The body of the per range scan of rebalanceReplicas (lines 1521 to
1563): for one enumerated range, push the most loaded replica of an over
represented foreign region if there is one, then (when the accumulator
has not yet passed this index) the most loaded replica overall. -/
def rebalancePairStep (nodes : List Node) (counts : Nat → Nat) (newNode : Node)
    (acc : List (Nat × Nat)) (p : Nat × Range) : List (Nat × Nat) :=
  let rangeIndex := p.1
  let range := p.2
  let entries := regionEntriesOf nodes range
  let acc1 :=
    match entries.find? (fun e =>
      decide (1 < e.2.length) && newNode.region != e.1 &&
        (getNodeWithMostReplicas counts e.2).isSome) with
    | some e =>
      match getNodeWithMostReplicas counts e.2 with
      | some nid => acc ++ [(rangeIndex, nid)]
      | none => acc
    | none => acc
  if acc1.length ≤ rangeIndex then
    match getNodeWithMostReplicas counts range.replicas with
    | some nid => acc1 ++ [(rangeIndex, nid)]
    | none => acc1
  else acc1

/-- rebalanceReplicas (lines 1475 to 1588), run after addNode pushes the
new node.  The count bookkeeping of the perform loop (lines 1572 to 1577)
is never read afterwards and is not modelled. -/
def rebalanceReplicas (s : SimState)
    (shufPairs : List (Nat × Nat) → List (Nat × Nat)) : SimState :=
  match s.nodes.getLast? with
  | none => s
  | some newNode =>
    if newNode.status != Status.online then s
    else
      let replicaCounts := calculateNodeReplicaCounts s.ranges
      let rangesToRebalance :=
        (s.ranges.enum.foldl
          (rebalancePairStep s.nodes replicaCounts newNode)
          [])
      let maxRangesToRebalance := min 3 ((s.ranges.length + 3) / 4)
      let selectedPairs := (shufPairs rangesToRebalance).take maxRangesToRebalance
      let newRanges :=
        selectedPairs.foldl
          (fun rs p =>
            updateAt
              (fun _ range =>
                some { range with
                       replicas := replaceId p.2 newNode.id range.replicas,
                       leaseholder :=
                         if range.leaseholder = p.2 then newNode.id
                         else range.leaseholder })
              rs p.1)
          s.ranges
      { s with ranges := newRanges }

/-- addNode (lines 1028 to 1045): push a node with a random region and
zone (modelled as explicit picks) and rebalance replicas onto it. -/
def addNode (s : SimState) (region zone : String)
    (shufPairs : List (Nat × Nat) → List (Nat × Nat)) : SimState :=
  let newNode : Node := ⟨s.nextNodeId, region, zone, Status.online⟩
  rebalanceReplicas
    { s with nodes := s.nodes ++ [newNode], nextNodeId := s.nextNodeId + 1 }
    shufPairs

/-- One step of the per node status update loop of toggleRegionStatus:
find the node by id and set its status. -/
def setNodeStatusById (ns : List Node) (tid : Nat) (st : Status) : List Node :=
  match ns.findIdx? (fun n => n.id == tid) with
  | none => ns
  | some i =>
    match ns[i]? with
    | none => ns
    | some cur => ns.set i { cur with status := st }

/-- toggleRegionStatus (lines 1881 to 1917).  Each member node receives
its own candidate shuffle for the recovery path, indexed by position. -/
def toggleRegionStatus (s : SimState) (regionName : String)
    (shufs : Nat → List Nat → List Nat) : SimState :=
  let regionNodes := s.nodes.filter (fun n => n.region == regionName)
  let isRegionOffline := regionNodes.any (fun n => n.status == Status.offline)
  let newStatus := if isRegionOffline then Status.online else Status.offline
  let newNodes :=
    regionNodes.foldl
      (fun ns nd => setNodeStatusById ns nd.id newStatus)
      s.nodes
  let s1 := { s with nodes := newNodes }
  if newStatus == Status.offline then
    regionNodes.foldl (fun st nd => migrateLeaseholdersFromOfflineNode st nd.id) s1
  else
    regionNodes.enum.foldl
      (fun st p => rebalanceToOnlineNode st p.2.id (shufs p.1)) s1

/-- The random draws of one initializeCluster run: the region pool
shuffle and, per created range, the two selection shuffles. -/
structure InitChoice where
  shufAvail : List RegionInfo → List RegionInfo
  selCh : Nat → SelChoice

/-- selectRandomRegions (lines 1979 to 1984 of the class). -/
def selectRandomRegions (count : Nat) (ch : InitChoice) : List RegionInfo :=
  (ch.shufAvail availableRegions).take (min count availableRegions.length)

/-- createInitialNodes: sequential ids from 1, even ceiling distribution
across the selected regions, round robin across each region's zones. -/
def createInitialNodes (cfg : SimulatorConfig) (selRegions : List RegionInfo) :
    List Node × Nat :=
  let target := (cfg.nodeCount + selRegions.length - 1) / selRegions.length
  selRegions.foldl
    (fun (acc : List Node × Nat) region =>
      let nodeId := acc.2
      let cnt :=
        if nodeId + target ≤ cfg.nodeCount + 1 then target else cfg.nodeCount + 1 - nodeId
      let newNodes := (List.range cnt).map (fun i =>
        ({ id := nodeId + i, region := region.name,
           zone := region.zones.getD (i % region.zones.length) "",
           status := Status.online } : Node))
      (acc.1 ++ newNodes, nodeId + cnt))
    ([], 1)

/-- createInitialRanges: call addRange rangeCount times; a thrown error
aborts the remaining iterations and propagates. -/
def createInitialRanges (s : SimState) (selCh : Nat → SelChoice) :
    Option SimError × SimState :=
  (List.range s.config.rangeCount).foldl
    (fun acc i =>
      match acc.1 with
      | some _ => acc
      | none => addRangeE acc.2 (selCh i))
    (none, s)

/-- initializeCluster (lines 926 to 941): reset all state, pick regions,
create nodes, then create ranges (which can throw, leaving the partially
rebuilt state in place). -/
def initializeCluster (s : SimState) (ch : InitChoice) : Option SimError × SimState :=
  let selRegions := selectRandomRegions s.config.regionCount ch
  let built := createInitialNodes s.config selRegions
  createInitialRanges
    { s with nodes := built.1, ranges := [], nextNodeId := built.2,
             nextRangeId := 1, selectedRegions := selRegions }
    ch.selCh

/-- updateConfig (lines 983 to 990): install the new config and rebuild. -/
def updateConfig (s : SimState) (newConfig : SimulatorConfig) (ch : InitChoice) :
    Option SimError × SimState :=
  initializeCluster { s with config := newConfig } ch

/-- The constructor `new SimulatorService(config)`. -/
def mkSimulator (cfg : SimulatorConfig) (ch : InitChoice) : Option SimError × SimState :=
  initializeCluster
    { nodes := [], ranges := [], nextNodeId := 1, nextRangeId := 1,
      config := cfg, selectedRegions := [] } ch

/-- A function standing for a Math.random shuffle must permute its input. -/
def IsShuffle {α : Type} (f : List α → List α) : Prop := ∀ l, (f l).Perm l

/-- Well formedness of the draws of one replica selection. -/
def SelChoice.Wf (c : SelChoice) : Prop :=
  IsShuffle c.shufRegions ∧ IsShuffle c.shufUsedRegions

/-- Well formedness of the draws of one cluster initialization. -/
def InitChoice.Wf (c : InitChoice) : Prop :=
  IsShuffle c.shufAvail ∧ ∀ i, (c.selCh i).Wf

/-- One externally visible engine operation together with its random
draws. -/
inductive Op where
  | updateConfig (cfg : SimulatorConfig) (ch : InitChoice)
  | toggleNode (nodeId : Nat) (shufIdx : List Nat → List Nat)
  | toggleRegion (regionName : String) (shufs : Nat → List Nat → List Nat)
  | addNode (region zone : String) (shufPairs : List (Nat × Nat) → List (Nat × Nat))
  | addRange (ch : SelChoice)
  | markRangeHot (rangeId : Nat)

/-- The random draws of an operation are genuine draws: shuffles permute,
and addNode picks its region from the pool and its zone from a, b, c. -/
def Op.Wf : Op → Prop
  | .updateConfig _ ch => ch.Wf
  | .toggleNode _ f => IsShuffle f
  | .toggleRegion _ fs => ∀ k, IsShuffle (fs k)
  | .addNode region zone f =>
      region ∈ availableRegions.map (fun r => r.name) ∧
        zone ∈ ["a", "b", "c"] ∧ IsShuffle f
  | .addRange ch => ch.Wf
  | .markRangeHot _ => True

/-- The state an operation leaves the engine in (also on a throw). -/
def Op.apply : Op → SimState → SimState
  | .updateConfig cfg ch, s => (SimRoach.updateConfig s cfg ch).2
  | .toggleNode nid f, s => toggleNodeStatus s nid f
  | .toggleRegion rn fs, s => toggleRegionStatus s rn fs
  | .addNode r z f, s => SimRoach.addNode s r z f
  | .addRange ch, s => (addRangeE s ch).2
  | .markRangeHot rid, s => SimRoach.markRangeHot s rid

/-- One engine step: some well formed operation takes s to t. -/
def Step (s t : SimState) : Prop := ∃ op : Op, op.Wf ∧ op.apply s = t

/-- States produced by a successful constructor run. -/
def InitialState (s : SimState) : Prop :=
  ∃ cfg ch, InitChoice.Wf ch ∧ mkSimulator cfg ch = (none, s)

/-- States reachable from some successful constructor run through engine
operations. -/
def Reachable (s : SimState) : Prop :=
  ∃ s0, InitialState s0 ∧ Relation.ReflTransGen Step s0 s

/-- The node ids present in a state, in node order. -/
def nodeIds (s : SimState) : List Nat := s.nodes.map (fun n => n.id)

/-- Well formedness of one range against a node list: exactly rf
pairwise distinct replica ids, all naming existing nodes. -/
def RangeOk (nodes : List Node) (rf : Nat) (r : Range) : Prop :=
  r.replicas.length = rf ∧ r.replicas.Nodup ∧
    ∀ rid ∈ r.replicas, rid ∈ nodes.map (fun n => n.id)

/-- The structural well formedness invariant of the engine: node ids
are pairwise distinct and below the id counter, and every range holds
exactly replicationFactor pairwise distinct replica ids, all of which
name existing nodes. -/
def Invariant (s : SimState) : Prop :=
  (nodeIds s).Nodup ∧ (∀ n ∈ s.nodes, n.id < s.nextNodeId) ∧
    ∀ r ∈ s.ranges, RangeOk s.nodes s.config.replicationFactor r

/-- The weakened leaseholder placement property: the leaseholder of a
range either sits on one of the range's replicas, or names an existing
offline node (a degraded, unavailable range). -/
def WeakFor (nodes : List Node) (r : Range) : Prop :=
  r.leaseholder ∈ r.replicas ∨
    ∃ n ∈ nodes, n.id = r.leaseholder ∧ n.status = Status.offline

/-- Every replica id and the leaseholder id of a range name existing
nodes of the given node list. -/
def IdsOk (nodes : List Node) (r : Range) : Prop :=
  (∀ rid ∈ r.replicas, rid ∈ nodes.map (fun n => n.id)) ∧
    r.leaseholder ∈ nodes.map (fun n => n.id)

/-- The leaseholder existence invariant: every range's replica ids and
leaseholder id name nodes that exist in the cluster. -/
def LhInv (s : SimState) : Prop := ∀ r ∈ s.ranges, IdsOk s.nodes r

/-- Modelled from the spec (section 4.5 Region Toggle): collect the
member nodes of the named region, flip each member's status to the
opposite of the region's mixed state (region counted offline if any
member node is offline, else online), then invoke the failure migrator
or the recovery rebalancer once per member node, sequentially in node
order. -/
def toggleRegionStatusSpec (s : SimState) (regionName : String)
    (shufs : Nat → List Nat → List Nat) : SimState :=
  let memberNodes := s.nodes.filter (fun n => n.region == regionName)
  let anyMemberOffline := memberNodes.any (fun n => n.status == Status.offline)
  let newStatus := if anyMemberOffline then Status.online else Status.offline
  let s1 := { s with nodes := s.nodes.map (fun n =>
    if n.region == regionName then { n with status := newStatus } else n) }
  if newStatus == Status.offline then
    memberNodes.foldl (fun st nd => migrateLeaseholdersFromOfflineNode st nd.id) s1
  else
    memberNodes.enum.foldl
      (fun st p => rebalanceToOnlineNode st p.2.id (shufs p.1)) s1

/-! ### General list helper lemmas -/

theorem findIdx?_some_spec {α : Type} {p : α → Bool} :
    ∀ {l : List α} {i : Nat}, List.findIdx? p l = some i →
      (∃ x, l[i]? = some x ∧ p x = true) ∧
        ∀ j, j < i → ∀ y, l[j]? = some y → p y = false := by
  intro l
  induction l with
  | nil => intro i h; simp [List.findIdx?_nil] at h
  | cons a as ih =>
    intro i h
    rw [List.findIdx?_cons] at h
    by_cases hpa : p a = true
    · simp [hpa] at h
      subst h
      exact ⟨⟨a, by simp, hpa⟩, fun j hj => absurd hj (Nat.not_lt_zero j)⟩
    · have hpa' : p a = false := by simpa using hpa
      rw [hpa'] at h
      simp only [Bool.false_eq_true, if_false, List.findIdx?_succ] at h
      cases hfi : List.findIdx? p as with
      | none => rw [hfi] at h; simp at h
      | some n =>
        rw [hfi] at h
        simp only [Option.map_some'] at h
        obtain rfl : n + 1 = i := by simpa using h
        obtain ⟨hex, hlt⟩ := ih hfi
        refine ⟨by simpa using hex, ?_⟩
        intro j hj y hy
        cases j with
        | zero =>
          simp only [List.getElem?_cons_zero] at hy
          cases hy; exact hpa'
        | succ m =>
          exact hlt m (by omega) y (by simpa using hy)

theorem findIdx?_of_pointwise {α : Type} {p : α → Bool} :
    ∀ (l : List α) (i : Nat), (∃ x, l[i]? = some x ∧ p x = true) →
      (∀ j, j < i → ∀ y, l[j]? = some y → p y = false) →
      List.findIdx? p l = some i := by
  intro l
  induction l with
  | nil => intro i h _; obtain ⟨x, hx, _⟩ := h; simp at hx
  | cons a as ih =>
    intro i h hlt
    cases i with
    | zero =>
      obtain ⟨x, hx, hpx⟩ := h
      simp only [List.getElem?_cons_zero] at hx
      cases hx
      simp [List.findIdx?_cons, hpx]
    | succ n =>
      have ha : p a = false := hlt 0 (Nat.succ_pos n) a (by simp)
      have hrec : List.findIdx? p as = some n :=
        ih n (by simpa using h)
          (fun j hj y hy => hlt (j + 1) (by omega) y (by simpa using hy))
      simp [List.findIdx?_cons, ha, List.findIdx?_succ, hrec]

theorem findIdx?_set_same {α : Type} {p : α → Bool} {l : List α} {i : Nat} {x : α}
    (h : List.findIdx? p l = some i) (hx : p x = true) :
    List.findIdx? p (l.set i x) = some i := by
  obtain ⟨⟨x0, hx0, _⟩, hlt⟩ := findIdx?_some_spec h
  have hi : i < l.length := (List.getElem?_eq_some_iff.mp hx0).1
  apply findIdx?_of_pointwise
  · exact ⟨x, List.getElem?_set_self (by simpa using hi), hx⟩
  · intro j hj y hy
    rw [List.getElem?_set_ne (by omega)] at hy
    exact hlt j hj y hy

theorem foldl_preserve {α β : Type} {P : α → Prop} (f : α → β → α)
    (h : ∀ acc b, P acc → P (f acc b)) :
    ∀ (l : List β) (init : α), P init → P (l.foldl f init) := by
  intro l
  induction l with
  | nil => intro init h0; exact h0
  | cons b bs ih => intro init h0; exact ih (f init b) (h init b h0)

theorem length_updateAt (g : List Range → Range → Option Range) (rs : List Range)
    (i : Nat) : (updateAt g rs i).length = rs.length := by
  unfold updateAt
  cases h : rs[i]? with
  | none => simp
  | some r =>
    cases hg : g rs r with
    | none => simp [hg]
    | some r2 => simp [hg, List.length_set]

theorem getElem?_updateAt_ne (g : List Range → Range → Option Range)
    (rs : List Range) {i j : Nat} (hij : j ≠ i) :
    (updateAt g rs i)[j]? = rs[j]? := by
  unfold updateAt
  cases h : rs[i]? with
  | none => simp
  | some r =>
    cases hg : g rs r with
    | none => simp [hg]
    | some r2 => simp [hg, List.getElem?_set_ne (fun h => hij h.symm)]

theorem foldl_updateAt_length (g : List Range → Range → Option Range) :
    ∀ (is : List Nat) (rs : List Range),
      (is.foldl (updateAt g) rs).length = rs.length := by
  intro is
  induction is with
  | nil => intro rs; rfl
  | cons i is ih =>
    intro rs
    simp only [List.foldl_cons]
    rw [ih, length_updateAt]

theorem foldl_updateAt_untouched (g : List Range → Range → Option Range) :
    ∀ (is : List Nat) (rs : List Range) (j : Nat), j ∉ is →
      (is.foldl (updateAt g) rs)[j]? = rs[j]? := by
  intro is
  induction is with
  | nil => intro rs j _; rfl
  | cons i is ih =>
    intro rs j hj
    simp only [List.foldl_cons]
    rw [ih (updateAt g rs i) j (fun h => hj (List.mem_cons_of_mem i h)),
      getElem?_updateAt_ne g rs
        (fun h => hj (by rw [h]; exact List.mem_cons_self i is))]

theorem foldl_updateAt_processed (g : List Range → Range → Option Range) :
    ∀ (is : List Nat), is.Nodup → ∀ (rs : List Range) (j : Nat), j ∈ is →
      ∀ (r0 : Range), rs[j]? = some r0 →
        ∃ rsMid, rsMid[j]? = some r0 ∧
          (is.foldl (updateAt g) rs)[j]? =
            some ((g rsMid r0).getD r0) := by
  intro is
  induction is with
  | nil => intro _ rs j hj; exact absurd hj (List.not_mem_nil j)
  | cons i is ih =>
    intro hnd rs j hj r0 h0
    have hnd1 : is.Nodup := (List.nodup_cons.mp hnd).2
    rcases List.mem_cons.mp hj with rfl | hmem
    · -- processed now, untouched afterwards
      have hjlen : j < rs.length := (List.getElem?_eq_some_iff.mp h0).1
      have hjnot : j ∉ is := (List.nodup_cons.mp hnd).1
      refine ⟨rs, h0, ?_⟩
      simp only [List.foldl_cons]
      rw [foldl_updateAt_untouched g is _ j hjnot]
      unfold updateAt
      rw [h0]
      cases hg : g rs r0 with
      | none => simp only [hg, Option.getD_none]; exact h0
      | some r2 =>
        simp only [hg, Option.getD_some]
        exact List.getElem?_set_self hjlen
    · -- processed later; the first step does not move index j
      have hji : j ≠ i := by
        rintro rfl
        exact (List.nodup_cons.mp hnd).1 hmem
      have h0' : (updateAt g rs i)[j]? = some r0 := by
        rw [getElem?_updateAt_ne g rs hji]; exact h0
      obtain ⟨rsMid, hmid, hres⟩ := ih hnd1 (updateAt g rs i) j hmem r0 h0'
      exact ⟨rsMid, hmid, by simpa [List.foldl_cons] using hres⟩

theorem mem_updateAt {g : List Range → Range → Option Range} {rs : List Range}
    {i : Nat} {r : Range} (hr : r ∈ updateAt g rs i) :
    r ∈ rs ∨ ∃ r1, rs[i]? = some r1 ∧ g rs r1 = some r := by
  unfold updateAt at hr
  cases h0 : rs[i]? with
  | none => rw [h0] at hr; exact Or.inl hr
  | some r1 =>
    rw [h0] at hr
    have hr2 : r ∈ (match g rs r1 with | none => rs | some r2 => rs.set i r2) := hr
    cases hg1 : g rs r1 with
    | none => rw [hg1] at hr2; exact Or.inl hr2
    | some r2 =>
      rw [hg1] at hr2
      rcases List.mem_or_eq_of_mem_set hr2 with hr' | rfl
      · exact Or.inl hr'
      · exact Or.inr ⟨r1, rfl, hg1⟩

theorem foldl_updateAt_forall (g : List Range → Range → Option Range)
    {Q : Range → Prop}
    (hg : ∀ rs r r2, Q r → g rs r = some r2 → Q r2) :
    ∀ (is : List Nat) (rs : List Range), (∀ r ∈ rs, Q r) →
      ∀ r ∈ is.foldl (updateAt g) rs, Q r := by
  intro is
  induction is with
  | nil => intro rs h r hr; exact h r hr
  | cons i is ih =>
    intro rs h
    simp only [List.foldl_cons]
    apply ih
    intro r hr
    rcases mem_updateAt hr with hr' | ⟨r1, h0, hg1⟩
    · exact h r hr'
    · exact hg rs r1 r (h r1 (List.getElem?_mem h0)) hg1

/-! ### replaceId lemmas -/

theorem length_replaceId (a b : Nat) (l : List Nat) :
    (replaceId a b l).length = l.length := List.length_map l _

theorem mem_replaceId {a b x : Nat} {l : List Nat} (h : x ∈ replaceId a b l) :
    x ∈ l ∨ x = b := by
  unfold replaceId at h
  obtain ⟨y, hy, hxy⟩ := List.mem_map.mp h
  by_cases hya : y = a
  · right; rw [hya, if_pos rfl] at hxy; exact hxy.symm
  · left; rw [if_neg hya] at hxy; exact hxy ▸ hy

theorem mem_replaceId_of_mem {a b x : Nat} {l : List Nat} (hx : x ∈ l)
    (hxa : x ≠ a) : x ∈ replaceId a b l := by
  unfold replaceId
  exact List.mem_map.mpr ⟨x, hx, by simp [hxa]⟩

theorem mem_replaceId_of_mem_left {a b : Nat} {l : List Nat} (ha : a ∈ l) :
    b ∈ replaceId a b l := by
  unfold replaceId
  exact List.mem_map.mpr ⟨a, ha, by simp⟩

theorem nodup_replaceId {a b : Nat} :
    ∀ {l : List Nat}, l.Nodup → b ∉ l → (replaceId a b l).Nodup := by
  intro l
  induction l with
  | nil => intro _ _; exact List.nodup_nil
  | cons x xs ih =>
    intro hnd hb
    have hndx := List.nodup_cons.mp hnd
    have hbxs : b ∉ xs := fun h => hb (List.mem_cons_of_mem x h)
    have hbxne : b ≠ x := fun h => hb (h ▸ List.mem_cons_self x xs)
    simp only [replaceId, List.map_cons]
    refine List.nodup_cons.mpr ⟨?_, ih hndx.2 hbxs⟩
    intro hmem
    obtain ⟨y, hy, hxy⟩ := List.mem_map.mp hmem
    by_cases hya : y = a
    · rw [hya, if_pos rfl] at hxy
      by_cases hxa : x = a
      · exact hndx.1 (hxa ▸ hya ▸ hy)
      · rw [if_neg hxa] at hxy; exact hbxne hxy
    · rw [if_neg hya] at hxy
      by_cases hxa : x = a
      · rw [if_pos hxa] at hxy; exact hbxs (hxy ▸ hy)
      · rw [if_neg hxa] at hxy; exact hndx.1 (hxy ▸ hy)

theorem not_mem_replaceId {a b c : Nat} {l : List Nat} (hc : c ∉ l)
    (hcb : c ≠ b) : c ∉ replaceId a b l := by
  intro h
  unfold replaceId at h
  obtain ⟨y, hy, hyc⟩ := List.mem_map.mp h
  by_cases hya : y = a
  · rw [hya, if_pos rfl] at hyc; exact hcb hyc.symm
  · rw [if_neg hya] at hyc; exact hc (hyc ▸ hy)

/-! ### Stable sort lemmas -/

theorem insertAsc_perm (key : Node → Nat) (x : Node) :
    ∀ (l : List Node), (insertAsc key x l).Perm (x :: l) := by
  intro l
  induction l with
  | nil => exact List.Perm.refl _
  | cons y ys ih =>
    unfold insertAsc
    by_cases h : key y ≤ key x
    · rw [if_pos h]
      exact (List.Perm.cons y ih).trans (List.Perm.swap x y ys)
    · rw [if_neg h]

theorem sortByAsc_perm (key : Node → Nat) (l : List Node) :
    (sortByAsc key l).Perm l := by
  have main : ∀ (l acc : List Node),
      (l.foldl (fun acc x => insertAsc key x acc) acc).Perm (acc ++ l) := by
    intro l
    induction l with
    | nil => intro acc; simp
    | cons x xs ih =>
      intro acc
      simp only [List.foldl_cons]
      refine ((ih (insertAsc key x acc)).trans
        ((insertAsc_perm key x acc).append_right xs)).trans ?_
      exact List.perm_middle.symm
  simpa using main l []

theorem insertDesc_perm (key : Node → Nat) (x : Node) :
    ∀ (l : List Node), (insertDesc key x l).Perm (x :: l) := by
  intro l
  induction l with
  | nil => exact List.Perm.refl _
  | cons y ys ih =>
    unfold insertDesc
    by_cases h : key x ≤ key y
    · rw [if_pos h]
      exact (List.Perm.cons y ih).trans (List.Perm.swap x y ys)
    · rw [if_neg h]

theorem sortByDesc_perm (key : Node → Nat) (l : List Node) :
    (sortByDesc key l).Perm l := by
  have main : ∀ (l acc : List Node),
      (l.foldl (fun acc x => insertDesc key x acc) acc).Perm (acc ++ l) := by
    intro l
    induction l with
    | nil => intro acc; simp
    | cons x xs ih =>
      intro acc
      simp only [List.foldl_cons]
      refine ((ih (insertDesc key x acc)).trans
        ((insertDesc_perm key x acc).append_right xs)).trans ?_
      exact List.perm_middle.symm
  simpa using main l []

theorem insertAsc_sorted (key : Node → Nat) (x : Node) :
    ∀ {l : List Node}, List.Sorted (fun a b => key a ≤ key b) l →
      List.Sorted (fun a b => key a ≤ key b) (insertAsc key x l) := by
  intro l
  induction l with
  | nil => intro _; exact List.sorted_singleton x
  | cons y ys ih =>
    intro hs
    have hy := List.sorted_cons.mp hs
    unfold insertAsc
    by_cases h : key y ≤ key x
    · rw [if_pos h]
      refine List.sorted_cons.mpr ⟨?_, ih hy.2⟩
      intro b hb
      have := (insertAsc_perm key x ys).mem_iff.mp hb
      rcases List.mem_cons.mp this with rfl | hmem
      · exact h
      · exact hy.1 b hmem
    · rw [if_neg h]
      refine List.sorted_cons.mpr ⟨?_, hs⟩
      intro b hb
      rcases List.mem_cons.mp hb with rfl | hmem
      · omega
      · exact le_trans (by omega) (hy.1 b hmem)

theorem sortByAsc_sorted (key : Node → Nat) (l : List Node) :
    List.Sorted (fun a b => key a ≤ key b) (sortByAsc key l) := by
  have main : ∀ (l acc : List Node), List.Sorted (fun a b => key a ≤ key b) acc →
      List.Sorted (fun a b => key a ≤ key b)
        (l.foldl (fun acc x => insertAsc key x acc) acc) := by
    intro l
    induction l with
    | nil => intro acc h; exact h
    | cons x xs ih =>
      intro acc h
      exact ih (insertAsc key x acc) (insertAsc_sorted key x h)
  exact main l [] (by simp)

theorem sortByAsc_head_min (key : Node → Nat) {l : List Node} {m : Node}
    (h : (sortByAsc key l).head? = some m) :
    m ∈ l ∧ ∀ y ∈ l, key m ≤ key y := by
  obtain ⟨ys, hys⟩ := List.head?_eq_some_iff.mp h
  have hperm := sortByAsc_perm key l
  have hmem : m ∈ l := hperm.mem_iff.mp (hys ▸ List.mem_cons_self m ys)
  refine ⟨hmem, ?_⟩
  intro y hy
  have hymem : y ∈ m :: ys := hys ▸ hperm.mem_iff.mpr hy
  rcases List.mem_cons.mp hymem with rfl | hmem'
  · exact le_refl _
  · have hs := sortByAsc_sorted key l
    rw [hys] at hs
    exact (List.sorted_cons.mp hs).1 y hmem'

theorem sortByAsc_head_some {key : Node → Nat} {l : List Node}
    (h : l ≠ []) : ∃ m, (sortByAsc key l).head? = some m := by
  have hlen : (sortByAsc key l).length = l.length := (sortByAsc_perm key l).length_eq
  cases hs : sortByAsc key l with
  | nil => rw [hs] at hlen; exact absurd (List.length_eq_zero.mp hlen.symm) h
  | cons a as => exact ⟨a, rfl⟩

/-! ### insertionDedup lemmas -/

theorem mem_insertionDedup {x : String} {l : List String} :
    x ∈ insertionDedup l ↔ x ∈ l := by
  have main : ∀ (l acc : List String),
      (x ∈ l.foldl (fun acc y => if y ∈ acc then acc else acc ++ [y]) acc ↔
        x ∈ acc ∨ x ∈ l) := by
    intro l
    induction l with
    | nil => intro acc; simp
    | cons y ys ih =>
      intro acc
      simp only [List.foldl_cons]
      by_cases hy : y ∈ acc
      · rw [if_pos hy, ih]
        constructor
        · rintro (h | h)
          · exact Or.inl h
          · exact Or.inr (List.mem_cons_of_mem y h)
        · rintro (h | h)
          · exact Or.inl h
          · rcases List.mem_cons.mp h with rfl | h'
            · exact Or.inl hy
            · exact Or.inr h'
      · rw [if_neg hy, ih]
        simp only [List.mem_append, List.mem_singleton, List.mem_cons]
        tauto
  unfold insertionDedup
  rw [main l []]
  simp

theorem nodup_insertionDedup (l : List String) : (insertionDedup l).Nodup := by
  have main : ∀ (l acc : List String), acc.Nodup →
      (l.foldl (fun acc y => if y ∈ acc then acc else acc ++ [y]) acc).Nodup := by
    intro l
    induction l with
    | nil => intro acc h; exact h
    | cons y ys ih =>
      intro acc h
      simp only [List.foldl_cons]
      by_cases hy : y ∈ acc
      · rw [if_pos hy]; exact ih acc h
      · rw [if_neg hy]
        refine ih _ (List.Nodup.append h (List.nodup_singleton y) ?_)
        intro a ha hays
        rw [List.mem_singleton] at hays
        exact hy (hays ▸ ha)
  exact main l [] List.nodup_nil

/-! ### findNode and selection helper lemmas -/

theorem findNode_spec {nodes : List Node} {id : Nat} {n : Node}
    (h : findNode nodes id = some n) : n ∈ nodes ∧ n.id = id := by
  unfold findNode at h
  have hm := List.mem_of_find?_eq_some h
  have hp := List.find?_some h
  exact ⟨hm, by simpa using hp⟩

theorem isOnlineId_spec {nodes : List Node} {id : Nat}
    (h : isOnlineId nodes id = true) :
    ∃ n, findNode nodes id = some n ∧ n.status = Status.online := by
  unfold isOnlineId at h
  cases hf : findNode nodes id with
  | none => rw [hf] at h; exact absurd h (by simp)
  | some n =>
    rw [hf] at h
    exact ⟨n, rfl, by simpa using h⟩

theorem selectLeastLoadedNode_mem {nodes : List Node} {counts : Nat → Nat}
    {n : Node} (h : selectLeastLoadedNode nodes counts = some n) : n ∈ nodes :=
  (sortByAsc_head_min (fun n => counts n.id) h).1

theorem selectLeastLoadedNode_some {nodes : List Node} {counts : Nat → Nat}
    (h : nodes ≠ []) : ∃ n, selectLeastLoadedNode nodes counts = some n :=
  sortByAsc_head_some h

/-- Partition of a list by a boolean predicate: the two filters together
have the length of the list. -/
theorem length_filter_partition {α : Type} (p : α → Bool) (l : List α) :
    (l.filter p).length + (l.filter (fun a => !(p a))).length = l.length := by
  induction l with
  | nil => rfl
  | cons x xs ih =>
    by_cases h : p x = true
    · simp [List.filter_cons, h, Nat.succ_add, ih]
    · have h' : p x = false := by simpa using h
      simp [List.filter_cons, h']
      omega

/-! ### C9: nonexistent ids are silent no-ops -/

/-- C9: for every state and every node or range id that does not exist in
that state, toggleNode with that node id and markRangeHot with that range
id are silent no-ops: they raise no error and leave the entire engine
state (all nodes and all ranges) unchanged. -/
theorem c9_notfound_silent_noop (s : SimState) (nodeId rangeId : Nat)
    (shufIdx : List Nat → List Nat)
    (hn : ∀ n ∈ s.nodes, n.id ≠ nodeId)
    (hr : ∀ r ∈ s.ranges, r.id ≠ rangeId) :
    toggleNodeStatus s nodeId shufIdx = s ∧ markRangeHot s rangeId = s := by
  constructor
  · unfold toggleNodeStatus
    have hnone : s.nodes.findIdx? (fun n => n.id == nodeId) = none :=
      List.findIdx?_eq_none_iff.mpr (fun n hn' => by simpa using hn n hn')
    rw [hnone]
  · unfold markRangeHot
    have hnone : s.ranges.findIdx? (fun r => r.id == rangeId) = none :=
      List.findIdx?_eq_none_iff.mpr (fun r hr' => by simpa using hr r hr')
    rw [hnone]

/-- Witness for C9 at a concrete state that has a node and a range, and a
looked-up id (7) that exists nowhere. -/
theorem c9_notfound_silent_noop_witness :
    toggleNodeStatus
        ⟨[⟨2, "us-east", "a", Status.online⟩], [⟨3, [2], 2, 10, []⟩], 3, 4,
          ⟨3, 1, 6, 3⟩, []⟩ 7 id =
      ⟨[⟨2, "us-east", "a", Status.online⟩], [⟨3, [2], 2, 10, []⟩], 3, 4,
        ⟨3, 1, 6, 3⟩, []⟩ ∧
    markRangeHot
        ⟨[⟨2, "us-east", "a", Status.online⟩], [⟨3, [2], 2, 10, []⟩], 3, 4,
          ⟨3, 1, 6, 3⟩, []⟩ 7 =
      ⟨[⟨2, "us-east", "a", Status.online⟩], [⟨3, [2], 2, 10, []⟩], 3, 4,
        ⟨3, 1, 6, 3⟩, []⟩ :=
  c9_notfound_silent_noop _ 7 7 id (by decide) (by decide)

/-! ### C3: addRange capacity error -/

/-- C3: for every state, addRange raises a capacity error if and only if
the number of online nodes is strictly less than the configured
replicationFactor, and on that failure no range is created (the range
count is unchanged; in fact the whole state is unchanged). -/
theorem c3_addRange_capacity_iff (s : SimState) (ch : SelChoice) :
    ((addRangeE s ch).1 = some SimError.capacity ↔
      (s.nodes.filter (fun n => n.status == Status.online)).length <
        s.config.replicationFactor) ∧
    ((addRangeE s ch).1 = some SimError.capacity →
      (addRangeE s ch).2.ranges.length = s.ranges.length) := by
  by_cases h : (s.nodes.filter (fun n => n.status == Status.online)).length <
      s.config.replicationFactor
  · have he : addRangeE s ch = (some SimError.capacity, s) := by
      unfold addRangeE
      rw [if_pos h]
    rw [he]
    exact ⟨⟨fun _ => h, fun _ => rfl⟩, fun _ => rfl⟩
  · have he : (addRangeE s ch).1 = none ∨ (addRangeE s ch).1 = some SimError.typeError := by
      unfold addRangeE
      rw [if_neg h]
      dsimp only
      cases hh : (sortByDesc
          (fun n => (s.nodes.filter (fun m => m.region == n.region)).length)
          (selectNodesForReplicas s.ranges
            (s.nodes.filter (fun n => n.status == Status.online))
            s.config.replicationFactor ch)).head? with
      | none => exact Or.inr rfl
      | some lead => exact Or.inl rfl
    constructor
    · constructor
      · intro hc
        rcases he with he | he <;> rw [he] at hc <;> simp at hc
      · intro hc; exact absurd hc h
    · intro hc
      rcases he with he | he <;> rw [he] at hc <;> simp at hc

/-- Witness for C3 at a concrete two node state with replication factor
three: the capacity error fires and the ranges are untouched. -/
theorem c3_addRange_capacity_iff_witness :
    ((addRangeE
        ⟨[⟨1, "us-east", "a", Status.online⟩, ⟨2, "us-east", "b", Status.offline⟩],
          [], 3, 1, ⟨1, 3, 2, 1⟩, []⟩ ⟨id, id⟩).1 = some SimError.capacity ↔
      ((⟨[⟨1, "us-east", "a", Status.online⟩, ⟨2, "us-east", "b", Status.offline⟩],
          [], 3, 1, ⟨1, 3, 2, 1⟩, []⟩ : SimState).nodes.filter
            (fun n => n.status == Status.online)).length <
        (⟨1, 3, 2, 1⟩ : SimulatorConfig).replicationFactor) ∧
    ((addRangeE
        ⟨[⟨1, "us-east", "a", Status.online⟩, ⟨2, "us-east", "b", Status.offline⟩],
          [], 3, 1, ⟨1, 3, 2, 1⟩, []⟩ ⟨id, id⟩).1 = some SimError.capacity →
      (addRangeE
        ⟨[⟨1, "us-east", "a", Status.online⟩, ⟨2, "us-east", "b", Status.offline⟩],
          [], 3, 1, ⟨1, 3, 2, 1⟩, []⟩ ⟨id, id⟩).2.ranges.length = 0) :=
  c3_addRange_capacity_iff _ ⟨id, id⟩

/-! ### C10: markRangeHot frame -/

theorem balanceHotRange_frame (s : SimState) (rangeId : Nat) {i : Nat} {range : Range}
    (hidx : s.ranges.findIdx? (fun r => r.id == rangeId) = some i)
    (hget : s.ranges[i]? = some range) :
    balanceHotRange s rangeId = s ∨
    ∃ b, balanceHotRange s rangeId =
      { s with ranges := s.ranges.set i { range with leaseholder := b } } := by
  unfold balanceHotRange
  rw [hidx]
  dsimp only
  rw [hget]
  dsimp only
  split
  · exact Or.inl rfl
  · split
    · exact Or.inl rfl
    · split
      · split
        · exact Or.inl rfl
        · split
          · exact Or.inr ⟨_, rfl⟩
          · exact Or.inl rfl
      · exact Or.inl rfl

/-- C10: for every state containing a range with the given id,
markRangeHot changes only that range's load and leaseholder fields: its
replicas list, id and recentMovements, every other range entirely, and
all nodes are identical before and after the operation. -/
theorem c10_markRangeHot_frame (s : SimState) (rangeId : Nat) {i : Nat}
    (hidx : s.ranges.findIdx? (fun r => r.id == rangeId) = some i) :
    (markRangeHot s rangeId).nodes = s.nodes ∧
    (markRangeHot s rangeId).ranges.length = s.ranges.length ∧
    (∀ j, j ≠ i → (markRangeHot s rangeId).ranges[j]? = s.ranges[j]?) ∧
    ∃ r0 r1, s.ranges[i]? = some r0 ∧
      (markRangeHot s rangeId).ranges[i]? = some r1 ∧
      r1.id = r0.id ∧ r1.replicas = r0.replicas ∧
      r1.recentMovements = r0.recentMovements := by
  obtain ⟨⟨r0, hr0, hp0⟩, _⟩ := findIdx?_some_spec hidx
  have hi : i < s.ranges.length := (List.getElem?_eq_some_iff.mp hr0).1
  have hmk : markRangeHot s rangeId =
      balanceHotRange { s with ranges := s.ranges.set i { r0 with load := 80 } } rangeId := by
    unfold markRangeHot
    rw [hidx]
    dsimp only
    rw [hr0]
  have hidx2 : ({ s with ranges := s.ranges.set i { r0 with load := 80 } } :
      SimState).ranges.findIdx? (fun r => r.id == rangeId) = some i :=
    findIdx?_set_same hidx hp0
  have hget2 : ({ s with ranges := s.ranges.set i { r0 with load := 80 } } :
      SimState).ranges[i]? = some { r0 with load := 80 } :=
    List.getElem?_set_self (by simpa using hi)
  rcases balanceHotRange_frame _ rangeId hidx2 hget2 with hb | ⟨b, hb⟩
  · rw [hmk, hb]
    refine ⟨rfl, by simp [List.length_set], ?_, ?_⟩
    · intro j hj
      exact List.getElem?_set_ne (Ne.symm hj)
    · exact ⟨r0, { r0 with load := 80 }, hr0, hget2, rfl, rfl, rfl⟩
  · rw [hmk, hb]
    refine ⟨rfl, by simp [List.length_set], ?_, ?_⟩
    · intro j hj
      rw [List.getElem?_set_ne (Ne.symm hj), List.getElem?_set_ne (Ne.symm hj)]
    · refine ⟨r0, { r0 with load := 80, leaseholder := b }, hr0, ?_, rfl, rfl, rfl⟩
      exact List.getElem?_set_self (by simpa using hi)

/-- Witness for C10 at a concrete state with two ranges: the hot range
sits at index 0. -/
theorem c10_markRangeHot_frame_witness :
    (markRangeHot
        ⟨[⟨1, "us-east", "a", Status.online⟩], [⟨1, [1], 1, 10, []⟩, ⟨2, [1], 1, 10, []⟩],
          2, 3, ⟨1, 1, 1, 2⟩, []⟩ 1).nodes =
      [⟨1, "us-east", "a", Status.online⟩] ∧
    (markRangeHot
        ⟨[⟨1, "us-east", "a", Status.online⟩], [⟨1, [1], 1, 10, []⟩, ⟨2, [1], 1, 10, []⟩],
          2, 3, ⟨1, 1, 1, 2⟩, []⟩ 1).ranges.length = 2 ∧
    (∀ j, j ≠ 0 →
      (markRangeHot
        ⟨[⟨1, "us-east", "a", Status.online⟩], [⟨1, [1], 1, 10, []⟩, ⟨2, [1], 1, 10, []⟩],
          2, 3, ⟨1, 1, 1, 2⟩, []⟩ 1).ranges[j]? =
        [(⟨1, [1], 1, 10, []⟩ : Range), ⟨2, [1], 1, 10, []⟩][j]?) ∧
    ∃ r0 r1, [(⟨1, [1], 1, 10, []⟩ : Range), ⟨2, [1], 1, 10, []⟩][(0 : Nat)]? = some r0 ∧
      (markRangeHot
        ⟨[⟨1, "us-east", "a", Status.online⟩], [⟨1, [1], 1, 10, []⟩, ⟨2, [1], 1, 10, []⟩],
          2, 3, ⟨1, 1, 1, 2⟩, []⟩ 1).ranges[(0 : Nat)]? = some r1 ∧
      r1.id = r0.id ∧ r1.replicas = r0.replicas ∧
      r1.recentMovements = r0.recentMovements :=
  c10_markRangeHot_frame _ 1 (by decide)

/-! ### C2: failure atomicity of configure and addRange -/

/-- C2 counterexample: updateConfig with a capacity-inconsistent new
configuration (replicationFactor 3, nodeCount 1) throws, yet the prior
node state (one eu-west node) has been replaced by the freshly generated
us-east node of the aborted rebuild. -/
theorem c2_counterexample :
    InitChoice.Wf ⟨id, fun _ => ⟨id, id⟩⟩ ∧
    (updateConfig
        ⟨[⟨1, "eu-west", "b", Status.online⟩], [], 2, 1, ⟨1, 1, 1, 1⟩, []⟩
        ⟨1, 3, 1, 1⟩ ⟨id, fun _ => ⟨id, id⟩⟩).1 = some SimError.capacity ∧
    (updateConfig
        ⟨[⟨1, "eu-west", "b", Status.online⟩], [], 2, 1, ⟨1, 1, 1, 1⟩, []⟩
        ⟨1, 3, 1, 1⟩ ⟨id, fun _ => ⟨id, id⟩⟩).2.nodes ≠
      [⟨1, "eu-west", "b", Status.online⟩] := by
  refine ⟨⟨fun l => List.Perm.refl l,
    fun i => ⟨fun l => List.Perm.refl l, fun l => List.Perm.refl l⟩⟩, ?_, ?_⟩
  · decide
  · decide

/-- C2 amended: addRange either fully succeeds or rejects before mutating
any state, but updateConfig discards the prior node and range state
unconditionally: its outcome is a function of the new configuration and
the random draws alone, so a failing updateConfig leaves the engine in
the partially rebuilt state rather than the prior state. -/
theorem c2_amended_failure_atomicity (s t : SimState) (cfg : SimulatorConfig)
    (ich : InitChoice) (ch : SelChoice) :
    ((addRangeE s ch).1.isSome → (addRangeE s ch).2 = s) ∧
    updateConfig s cfg ich = updateConfig t cfg ich := by
  constructor
  · intro herr
    by_cases h : (s.nodes.filter (fun n => n.status == Status.online)).length <
        s.config.replicationFactor
    · unfold addRangeE
      rw [if_pos h]
    · revert herr
      unfold addRangeE
      rw [if_neg h]
      dsimp only
      cases hh : (sortByDesc
          (fun n => (s.nodes.filter (fun m => m.region == n.region)).length)
          (selectNodesForReplicas s.ranges
            (s.nodes.filter (fun n => n.status == Status.online))
            s.config.replicationFactor ch)).head? with
      | none => intro _; rfl
      | some lead => intro herr; simp at herr
  · rfl

/-- Witness for C2: the addRange part discharged at a zero node state
(where the capacity error fires), the updateConfig part at two different
prior states. -/
theorem c2_amended_failure_atomicity_witness :
    (addRangeE ⟨[], [], 1, 1, ⟨1, 1, 0, 0⟩, []⟩ ⟨id, id⟩).2 =
      ⟨[], [], 1, 1, ⟨1, 1, 0, 0⟩, []⟩ ∧
    updateConfig ⟨[], [], 1, 1, ⟨1, 1, 0, 0⟩, []⟩ ⟨3, 3, 6, 3⟩ ⟨id, fun _ => ⟨id, id⟩⟩ =
      updateConfig ⟨[⟨9, "sa-east", "c", Status.offline⟩], [], 10, 1, ⟨2, 2, 2, 2⟩, []⟩
        ⟨3, 3, 6, 3⟩ ⟨id, fun _ => ⟨id, id⟩⟩ :=
  ⟨(c2_amended_failure_atomicity ⟨[], [], 1, 1, ⟨1, 1, 0, 0⟩, []⟩
      ⟨[⟨9, "sa-east", "c", Status.offline⟩], [], 10, 1, ⟨2, 2, 2, 2⟩, []⟩
      ⟨3, 3, 6, 3⟩ ⟨id, fun _ => ⟨id, id⟩⟩ ⟨id, id⟩).1 (by decide),
    (c2_amended_failure_atomicity ⟨[], [], 1, 1, ⟨1, 1, 0, 0⟩, []⟩
      ⟨[⟨9, "sa-east", "c", Status.offline⟩], [], 10, 1, ⟨2, 2, 2, 2⟩, []⟩
      ⟨3, 3, 6, 3⟩ ⟨id, fun _ => ⟨id, id⟩⟩ ⟨id, id⟩).2⟩

/-! ### C7: hot range leaseholder rebalance -/

/-- C7 counterexample: a range whose leaseholder (node 1, us-east,
offline) sits in a region whose aggregate leaseholder load after the hot
marking is 80 > 40, with an online replica (node 2, us-west, aggregate
load 0, so the lowest loaded region) different from the leaseholder; the
claim requires the leaseholder to move to node 2, but the code reaches
its early return (only one online replica) and leaves the leaseholder at
node 1. -/
theorem c7_counterexample :
    40 < calculateRegionLoad
        ⟨[⟨1, "us-east", "a", Status.offline⟩, ⟨2, "us-west", "a", Status.online⟩,
          ⟨3, "us-east", "b", Status.offline⟩],
          [⟨1, [1, 2, 3], 1, 80, []⟩], 4, 2, ⟨2, 3, 3, 1⟩, []⟩ "us-east" ∧
    calculateRegionLoad
        ⟨[⟨1, "us-east", "a", Status.offline⟩, ⟨2, "us-west", "a", Status.online⟩,
          ⟨3, "us-east", "b", Status.offline⟩],
          [⟨1, [1, 2, 3], 1, 80, []⟩], 4, 2, ⟨2, 3, 3, 1⟩, []⟩ "us-west" = 0 ∧
    isOnlineId
        [⟨1, "us-east", "a", Status.offline⟩, ⟨2, "us-west", "a", Status.online⟩,
          ⟨3, "us-east", "b", Status.offline⟩] 2 = true ∧
    (2 : Nat) ∈ [1, 2, 3] ∧ (2 : Nat) ≠ 1 ∧
    (markRangeHot
        ⟨[⟨1, "us-east", "a", Status.offline⟩, ⟨2, "us-west", "a", Status.online⟩,
          ⟨3, "us-east", "b", Status.offline⟩],
          [⟨1, [1, 2, 3], 1, 10, []⟩], 4, 2, ⟨2, 3, 3, 1⟩, []⟩ 1).ranges =
      [⟨1, [1, 2, 3], 1, 80, []⟩] := by
  decide

/-- C7 amended: for every state containing a range with the given id,
markRangeHot sets that range's load to 80, and then, provided at least
two of the range's replicas resolve to online nodes and the current
leaseholder id resolves to a node, if the sum of load over all ranges
whose leaseholder resides in that node's region (in the already hot
marked state) exceeds 40, the new leaseholder is an online replica of
the range whose region has the lowest aggregate leaseholder load. -/
theorem c7_amended_markRangeHot (s : SimState) (rangeId : Nat) {i : Nat} {r0 : Range}
    {lhNode : Node}
    (hidx : s.ranges.findIdx? (fun r => r.id == rangeId) = some i)
    (hget : s.ranges[i]? = some r0)
    (hlh : findNode s.nodes r0.leaseholder = some lhNode)
    (honline : 2 ≤ (onlineReplicaNodesOf s.nodes r0).length)
    (hload : 40 < calculateRegionLoad
        { s with ranges := s.ranges.set i { r0 with load := 80 } } lhNode.region) :
    ∃ r1, (markRangeHot s rangeId).ranges[i]? = some r1 ∧
      r1.load = 80 ∧ r1.replicas = r0.replicas ∧
      ∃ m, m ∈ onlineReplicaNodesOf s.nodes r0 ∧ r1.leaseholder = m.id ∧
        ∀ o ∈ onlineReplicaNodesOf s.nodes r0,
          calculateRegionLoad { s with ranges := s.ranges.set i { r0 with load := 80 } }
              m.region ≤
            calculateRegionLoad { s with ranges := s.ranges.set i { r0 with load := 80 } }
              o.region := by
  obtain ⟨⟨rx, hrx, hp0⟩, _⟩ := findIdx?_some_spec hidx
  have hrr : rx = r0 := by rw [hrx] at hget; exact Option.some_injective _ hget
  subst hrr
  have hi : i < s.ranges.length := (List.getElem?_eq_some_iff.mp hrx).1
  have hmk : markRangeHot s rangeId =
      balanceHotRange { s with ranges := s.ranges.set i { rx with load := 80 } } rangeId := by
    unfold markRangeHot
    rw [hidx]
    dsimp only
    rw [hget]
  have hidx2 : ({ s with ranges := s.ranges.set i { rx with load := 80 } } :
      SimState).ranges.findIdx? (fun r => r.id == rangeId) = some i :=
    findIdx?_set_same hidx hp0
  have hget2 : ({ s with ranges := s.ranges.set i { rx with load := 80 } } :
      SimState).ranges[i]? = some { rx with load := 80 } :=
    List.getElem?_set_self (by simpa using hi)
  have honl : onlineReplicaNodesOf s.nodes { rx with load := 80 } =
      onlineReplicaNodesOf s.nodes rx := rfl
  have hne : onlineReplicaNodesOf s.nodes rx ≠ [] := by
    intro hemp
    rw [hemp] at honline
    simp at honline
  obtain ⟨best, hbest⟩ :=
    @sortByAsc_head_some
      (fun n => calculateRegionLoad
        { s with ranges := s.ranges.set i { rx with load := 80 } } n.region) _ hne
  obtain ⟨hbmem, hbmin⟩ := sortByAsc_head_min _ hbest
  have hlen2 : ¬((onlineReplicaNodesOf s.nodes { rx with load := 80 }).length ≤ 1) := by
    rw [honl]; omega
  rw [hmk]
  unfold balanceHotRange
  rw [hidx2]
  dsimp only
  rw [hget2]
  dsimp only
  rw [if_neg hlen2]
  have hlh2 : findNode s.nodes ({ rx with load := 80 } : Range).leaseholder =
      some lhNode := hlh
  rw [hlh2]
  dsimp only
  rw [if_pos hload, honl, hbest]
  dsimp only
  by_cases hbne : best.id ≠ ({ rx with load := 80 } : Range).leaseholder
  · rw [if_pos hbne]
    dsimp only
    refine ⟨{ rx with load := 80, leaseholder := best.id },
      List.getElem?_set_self (by simpa using hi), rfl, rfl, best, hbmem, rfl, hbmin⟩
  · rw [if_neg hbne]
    dsimp only
    push_neg at hbne
    refine ⟨{ rx with load := 80 }, hget2, rfl, rfl, best, hbmem, hbne.symm, hbmin⟩

/-- Witness for C7 at a concrete two node, one range state whose
leaseholder region exceeds the threshold after the hot marking. -/
theorem c7_amended_markRangeHot_witness :
    ∃ r1, (markRangeHot
        ⟨[⟨1, "us-east", "a", Status.online⟩, ⟨2, "us-west", "a", Status.online⟩],
          [⟨1, [1, 2], 1, 10, []⟩], 3, 2, ⟨2, 2, 2, 1⟩, []⟩ 1).ranges[(0 : Nat)]? =
      some r1 ∧
      r1.load = 80 ∧ r1.replicas = (⟨1, [1, 2], 1, 10, []⟩ : Range).replicas ∧
      ∃ m, m ∈ onlineReplicaNodesOf
          [⟨1, "us-east", "a", Status.online⟩, ⟨2, "us-west", "a", Status.online⟩]
          ⟨1, [1, 2], 1, 10, []⟩ ∧ r1.leaseholder = m.id ∧
        ∀ o ∈ onlineReplicaNodesOf
            [⟨1, "us-east", "a", Status.online⟩, ⟨2, "us-west", "a", Status.online⟩]
            ⟨1, [1, 2], 1, 10, []⟩,
          calculateRegionLoad
              ⟨[⟨1, "us-east", "a", Status.online⟩, ⟨2, "us-west", "a", Status.online⟩],
                [⟨1, [1, 2], 1, 80, []⟩], 3, 2, ⟨2, 2, 2, 1⟩, []⟩ m.region ≤
            calculateRegionLoad
              ⟨[⟨1, "us-east", "a", Status.online⟩, ⟨2, "us-west", "a", Status.online⟩],
                [⟨1, [1, 2], 1, 80, []⟩], 3, 2, ⟨2, 2, 2, 1⟩, []⟩ o.region :=
  @c7_amended_markRangeHot
    ⟨[⟨1, "us-east", "a", Status.online⟩, ⟨2, "us-west", "a", Status.online⟩],
      [⟨1, [1, 2], 1, 10, []⟩], 3, 2, ⟨2, 2, 2, 1⟩, []⟩ 1 0
    ⟨1, [1, 2], 1, 10, []⟩ ⟨1, "us-east", "a", Status.online⟩
    (by decide) (by decide) (by decide) (by decide) (by decide)

/-! ### C6: leaseholder failover on node failure -/

theorem find?_of_findIdx? {α : Type} {p : α → Bool} :
    ∀ {l : List α} {k : Nat}, List.findIdx? p l = some k →
      ∀ {x : α}, l[k]? = some x → List.find? p l = some x := by
  intro l
  induction l with
  | nil => intro k h; simp [List.findIdx?_nil] at h
  | cons a as ih =>
    intro k h x hx
    rw [List.findIdx?_cons] at h
    by_cases hpa : p a = true
    · simp [hpa] at h
      subst h
      simp only [List.getElem?_cons_zero] at hx
      cases hx
      simp [List.find?_cons, hpa]
    · have hpa' : p a = false := by simpa using hpa
      rw [hpa'] at h
      simp only [Bool.false_eq_true, if_false, List.findIdx?_succ] at h
      cases hfi : List.findIdx? p as with
      | none => rw [hfi] at h; simp at h
      | some n =>
        rw [hfi] at h
        simp only [Option.map_some'] at h
        obtain rfl : n + 1 = k := by simpa using h
        simp only [List.getElem?_cons_succ] at hx
        rw [List.find?_cons, hpa']
        exact ih hfi hx

theorem findNode_after_set {nodes : List Node} {nodeId k : Nat} {nd : Node}
    (hidx : nodes.findIdx? (fun n => n.id == nodeId) = some k)
    (hget : nodes[k]? = some nd) (st : Status) :
    findNode (nodes.set k { nd with status := st }) nodeId =
      some { nd with status := st } := by
  obtain ⟨⟨x0, hx0, hpx0⟩, _⟩ := findIdx?_some_spec hidx
  have hk : k < nodes.length := (List.getElem?_eq_some_iff.mp hget).1
  have hxnd : x0 = nd := Option.some_injective _ (hx0.symm.trans hget)
  have hpnd : (nd.id == nodeId) = true := hxnd ▸ hpx0
  have hidx2 : (nodes.set k { nd with status := st }).findIdx?
      (fun n => n.id == nodeId) = some k :=
    findIdx?_set_same hidx (by simpa using hpnd)
  exact find?_of_findIdx? hidx2 (List.getElem?_set_self (by simpa using hk))

theorem migrateReplacementChoice_mem {nodes : List Node} {nodeId : Nat}
    {ranges : List Range} {r : Range} {repl : Node}
    (h : migrateReplacementChoice nodes nodeId ranges r = some repl) :
    repl ∈ availableReplaceNodesOf nodes r := by
  unfold migrateReplacementChoice at h
  dsimp only at h
  split at h
  · exact List.mem_of_mem_filter (selectLeastLoadedNode_mem h)
  · split at h
    · exact List.mem_of_mem_filter (selectLeastLoadedNode_mem h)
    · exact selectLeastLoadedNode_mem h

theorem migrateReplacementChoice_some {nodes : List Node} {nodeId : Nat}
    {ranges : List Range} {r : Range}
    (h : ¬(availableReplaceNodesOf nodes r).isEmpty) :
    ∃ repl, migrateReplacementChoice nodes nodeId ranges r = some repl := by
  unfold migrateReplacementChoice
  dsimp only
  split
  · apply selectLeastLoadedNode_some
    next hne =>
      intro hemp
      rw [hemp] at hne
      simp at hne
  · split
    · apply selectLeastLoadedNode_some
      next hne =>
        intro hemp
        rw [hemp] at hne
        simp at hne
    · apply selectLeastLoadedNode_some
      intro hemp
      rw [hemp] at h
      simp at h

theorem migrateOneRange_leaseholder (nodes : List Node) (off : Node) (nid : Nat)
    (rs : List Range) (r : Range) (hmem : nid ∈ r.replicas) :
    (migrateOneRange nodes off nid rs r).leaseholder =
      (migrateLeaseholderChoice nodes off nid r).1 := by
  unfold migrateOneRange
  rw [if_pos (by simpa using hmem)]
  dsimp only
  by_cases hav : (availableReplaceNodesOf nodes r).isEmpty
  · rw [if_pos hav]
    by_cases hc : r.leaseholder = nid ∧ (migrateLeaseholderChoice nodes off nid r).1 ≠ nid
    · rw [if_pos hc]
    · rw [if_neg hc]
      by_cases hlh : r.leaseholder = nid
      · have : (migrateLeaseholderChoice nodes off nid r).1 = nid := by
          by_contra hne
          exact hc ⟨hlh, hne⟩
        rw [this, hlh]
      · unfold migrateLeaseholderChoice
        rw [if_neg hlh]
  · rw [if_neg hav]
    obtain ⟨repl, hrepl⟩ := @migrateReplacementChoice_some nodes nid rs r hav
    rw [hrepl]

theorem migrateLeaseholderChoice_cases (nodes : List Node) (off : Node) (nid : Nat)
    (r : Range) (hlh : r.leaseholder = nid) :
    ((∃ rid ∈ r.replicas.filter (fun rid => rid != nid && isOnlineId nodes rid),
        ∃ m, findNode nodes rid = some m ∧ m.region ≠ off.region) →
      (migrateLeaseholderChoice nodes off nid r).1 ∈
          r.replicas.filter (fun rid => rid != nid && isOnlineId nodes rid) ∧
        ∃ m, findNode nodes (migrateLeaseholderChoice nodes off nid r).1 = some m ∧
          m.region ≠ off.region) ∧
    (r.replicas.filter (fun rid => rid != nid && isOnlineId nodes rid) ≠ [] →
      (migrateLeaseholderChoice nodes off nid r).1 ∈
        r.replicas.filter (fun rid => rid != nid && isOnlineId nodes rid)) ∧
    (r.replicas.filter (fun rid => rid != nid && isOnlineId nodes rid) = [] →
      (migrateLeaseholderChoice nodes off nid r).1 = nid) := by
  unfold migrateLeaseholderChoice
  rw [if_pos hlh]
  dsimp only
  set onlineIds := r.replicas.filter (fun rid => rid != nid && isOnlineId nodes rid)
    with honlineIds
  have hresolve : ∀ rid ∈ onlineIds, ∃ m, findNode nodes rid = some m ∧
      m.status = Status.online ∧ m.id = rid := by
    intro rid hrid
    have hprop := (List.mem_filter.mp hrid).2
    have honl : isOnlineId nodes rid = true := by
      cases hand : (rid != nid) with
      | false => rw [hand, Bool.false_and] at hprop; exact absurd hprop (by simp)
      | true => rw [hand, Bool.true_and] at hprop; exact hprop
    obtain ⟨m, hm, hms⟩ := isOnlineId_spec honl
    exact ⟨m, hm, hms, (findNode_spec hm).2⟩
  by_cases hemp : onlineIds.isEmpty
  · rw [if_pos hemp]
    have hnil : onlineIds = [] := by simpa [List.isEmpty_iff] using hemp
    refine ⟨?_, ?_, fun _ => hlh⟩
    · rintro ⟨rid, hrid, _⟩
      rw [hnil] at hrid
      exact absurd hrid (List.not_mem_nil rid)
    · intro hne
      exact absurd hnil hne
  · rw [if_neg hemp]
    have hmemrepl : ∀ {m : Node}, m ∈ onlineIds.filterMap (findNode nodes) →
        m.id ∈ onlineIds ∧ findNode nodes m.id = some m ∧
          m.status = Status.online := by
      intro m hm
      obtain ⟨rid, hrid, hfind⟩ := List.mem_filterMap.mp hm
      obtain ⟨m', hm', hms', hid'⟩ := hresolve rid hrid
      rw [hfind] at hm'
      cases hm'
      exact ⟨hid' ▸ hrid, hid' ▸ hfind, hms'⟩
    cases hdr : (onlineIds.filterMap (findNode nodes)).filter
        (fun n => n.region != off.region) |>.head? with
    | some n =>
      obtain ⟨ys, hys⟩ := List.head?_eq_some_iff.mp hdr
      have hnmem : n ∈ (onlineIds.filterMap (findNode nodes)).filter
          (fun m => m.region != off.region) := by
        rw [hys]; exact List.mem_cons_self n ys
      have hn1 := List.mem_filter.mp hnmem
      obtain ⟨hid, hfind, _⟩ := hmemrepl hn1.1
      have hreg : n.region ≠ off.region := by simpa using hn1.2
      exact ⟨fun _ => ⟨hid, n, hfind, hreg⟩, fun _ => hid,
        fun hnil => absurd (hnil ▸ hid) (List.not_mem_nil _)⟩
    | none =>
      have hnodr : ∀ m ∈ onlineIds.filterMap (findNode nodes),
          m.region = off.region := by
        intro m hm
        by_contra hne
        have : m ∈ (onlineIds.filterMap (findNode nodes)).filter
            (fun n => n.region != off.region) :=
          List.mem_filter.mpr ⟨hm, by simpa using hne⟩
        rw [List.head?_eq_none_iff.mp hdr] at this
        exact absurd this (List.not_mem_nil m)
      cases hrn : (onlineIds.filterMap (findNode nodes)).head? with
      | some n =>
        obtain ⟨ys, hys⟩ := List.head?_eq_some_iff.mp hrn
        have hnmem : n ∈ onlineIds.filterMap (findNode nodes) := by
          rw [hys]; exact List.mem_cons_self n ys
        obtain ⟨hid, hfind, _⟩ := hmemrepl hnmem
        refine ⟨?_, fun _ => hid,
          fun hnil => absurd (hnil ▸ hid) (List.not_mem_nil _)⟩
        rintro ⟨rid, hrid, m, hm, hreg⟩
        obtain ⟨m', hm', hms', hid'⟩ := hresolve rid hrid
        rw [hm] at hm'
        cases hm'
        have : m ∈ onlineIds.filterMap (findNode nodes) :=
          List.mem_filterMap.mpr ⟨rid, hrid, hm⟩
        exact absurd (hnodr m this) hreg
      | none =>
        have hnil2 : onlineIds.filterMap (findNode nodes) = [] :=
          List.head?_eq_none_iff.mp hrn
        have hnil : onlineIds = [] := by
          cases honl : onlineIds with
          | nil => rfl
          | cons rid rest =>
            obtain ⟨m, hm, _, _⟩ := hresolve rid (honl ▸ List.mem_cons_self rid rest)
            have : m ∈ onlineIds.filterMap (findNode nodes) :=
              List.mem_filterMap.mpr ⟨rid, honl ▸ List.mem_cons_self rid rest, hm⟩
            rw [hnil2] at this
            exact absurd this (List.not_mem_nil m)
        exact ⟨fun h => by
            obtain ⟨rid, hrid, _⟩ := h
            rw [hnil] at hrid
            exact absurd hrid (List.not_mem_nil rid),
          fun hne => absurd hnil hne, fun _ => hlh⟩

/-- C6: for every state in which the leaseholder node of a range
transitions Online to Offline via toggleNode, the new leaseholder is
chosen from that range's remaining online replicas, preferring a replica
in a different region than the failing node and falling back to any
online replica; if no online replica remains, the leaseholder field is
left pointing at the offline node. -/
theorem c6_leaseholder_failover (s : SimState) (nodeId : Nat)
    (shufIdx : List Nat → List Nat) {k : Nat} {nd : Node} {i : Nat} {r0 : Range}
    (hidx : s.nodes.findIdx? (fun n => n.id == nodeId) = some k)
    (hnd : s.nodes[k]? = some nd)
    (hon : nd.status = Status.online)
    (hr0 : s.ranges[i]? = some r0)
    (hlh : r0.leaseholder = nodeId)
    (hmem : nodeId ∈ r0.replicas) :
    ∃ r1, (toggleNodeStatus s nodeId shufIdx).ranges[i]? = some r1 ∧
      ((∃ rid ∈ r0.replicas.filter (fun rid => rid != nodeId &&
            isOnlineId (s.nodes.set k { nd with status := Status.offline }) rid),
          ∃ m, findNode (s.nodes.set k { nd with status := Status.offline }) rid =
              some m ∧ m.region ≠ nd.region) →
        r1.leaseholder ∈ r0.replicas.filter (fun rid => rid != nodeId &&
            isOnlineId (s.nodes.set k { nd with status := Status.offline }) rid) ∧
          ∃ m, findNode (s.nodes.set k { nd with status := Status.offline })
              r1.leaseholder = some m ∧ m.region ≠ nd.region) ∧
      (r0.replicas.filter (fun rid => rid != nodeId &&
          isOnlineId (s.nodes.set k { nd with status := Status.offline }) rid) ≠ [] →
        r1.leaseholder ∈ r0.replicas.filter (fun rid => rid != nodeId &&
          isOnlineId (s.nodes.set k { nd with status := Status.offline }) rid)) ∧
      (r0.replicas.filter (fun rid => rid != nodeId &&
          isOnlineId (s.nodes.set k { nd with status := Status.offline }) rid) = [] →
        r1.leaseholder = nodeId) := by
  have hi : i < s.ranges.length := (List.getElem?_eq_some_iff.mp hr0).1
  have hred : toggleNodeStatus s nodeId shufIdx =
      migrateLeaseholdersFromOfflineNode
        { s with nodes := s.nodes.set k { nd with status := Status.offline } } nodeId := by
    unfold toggleNodeStatus
    rw [hidx]
    dsimp only
    rw [hnd]
    dsimp only
    rw [hon]
    rfl
  rw [hred]
  unfold migrateLeaseholdersFromOfflineNode
  dsimp only
  rw [findNode_after_set hidx hnd Status.offline]
  dsimp only
  obtain ⟨rsMid, hmid, hres⟩ := foldl_updateAt_processed
    (fun rs r => some (migrateOneRange
      (s.nodes.set k { nd with status := Status.offline })
      { nd with status := Status.offline } nodeId rs r))
    (List.range s.ranges.length) (List.nodup_range _) s.ranges i
    (List.mem_range.mpr hi) r0 hr0
  refine ⟨migrateOneRange (s.nodes.set k { nd with status := Status.offline })
      { nd with status := Status.offline } nodeId rsMid r0, hres, ?_⟩
  rw [migrateOneRange_leaseholder _ _ _ _ _ hmem]
  exact migrateLeaseholderChoice_cases
    (s.nodes.set k { nd with status := Status.offline })
    { nd with status := Status.offline } nodeId r0 hlh

/-- Witness for C6 at a concrete three node state whose range r1 is led
by the failing node 1; the replica on node 3 (a different region,
online) takes over. -/
theorem c6_leaseholder_failover_witness :
    ∃ r1, (toggleNodeStatus
        ⟨[⟨1, "us-east", "a", Status.online⟩, ⟨2, "us-east", "b", Status.online⟩,
          ⟨3, "us-west", "a", Status.online⟩],
          [⟨1, [1, 2, 3], 1, 10, []⟩], 4, 2, ⟨2, 3, 3, 1⟩, []⟩ 1 id).ranges[(0 : Nat)]? =
      some r1 ∧
      ((∃ rid ∈ ([1, 2, 3] : List Nat).filter (fun rid => rid != 1 &&
            isOnlineId
              [⟨1, "us-east", "a", Status.offline⟩, ⟨2, "us-east", "b", Status.online⟩,
                ⟨3, "us-west", "a", Status.online⟩] rid),
          ∃ m, findNode
              [⟨1, "us-east", "a", Status.offline⟩, ⟨2, "us-east", "b", Status.online⟩,
                ⟨3, "us-west", "a", Status.online⟩] rid = some m ∧ m.region ≠ "us-east") →
        r1.leaseholder ∈ ([1, 2, 3] : List Nat).filter (fun rid => rid != 1 &&
            isOnlineId
              [⟨1, "us-east", "a", Status.offline⟩, ⟨2, "us-east", "b", Status.online⟩,
                ⟨3, "us-west", "a", Status.online⟩] rid) ∧
          ∃ m, findNode
              [⟨1, "us-east", "a", Status.offline⟩, ⟨2, "us-east", "b", Status.online⟩,
                ⟨3, "us-west", "a", Status.online⟩] r1.leaseholder = some m ∧
            m.region ≠ "us-east") ∧
      (([1, 2, 3] : List Nat).filter (fun rid => rid != 1 &&
          isOnlineId
            [⟨1, "us-east", "a", Status.offline⟩, ⟨2, "us-east", "b", Status.online⟩,
              ⟨3, "us-west", "a", Status.online⟩] rid) ≠ [] →
        r1.leaseholder ∈ ([1, 2, 3] : List Nat).filter (fun rid => rid != 1 &&
          isOnlineId
            [⟨1, "us-east", "a", Status.offline⟩, ⟨2, "us-east", "b", Status.online⟩,
              ⟨3, "us-west", "a", Status.online⟩] rid)) ∧
      (([1, 2, 3] : List Nat).filter (fun rid => rid != 1 &&
          isOnlineId
            [⟨1, "us-east", "a", Status.offline⟩, ⟨2, "us-east", "b", Status.online⟩,
              ⟨3, "us-west", "a", Status.online⟩] rid) = [] →
        r1.leaseholder = 1) :=
  @c6_leaseholder_failover
    ⟨[⟨1, "us-east", "a", Status.online⟩, ⟨2, "us-east", "b", Status.online⟩,
      ⟨3, "us-west", "a", Status.online⟩],
      [⟨1, [1, 2, 3], 1, 10, []⟩], 4, 2, ⟨2, 3, 3, 1⟩, []⟩ 1 id 0
    ⟨1, "us-east", "a", Status.online⟩ 0 ⟨1, [1, 2, 3], 1, 10, []⟩
    (by decide) (by decide) (by decide) (by decide) (by decide) (by decide)

/-! ### C5: recovery repairs under replicated ranges -/

theorem getElem_not_mem_take {α : Type} {l : List α} (hnd : l.Nodup) {t : Nat}
    (ht : t < l.length) : l[t] ∉ l.take t := by
  intro hmem
  obtain ⟨j, hj, hjt⟩ := List.getElem_of_mem hmem
  have hjle : j < t := by
    have := hj
    rw [List.length_take] at this
    omega
  have hjlen : j < l.length := lt_trans hjle ht
  rw [List.getElem_take] at hjt
  have : j = t := (List.Nodup.getElem_inj_iff hnd).mp hjt
  omega

/-- The repair pass body fully characterized on an eligible range. -/
theorem repairRange_spec (nodes : List Node) (rf nodeId : Nat) (r : Range)
    (hnm : nodeId ∉ r.replicas)
    (hund : (onlineReplicasOf nodes r).length < rf) :
    ∃ r1, repairRange nodes rf nodeId r = some r1 ∧
      r1.replicas = onlineReplicasOf nodes r ++ nodeId ::
        (r.replicas.filter
          (fun rid => !((onlineReplicasOf nodes r).contains rid))).take
          (rf - (onlineReplicasOf nodes r).length - 1) ∧
      r1.leaseholder = (if (onlineReplicasOf nodes r).contains r.leaseholder
        then r.leaseholder else nodeId) ∧
      r1.id = r.id := by
  unfold repairRange
  rw [if_neg (by simpa using hnm), if_pos (by simpa using hund)]
  dsimp only
  by_cases hfill : (onlineReplicasOf nodes r ++ [nodeId]).length < rf
  · rw [if_pos hfill]
    refine ⟨_, rfl, ?_, ?_, rfl⟩
    · simp only [List.append_assoc, List.singleton_append, List.length_append,
        List.length_singleton, Nat.sub_sub]
    · by_cases hc : (onlineReplicasOf nodes r).contains r.leaseholder
      · rw [if_pos hc]
      · rw [if_neg hc]
  · rw [if_neg hfill]
    have hlen1 : (onlineReplicasOf nodes r).length + 1 = rf := by
      simp only [List.length_append, List.length_singleton] at hfill
      omega
    refine ⟨_, rfl, ?_, ?_, rfl⟩
    · have htz : rf - (onlineReplicasOf nodes r).length - 1 = 0 := by omega
      rw [htz, List.take_zero]
    · by_cases hc : (onlineReplicasOf nodes r).contains r.leaseholder
      · rw [if_pos hc]
      · rw [if_neg hc]

/-- C5: after an Offline to Online transition of a node via toggleNode,
every range whose count of online replicas is below the configured
replicationFactor and which does not already include the recovering node
gets the recovering node added to its replicas in place of an offline
replica slot, and the leaseholder is kept if it was among the range's
online replicas, otherwise the recovering node becomes the leaseholder. -/
theorem c5_recovery_repair (s : SimState) (nodeId : Nat)
    (shufIdx : List Nat → List Nat) {k : Nat} {nd : Node} {i : Nat} {r0 : Range}
    (hidx : s.nodes.findIdx? (fun n => n.id == nodeId) = some k)
    (hnd : s.nodes[k]? = some nd)
    (hoff : nd.status = Status.offline)
    (hr0 : s.ranges[i]? = some r0)
    (hnotmem : nodeId ∉ r0.replicas)
    (hnodup : r0.replicas.Nodup)
    (hlen : r0.replicas.length = s.config.replicationFactor)
    (hunder : (onlineReplicasOf (s.nodes.set k { nd with status := Status.online }) r0).length <
      s.config.replicationFactor) :
    ∃ r1, (toggleNodeStatus s nodeId shufIdx).ranges[i]? = some r1 ∧
      nodeId ∈ r1.replicas ∧
      (∀ x ∈ onlineReplicasOf (s.nodes.set k { nd with status := Status.online }) r0,
        x ∈ r1.replicas) ∧
      (∃ d ∈ r0.replicas,
        isOnlineId (s.nodes.set k { nd with status := Status.online }) d = false ∧
        d ∉ r1.replicas) ∧
      (r0.leaseholder ∈
          onlineReplicasOf (s.nodes.set k { nd with status := Status.online }) r0 →
        r1.leaseholder = r0.leaseholder) ∧
      (r0.leaseholder ∉
          onlineReplicasOf (s.nodes.set k { nd with status := Status.online }) r0 →
        r1.leaseholder = nodeId) := by
  have hi : i < s.ranges.length := (List.getElem?_eq_some_iff.mp hr0).1
  have hred : toggleNodeStatus s nodeId shufIdx =
      rebalanceToOnlineNode
        { s with nodes := s.nodes.set k { nd with status := Status.online } } nodeId
        shufIdx := by
    unfold toggleNodeStatus
    rw [hidx]
    dsimp only
    rw [hnd]
    dsimp only
    rw [hoff]
    rfl
  rw [hred]
  unfold rebalanceToOnlineNode
  dsimp only
  rw [findNode_after_set hidx hnd Status.online]
  dsimp only
  rw [if_neg (by simp)]
  set nodes1 := s.nodes.set k { nd with status := Status.online } with hnodes1
  set rf := s.config.replicationFactor with hrf
  have hpred : (match s.ranges[i]? with
      | some r => decide ((onlineReplicasOf nodes1 r).length < rf)
      | none => false) = true := by
    rw [hr0]
    simpa using hunder
  have himem : i ∈ (List.range s.ranges.length).filter (fun j =>
      match s.ranges[j]? with
      | some r => decide ((onlineReplicasOf nodes1 r).length < rf)
      | none => false) :=
    List.mem_filter.mpr ⟨List.mem_range.mpr hi, hpred⟩
  have hnodupIdx : ((List.range s.ranges.length).filter (fun j =>
      match s.ranges[j]? with
      | some r => decide ((onlineReplicasOf nodes1 r).length < rf)
      | none => false)).Nodup :=
    List.Nodup.filter _ (List.nodup_range _)
  have hnonempty : ¬((List.range s.ranges.length).filter (fun j =>
      match s.ranges[j]? with
      | some r => decide ((onlineReplicasOf nodes1 r).length < rf)
      | none => false)).isEmpty := by
    intro hemp
    rw [List.isEmpty_iff] at hemp
    rw [hemp] at himem
    exact absurd himem (List.not_mem_nil i)
  rw [if_neg hnonempty]
  dsimp only
  obtain ⟨rsMid, hmid, hres⟩ := foldl_updateAt_processed
    (fun _ r => repairRange nodes1 rf nodeId r)
    _ hnodupIdx s.ranges i himem r0 hr0
  obtain ⟨r1, hr1, hreps, hlh, _⟩ := repairRange_spec nodes1 rf nodeId r0 hnotmem hunder
  refine ⟨r1, ?_, ?_, ?_, ?_, ?_, ?_⟩
  · rw [hres, hr1]
    rfl
  · rw [hreps]
    simp
  · intro x hx
    rw [hreps]
    exact List.mem_append.mpr (Or.inl hx)
  · -- a dropped offline replica
    set onl := onlineReplicasOf nodes1 r0 with honl
    set offl := r0.replicas.filter (fun rid => !(onl.contains rid)) with hoffl
    have hofeq : offl = r0.replicas.filter (fun rid => !(isOnlineId nodes1 rid)) := by
      rw [hoffl]
      apply List.filter_congr
      intro x hxmem
      by_cases hon : isOnlineId nodes1 x = true
      · have : x ∈ onl := by
          rw [honl]
          exact List.mem_filter.mpr ⟨hxmem, hon⟩
        simp [this, hon]
      · have : x ∉ onl := by
          intro hc
          rw [honl] at hc
          exact hon (List.mem_filter.mp hc).2
        simp [this, hon]
    have hlensum : onl.length + offl.length = r0.replicas.length := by
      rw [hofeq, honl]
      unfold onlineReplicasOf
      exact length_filter_partition _ _
    have hofflen : offl.length = rf - onl.length := by omega
    have ht : rf - onl.length - 1 < offl.length := by omega
    have hdmem0 : offl[rf - onl.length - 1] ∈ offl := List.getElem_mem ht
    have hdmemf : offl[rf - onl.length - 1] ∈
        r0.replicas.filter (fun rid => !(onl.contains rid)) := hoffl ▸ hdmem0
    have hp := (List.mem_filter.mp hdmemf).2
    have hdrep : offl[rf - onl.length - 1] ∈ r0.replicas :=
      List.mem_of_mem_filter hdmemf
    have hdnotonl : offl[rf - onl.length - 1] ∉ onl := by
      intro hc
      simp [hc] at hp
    refine ⟨offl[rf - onl.length - 1], hdrep, ?_, ?_⟩
    · cases hio : isOnlineId nodes1 (offl[rf - onl.length - 1]) with
      | false => rfl
      | true =>
        exact absurd (List.mem_filter.mpr ⟨hdrep, hio⟩) hdnotonl
    · rw [hreps]
      intro hcmem
      have hdne : offl[rf - onl.length - 1] ≠ nodeId := by
        intro hc
        exact hnotmem (hc ▸ hdrep)
      have hdnottake : offl[rf - onl.length - 1] ∉ offl.take (rf - onl.length - 1) := by
        apply getElem_not_mem_take ?_ ht
        rw [hoffl]
        exact List.Nodup.filter _ hnodup
      rcases List.mem_append.mp hcmem with hc | hc
      · exact hdnotonl hc
      · rcases List.mem_cons.mp hc with hc' | hc'
        · exact hdne hc'
        · exact hdnottake hc'
  · intro hmemlh
    rw [hlh, if_pos (by simpa using hmemlh)]
  · intro hnotlh
    rw [hlh, if_neg (by simpa using hnotlh)]

/-- Witness for C5: node 3 comes back online; range r1 has one online
replica (node 1) out of a replication factor of two, with node 2 offline
and node 3 not yet a member; node 3 replaces the offline slot of node 2,
and the online leaseholder 1 is kept. -/
theorem c5_recovery_repair_witness :
    ∃ r1, (toggleNodeStatus
        ⟨[⟨1, "us-east", "a", Status.online⟩, ⟨2, "us-east", "b", Status.offline⟩,
          ⟨3, "us-west", "a", Status.offline⟩],
          [⟨1, [1, 2], 1, 10, []⟩], 4, 2, ⟨2, 2, 3, 1⟩, []⟩ 3 id).ranges[(0 : Nat)]? =
      some r1 ∧
      (3 : Nat) ∈ r1.replicas ∧
      (∀ x ∈ onlineReplicasOf
          [⟨1, "us-east", "a", Status.online⟩, ⟨2, "us-east", "b", Status.offline⟩,
            ⟨3, "us-west", "a", Status.online⟩] (⟨1, [1, 2], 1, 10, []⟩ : Range),
        x ∈ r1.replicas) ∧
      (∃ d ∈ Range.replicas ⟨1, [1, 2], 1, 10, []⟩,
        isOnlineId
          [⟨1, "us-east", "a", Status.online⟩, ⟨2, "us-east", "b", Status.offline⟩,
            ⟨3, "us-west", "a", Status.online⟩] d = false ∧
        d ∉ r1.replicas) ∧
      ((1 : Nat) ∈ onlineReplicasOf
          [⟨1, "us-east", "a", Status.online⟩, ⟨2, "us-east", "b", Status.offline⟩,
            ⟨3, "us-west", "a", Status.online⟩] (⟨1, [1, 2], 1, 10, []⟩ : Range) →
        r1.leaseholder = 1) ∧
      ((1 : Nat) ∉ onlineReplicasOf
          [⟨1, "us-east", "a", Status.online⟩, ⟨2, "us-east", "b", Status.offline⟩,
            ⟨3, "us-west", "a", Status.online⟩] (⟨1, [1, 2], 1, 10, []⟩ : Range) →
        r1.leaseholder = 3) :=
  @c5_recovery_repair
    ⟨[⟨1, "us-east", "a", Status.online⟩, ⟨2, "us-east", "b", Status.offline⟩,
      ⟨3, "us-west", "a", Status.offline⟩],
      [⟨1, [1, 2], 1, 10, []⟩], 4, 2, ⟨2, 2, 3, 1⟩, []⟩ 3 id 2
    ⟨3, "us-west", "a", Status.offline⟩ 0 ⟨1, [1, 2], 1, 10, []⟩
    (by decide) (by decide) (by decide) (by decide) (by decide) (by decide)
    (by decide) (by decide)

/-! ### C8: region toggle as per node composition -/

theorem id_injective_of_nodup {l : List Node}
    (hnd : (l.map (fun n => n.id)).Nodup) {a b : Node}
    (ha : a ∈ l) (hb : b ∈ l) (hid : a.id = b.id) : a = b := by
  obtain ⟨i, hi, hia⟩ := List.getElem_of_mem ha
  obtain ⟨j, hj, hjb⟩ := List.getElem_of_mem hb
  have hmi : i < (l.map (fun n => n.id)).length := by simpa using hi
  have hmj : j < (l.map (fun n => n.id)).length := by simpa using hj
  have heq : (l.map (fun n => n.id))[i] = (l.map (fun n => n.id))[j] := by
    rw [List.getElem_map, List.getElem_map, hia, hjb]
    exact hid
  have hij : i = j := (List.Nodup.getElem_inj_iff hnd).mp heq
  subst hij
  rw [← hia, ← hjb]

theorem setNodeStatusById_eq_map {ns : List Node}
    (hnd : (ns.map (fun n => n.id)).Nodup) (tid : Nat) (st : Status) :
    setNodeStatusById ns tid st =
      ns.map (fun n => if n.id == tid then { n with status := st } else n) := by
  unfold setNodeStatusById
  cases hfi : ns.findIdx? (fun n => n.id == tid) with
  | none =>
    have hall := List.findIdx?_eq_none_iff.mp hfi
    have hcongr : ∀ n ∈ ns,
        (if n.id == tid then { n with status := st } else n) = n := by
      intro n hn
      rw [if_neg]
      intro hc
      rw [hall n hn] at hc
      exact absurd hc (by simp)
    calc ns = List.map id ns := (List.map_id ns).symm
      _ = ns.map (fun n => if n.id == tid then { n with status := st } else n) :=
        List.map_congr_left (fun a ha => ((hcongr a ha).symm).trans rfl)
  | some i =>
    obtain ⟨⟨cur, hcur, hpc⟩, hlt⟩ := findIdx?_some_spec hfi
    have hi : i < ns.length := (List.getElem?_eq_some_iff.mp hcur).1
    simp only [hcur]
    apply List.ext_getElem?
    intro j
    by_cases hji : j = i
    · subst hji
      rw [List.getElem?_set_self hi, List.getElem?_map, hcur]
      simp only [Option.map_some']
      rw [if_pos hpc]
    · rw [List.getElem?_set_ne (fun h => hji h.symm), List.getElem?_map]
      cases hj : ns[j]? with
      | none => simp
      | some y =>
        simp only [Option.map_some']
        have hyin : y ∈ ns := List.getElem?_mem hj
        have hcin : cur ∈ ns := List.getElem?_mem hcur
        by_cases hpy : (y.id == tid) = true
        · exfalso
          have hide : y.id = cur.id := by
            have h1 : y.id = tid := by simpa using hpy
            have h2 : cur.id = tid := by simpa using hpc
            rw [h1, h2]
          have : y = cur := id_injective_of_nodup hnd hyin hcin hide
          subst this
          have hjlen : j < ns.length := (List.getElem?_eq_some_iff.mp hj).1
          have : ns[j] = ns[i] := by
            have e1 : ns[j] = y := by
              have := List.getElem?_eq_getElem hjlen
              rw [this] at hj
              exact Option.some_injective _ hj.symm |>.symm
            have e2 : ns[i] = y := by
              have := List.getElem?_eq_getElem hi
              rw [this] at hcur
              exact Option.some_injective _ hcur.symm |>.symm
            rw [e1, e2]
          have hmj : j < (ns.map (fun n => n.id)).length := by simpa using hjlen
          have hmi : i < (ns.map (fun n => n.id)).length := by simpa using hi
          have heq : (ns.map (fun n => n.id))[j] = (ns.map (fun n => n.id))[i] := by
            rw [List.getElem_map, List.getElem_map, this]
          exact hji ((List.Nodup.getElem_inj_iff hnd).mp heq)
        · rw [if_neg hpy]

theorem map_id_setNodeStatusById (ns : List Node)
    (hnd : (ns.map (fun n => n.id)).Nodup) (tid : Nat) (st : Status) :
    (setNodeStatusById ns tid st).map (fun n => n.id) =
      ns.map (fun n => n.id) := by
  rw [setNodeStatusById_eq_map hnd, List.map_map]
  apply List.map_congr_left
  intro a _
  by_cases h : (a.id == tid) = true
  · simp [Function.comp, h]
  · simp [Function.comp, h]

theorem foldl_setNodeStatusById_eq_map (st : Status) :
    ∀ (ms ns : List Node), (ns.map (fun n => n.id)).Nodup →
      ms.foldl (fun acc nd => setNodeStatusById acc nd.id st) ns =
        ns.map (fun n =>
          if (ms.map (fun m => m.id)).contains n.id
          then { n with status := st } else n) := by
  intro ms
  induction ms with
  | nil =>
    intro ns _
    simp only [List.foldl_nil, List.map_nil]
    calc ns = List.map id ns := (List.map_id ns).symm
      _ = _ := List.map_congr_left (by intro a _; simp)
  | cons m ms ih =>
    intro ns hnd
    simp only [List.foldl_cons]
    rw [ih (setNodeStatusById ns m.id st) (by rw [map_id_setNodeStatusById ns hnd]; exact hnd),
      setNodeStatusById_eq_map hnd, List.map_map]
    apply List.map_congr_left
    intro a _
    by_cases ham : a.id = m.id
    · simp [Function.comp, ham]
    · simp [Function.comp, ham]

/-- C8: for every state (with well formed, duplicate free node ids),
toggleRegion flips every member node of the named region to online if
any member node was offline, and to offline if all member nodes were
online, and then invokes the failure migrator (offline transitions) or
the recovery rebalancer (online transitions) once per member node,
sequentially in node order: the implementation coincides with the
specification text rendered directly as a program. -/
theorem c8_toggleRegion_refines_spec (s : SimState) (regionName : String)
    (shufs : Nat → List Nat → List Nat)
    (hnd : (s.nodes.map (fun n => n.id)).Nodup) :
    toggleRegionStatus s regionName shufs = toggleRegionStatusSpec s regionName shufs := by
  unfold toggleRegionStatus toggleRegionStatusSpec
  dsimp only
  set newStatus := (if (s.nodes.filter (fun n => n.region == regionName)).any
      (fun n => n.status == Status.offline)
    then Status.online else Status.offline) with hns
  have hfold := foldl_setNodeStatusById_eq_map newStatus
    (s.nodes.filter (fun n => n.region == regionName)) s.nodes hnd
  have hpred : ∀ n ∈ s.nodes,
      ((s.nodes.filter (fun n => n.region == regionName)).map
        (fun m => m.id)).contains n.id = (n.region == regionName) := by
    intro n hn
    by_cases hp : (n.region == regionName) = true
    · rw [hp]
      have : n.id ∈ (s.nodes.filter (fun n => n.region == regionName)).map
          (fun m => m.id) :=
        List.mem_map.mpr ⟨n, List.mem_filter.mpr ⟨hn, hp⟩, rfl⟩
      simpa using this
    · have hp' : (n.region == regionName) = false := by simpa using hp
      rw [hp']
      by_contra hc
      have hc' : ((s.nodes.filter (fun n => n.region == regionName)).map
          (fun m => m.id)).contains n.id = true := by
        cases h : ((s.nodes.filter (fun n => n.region == regionName)).map
            (fun m => m.id)).contains n.id
        · exact absurd h hc
        · rfl
      have : n.id ∈ (s.nodes.filter (fun n => n.region == regionName)).map
          (fun m => m.id) := by simpa using hc'
      obtain ⟨m, hm, hmid⟩ := List.mem_map.mp this
      have hmmem := List.mem_filter.mp hm
      have : m = n := id_injective_of_nodup hnd hmmem.1 hn hmid
      rw [this] at hmmem
      rw [hmmem.2] at hp'
      exact absurd hp' (by simp)
  have hmapeq : s.nodes.map (fun n =>
      if ((s.nodes.filter (fun n => n.region == regionName)).map
          (fun m => m.id)).contains n.id
      then { n with status := newStatus } else n) =
    s.nodes.map (fun n =>
      if n.region == regionName
      then { n with status := newStatus } else n) := by
    apply List.map_congr_left
    intro a ha
    rw [hpred a ha]
  rw [hfold, hmapeq]

/-- Witness for C8 on a concrete two region cluster: toggling us-east
(fully online) matches the per node specification composition. -/
theorem c8_toggleRegion_refines_spec_witness :
    toggleRegionStatus
        ⟨[⟨1, "us-east", "a", Status.online⟩, ⟨2, "us-east", "b", Status.online⟩,
          ⟨3, "us-west", "a", Status.online⟩],
          [⟨1, [1, 2, 3], 1, 10, []⟩], 4, 2, ⟨2, 3, 3, 1⟩, []⟩ "us-east" (fun _ => id) =
      toggleRegionStatusSpec
        ⟨[⟨1, "us-east", "a", Status.online⟩, ⟨2, "us-east", "b", Status.online⟩,
          ⟨3, "us-west", "a", Status.online⟩],
          [⟨1, [1, 2, 3], 1, 10, []⟩], 4, 2, ⟨2, 3, 3, 1⟩, []⟩ "us-east" (fun _ => id) :=
  c8_toggleRegion_refines_spec _ "us-east" (fun _ => id) (by decide)

/-! ### Replica selection: structural lemmas -/

theorem mem_nodesByRegionZone {avail : List Node} {region zone : String} {n : Node}
    (h : n ∈ nodesByRegionZone avail region zone) :
    n ∈ avail ∧ n.region = region ∧ n.zone = zone := by
  unfold nodesByRegionZone at h
  have h1 := List.mem_filter.mp h
  refine ⟨h1.1, ?_, ?_⟩
  · have := h1.2
    cases hr : (n.region == region) with
    | false => rw [hr, Bool.false_and] at this; exact absurd this (by simp)
    | true => simpa using hr
  · have := h1.2
    cases hz : (n.zone == zone) with
    | false => rw [hz, Bool.and_false] at this; exact absurd this (by simp)
    | true => simpa using hz

theorem mem_allRegionsOf {avail : List Node} {region : String} :
    region ∈ allRegionsOf avail ↔ ∃ n ∈ avail, n.region = region := by
  unfold allRegionsOf
  rw [mem_insertionDedup]
  constructor
  · intro h
    obtain ⟨n, hn, hr⟩ := List.mem_map.mp h
    exact ⟨n, hn, hr⟩
  · rintro ⟨n, hn, hr⟩
    exact List.mem_map.mpr ⟨n, hn, hr⟩

theorem allZonesOf_nonempty_zone {avail : List Node} {region : String}
    (h : region ∈ allRegionsOf avail) :
    ∃ z ∈ allZonesOf avail region, nodesByRegionZone avail region z ≠ [] := by
  obtain ⟨n, hn, hr⟩ := mem_allRegionsOf.mp h
  refine ⟨n.zone, ?_, ?_⟩
  · unfold allZonesOf
    rw [mem_insertionDedup]
    exact List.mem_map.mpr ⟨n, List.mem_filter.mpr ⟨hn, by simp [hr]⟩, rfl⟩
  · intro hemp
    have : n ∈ nodesByRegionZone avail region n.zone := by
      unfold nodesByRegionZone
      exact List.mem_filter.mpr ⟨hn, by simp [hr]⟩
    rw [hemp] at this
    exact absurd this (List.not_mem_nil n)

theorem bestNodeInZones_mem {avail : List Node} {region : String}
    {zones : List String} {counts : Nat → Nat} {n : Node} {z : String}
    (h : bestNodeInZones avail region zones counts = some (n, z)) :
    n ∈ avail ∧ n.region = region ∧ n.zone = z ∧ z ∈ zones := by
  unfold bestNodeInZones at h
  suffices hgen : ∀ (zs : List String) (acc : Option (Node × String)),
      (∀ m w, acc = some (m, w) →
        m ∈ avail ∧ m.region = region ∧ m.zone = w ∧ w ∈ zones) →
      (∀ z0 ∈ zs, z0 ∈ zones) →
      ∀ m w, zs.foldl
        (fun best zone =>
          match selectLeastLoadedNode (nodesByRegionZone avail region zone) counts with
          | none => best
          | some cand =>
            match best with
            | none => some (cand, zone)
            | some (b, bz) =>
              if counts cand.id < counts b.id then some (cand, zone) else some (b, bz))
        acc = some (m, w) →
        m ∈ avail ∧ m.region = region ∧ m.zone = w ∧ w ∈ zones by
    exact hgen zones none (by intro m w h0; cases h0) (fun z0 h0 => h0) n z h

  intro zs
  induction zs with
  | nil => intro acc hacc _ m w h0; exact hacc m w h0
  | cons z0 zs ih =>
    intro acc hacc hsub m w h0
    simp only [List.foldl_cons] at h0
    refine ih _ ?_ (fun z1 h1 => hsub z1 (List.mem_cons_of_mem z0 h1)) m w h0
    intro m1 w1 hstep
    cases hsel : selectLeastLoadedNode (nodesByRegionZone avail region z0) counts with
    | none =>
      rw [hsel] at hstep
      exact hacc m1 w1 hstep
    | some cand =>
      rw [hsel] at hstep
      have hcand := mem_nodesByRegionZone (selectLeastLoadedNode_mem hsel)
      cases hacc0 : acc with
      | none =>
        rw [hacc0] at hstep
        simp only [Option.some_inj] at hstep
        cases hstep
        exact ⟨hcand.1, hcand.2.1, hcand.2.2, hsub z0 (List.mem_cons_self z0 zs)⟩
      | some p =>
        rw [hacc0] at hstep
        obtain ⟨b, bz⟩ := p
        have hstep2 : (if counts cand.id < counts b.id then some (cand, z0)
            else some (b, bz)) = some (m1, w1) := hstep
        by_cases hcmp : counts cand.id < counts b.id
        · rw [if_pos hcmp] at hstep2
          simp only [Option.some_inj] at hstep2
          cases hstep2
          exact ⟨hcand.1, hcand.2.1, hcand.2.2, hsub z0 (List.mem_cons_self z0 zs)⟩
        · rw [if_neg hcmp] at hstep2
          rw [← hacc0] at hstep2
          exact hacc m1 w1 hstep2

theorem bestNodeInZones_some {avail : List Node} {region : String}
    {zones : List String} {counts : Nat → Nat} {z : String} (hz : z ∈ zones)
    (hne : nodesByRegionZone avail region z ≠ []) :
    ∃ p, bestNodeInZones avail region zones counts = some p := by
  unfold bestNodeInZones
  suffices hgen : ∀ (zs : List String) (acc : Option (Node × String)),
      (acc.isSome ∨ ∃ z0 ∈ zs, nodesByRegionZone avail region z0 ≠ []) →
      ∃ p, zs.foldl
        (fun best zone =>
          match selectLeastLoadedNode (nodesByRegionZone avail region zone) counts with
          | none => best
          | some cand =>
            match best with
            | none => some (cand, zone)
            | some (b, bz) =>
              if counts cand.id < counts b.id then some (cand, zone) else some (b, bz))
        acc = some p by
    exact hgen zones none (Or.inr ⟨z, hz, hne⟩)
  intro zs
  induction zs with
  | nil =>
    intro acc hacc
    rcases hacc with h | ⟨z0, hz0, _⟩
    · cases hv : acc with
      | none => rw [hv] at h; exact absurd h (by simp)
      | some p => exact ⟨p, rfl⟩
    · exact absurd hz0 (List.not_mem_nil z0)
  | cons z0 zs ih =>
    intro acc hacc
    simp only [List.foldl_cons]
    apply ih
    cases hsel : selectLeastLoadedNode (nodesByRegionZone avail region z0) counts with
    | none =>
      rcases hacc with h | ⟨z1, hz1, hne1⟩
      · exact Or.inl h
      · rcases List.mem_cons.mp hz1 with rfl | hmem
        · exfalso
          obtain ⟨m, hm⟩ := @selectLeastLoadedNode_some _ counts hne1
          rw [hm] at hsel
          cases hsel
        · exact Or.inr ⟨z1, hmem, hne1⟩
    | some cand =>
      left
      cases hacc0 : acc with
      | none => simp
      | some p =>
        obtain ⟨b, bz⟩ := p
        show (if counts cand.id < counts b.id then some (cand, z0)
          else some (b, bz)).isSome = true
        by_cases hcmp : counts cand.id < counts b.id
        · rw [if_pos hcmp]; simp
        · rw [if_neg hcmp]; simp

/-- Appending one node with a fresh id keeps the selected-id list
duplicate free. -/
theorem nodup_map_id_append {sel : List Node} {n : Node}
    (hnd : (sel.map (fun m => m.id)).Nodup)
    (hfresh : ∀ m ∈ sel, m.id ≠ n.id) :
    ((sel ++ [n]).map (fun m => m.id)).Nodup := by
  rw [List.map_append]
  refine List.Nodup.append hnd (List.nodup_singleton n.id) ?_
  intro a ha hb
  rw [List.map_singleton, List.mem_singleton] at hb
  obtain ⟨m, hm, hma⟩ := List.mem_map.mp ha
  exact hfresh m hm (hma.trans hb)

/-- Step 3 (distinct regions branch): starting from a state whose picks
are drawn from the earlier regions, walking a duplicate free region list
whose length exactly fills the budget yields exactly rf distinct
available nodes. -/
theorem pickDiverseRegions_spec (avail : List Node) (rf : Nat)
    (hnd : (avail.map (fun n => n.id)).Nodup) :
    ∀ (L : List String) (st : SelSt), L.Nodup →
      (∀ r ∈ L, r ∈ allRegionsOf avail) →
      (∀ n ∈ st.selected, n ∈ avail) →
      ((st.selected.map (fun n => n.id)).Nodup) →
      (∀ n ∈ st.selected, n.region ∉ L) →
      st.selected.length + L.length = rf →
      (pickDiverseRegions avail rf L st).selected.length = rf ∧
        (∀ n ∈ (pickDiverseRegions avail rf L st).selected, n ∈ avail) ∧
        ((pickDiverseRegions avail rf L st).selected.map (fun n => n.id)).Nodup := by
  intro L
  induction L with
  | nil =>
    intro st _ _ hmem hndsel _ hbud
    simpa [pickDiverseRegions] using ⟨hbud, hmem, hndsel⟩
  | cons region rest ih =>
    intro st hLnd hLmem hmem hndsel hfresh hbud
    obtain ⟨z, hz, hzne⟩ :=
      allZonesOf_nonempty_zone (hLmem region (List.mem_cons_self region rest))
    obtain ⟨p, hp⟩ :=
      @bestNodeInZones_some avail region (allZonesOf avail region) st.counts z hz hzne
    obtain ⟨n, zp⟩ := p
    obtain ⟨hnavail, hnreg, _⟩ := bestNodeInZones_mem hp
    have hunf : pickDiverseRegions avail rf (region :: rest) st =
        (if (st.push n region zp).selected.length = rf then st.push n region zp
         else pickDiverseRegions avail rf rest (st.push n region zp)) := by
      simp only [pickDiverseRegions, hp]
    rw [hunf]
    have hsel' : (st.push n region zp).selected = st.selected ++ [n] := rfl
    have hlen' : (st.push n region zp).selected.length = st.selected.length + 1 := by
      rw [hsel', List.length_append, List.length_singleton]
    have hmem' : ∀ m ∈ (st.push n region zp).selected, m ∈ avail := by
      intro m hm
      rw [hsel'] at hm
      rcases List.mem_append.mp hm with h | h
      · exact hmem m h
      · rw [List.mem_singleton] at h; exact h ▸ hnavail
    have hnd' : ((st.push n region zp).selected.map (fun m => m.id)).Nodup := by
      rw [hsel']
      refine nodup_map_id_append hndsel ?_
      intro m hm hid
      have hmn : m = n := id_injective_of_nodup hnd (hmem m hm) hnavail hid
      exact hfresh m hm (by rw [hmn, hnreg]; exact List.mem_cons_self region rest)
    by_cases hrf : (st.push n region zp).selected.length = rf
    · rw [if_pos hrf]
      exact ⟨hrf, hmem', hnd'⟩
    · rw [if_neg hrf]
      refine ih (st.push n region zp) (List.Nodup.of_cons hLnd)
        (fun r hr => hLmem r (List.mem_cons_of_mem region hr)) hmem' hnd' ?_ ?_
      · intro m hm
        rw [hsel'] at hm
        rcases List.mem_append.mp hm with h | h
        · exact fun hc => hfresh m h (List.mem_cons_of_mem region hc)
        · rw [List.mem_singleton] at h
          rw [h, hnreg]
          exact (List.nodup_cons.mp hLnd).1
      · rw [hlen']
        have := hbud
        simp only [List.length_cons] at this
        omega

/-- Step 4 (too few regions, first pass): walking regions none of whose
names appear among the already used zone keys preserves the selection
safety invariant (members available, ids distinct, every pick's zone key
recorded, at most rf picks). -/
theorem pickPerRegion_spec (avail : List Node) (rf : Nat)
    (hnd : (avail.map (fun n => n.id)).Nodup) :
    ∀ (L : List String) (st : SelSt), L.Nodup →
      (∀ n ∈ st.selected, n ∈ avail) →
      ((st.selected.map (fun n => n.id)).Nodup) →
      (∀ n ∈ st.selected, (n.region, n.zone) ∈ st.usedZones) →
      (∀ k ∈ st.usedZones, k.1 ∉ L) →
      st.selected.length < rf →
      (∀ n ∈ (pickPerRegion avail rf L st).selected, n ∈ avail) ∧
        ((pickPerRegion avail rf L st).selected.map (fun n => n.id)).Nodup ∧
        (∀ n ∈ (pickPerRegion avail rf L st).selected,
          (n.region, n.zone) ∈ (pickPerRegion avail rf L st).usedZones) ∧
        (pickPerRegion avail rf L st).selected.length ≤ rf := by
  intro L
  induction L with
  | nil =>
    intro st _ hmem hndsel hkey _ hlt
    exact ⟨hmem, hndsel, hkey, Nat.le_of_lt hlt⟩
  | cons region rest ih =>
    intro st hLnd hmem hndsel hkey hKL hlt
    have hueq : (allZonesOf avail region).filter
        (fun z => !(st.usedZones.contains (region, z))) = allZonesOf avail region := by
      apply List.filter_eq_self.mpr
      intro z _
      cases hc : st.usedZones.contains (region, z) with
      | false => simp
      | true =>
        exfalso
        have hmemz : (region, z) ∈ st.usedZones := by simpa using hc
        exact hKL _ hmemz (List.mem_cons_self region rest)
    cases hbest : bestNodeInZones avail region (allZonesOf avail region) st.counts with
    | none =>
      have hstep : pickPerRegion avail rf (region :: rest) st =
          pickPerRegion avail rf rest st := by
        simp only [pickPerRegion, hueq, ite_self, hbest]
      rw [hstep]
      exact ih st (List.Nodup.of_cons hLnd) hmem hndsel hkey
        (fun k hk => fun hc => hKL k hk (List.mem_cons_of_mem region hc)) hlt
    | some p =>
      obtain ⟨n, zp⟩ := p
      have hstep : pickPerRegion avail rf (region :: rest) st =
          (if (st.push n region zp).selected.length = rf then st.push n region zp
           else pickPerRegion avail rf rest (st.push n region zp)) := by
        simp only [pickPerRegion, hueq, ite_self, hbest]
      rw [hstep]
      obtain ⟨hnavail, hnreg, hnzone, _⟩ := bestNodeInZones_mem hbest
      have hsel' : (st.push n region zp).selected = st.selected ++ [n] := rfl
      have hused' : (st.push n region zp).usedZones =
        st.usedZones ++ [(region, zp)] := rfl
      have hmem' : ∀ m ∈ (st.push n region zp).selected, m ∈ avail := by
        intro m hm
        rw [hsel'] at hm
        rcases List.mem_append.mp hm with h | h
        · exact hmem m h
        · rw [List.mem_singleton] at h; exact h ▸ hnavail
      have hnd' : ((st.push n region zp).selected.map (fun m => m.id)).Nodup := by
        rw [hsel']
        refine nodup_map_id_append hndsel ?_
        intro m hm hid
        have hmn : m = n := id_injective_of_nodup hnd (hmem m hm) hnavail hid
        have hkm := hkey m hm
        rw [hmn, hnreg] at hkm
        exact hKL _ hkm (List.mem_cons_self region rest)
      have hkey' : ∀ m ∈ (st.push n region zp).selected,
          (m.region, m.zone) ∈ (st.push n region zp).usedZones := by
        intro m hm
        rw [hsel'] at hm
        rw [hused']
        rcases List.mem_append.mp hm with h | h
        · exact List.mem_append_left _ (hkey m h)
        · rw [List.mem_singleton] at h
          subst h
          rw [hnreg, hnzone]
          exact List.mem_append_right _ (List.mem_singleton.mpr rfl)
      have hlen' : (st.push n region zp).selected.length =
          st.selected.length + 1 := by
        rw [hsel', List.length_append, List.length_singleton]
      by_cases hrf : (st.push n region zp).selected.length = rf
      · rw [if_pos hrf]
        exact ⟨hmem', hnd', hkey', Nat.le_of_eq hrf⟩
      · rw [if_neg hrf]
        refine ih (st.push n region zp) (List.Nodup.of_cons hLnd) hmem' hnd' hkey' ?_ ?_
        · intro k hk
          rw [hused'] at hk
          rcases List.mem_append.mp hk with h | h
          · exact fun hc => hKL k h (List.mem_cons_of_mem region hc)
          · rw [List.mem_singleton] at h
            subst h
            exact (List.nodup_cons.mp hLnd).1
        · rw [hlen'] at hrf ⊢
          omega

/-- Step 5 inner loop: filling the not yet used zones of one region
preserves the selection safety invariant. -/
theorem fillZonesInRegion_spec (avail : List Node) (rf : Nat) (region : String)
    (hnd : (avail.map (fun n => n.id)).Nodup) :
    ∀ (Z : List String) (st : SelSt),
      (∀ n ∈ st.selected, n ∈ avail) →
      ((st.selected.map (fun n => n.id)).Nodup) →
      (∀ n ∈ st.selected, (n.region, n.zone) ∈ st.usedZones) →
      st.selected.length < rf →
      (∀ n ∈ (fillZonesInRegion avail rf region Z st).selected, n ∈ avail) ∧
        ((fillZonesInRegion avail rf region Z st).selected.map (fun n => n.id)).Nodup ∧
        (∀ n ∈ (fillZonesInRegion avail rf region Z st).selected,
          (n.region, n.zone) ∈ (fillZonesInRegion avail rf region Z st).usedZones) ∧
        (fillZonesInRegion avail rf region Z st).selected.length ≤ rf := by
  intro Z
  induction Z with
  | nil =>
    intro st hmem hndsel hkey hlt
    exact ⟨hmem, hndsel, hkey, Nat.le_of_lt hlt⟩
  | cons zone zs ih =>
    intro st hmem hndsel hkey hlt
    cases hc : st.usedZones.contains (region, zone) with
    | true =>
      have hstep : fillZonesInRegion avail rf region (zone :: zs) st =
          fillZonesInRegion avail rf region zs st := by
        simp only [fillZonesInRegion, hc, if_true]
      rw [hstep]
      exact ih st hmem hndsel hkey hlt
    | false =>
      have hkfree : (region, zone) ∉ st.usedZones := by
        intro hmemk
        have : st.usedZones.contains (region, zone) = true := by simpa using hmemk
        rw [hc] at this
        cases this
      cases hnz : (nodesByRegionZone avail region zone).isEmpty with
      | true =>
        have hstep : fillZonesInRegion avail rf region (zone :: zs) st =
            fillZonesInRegion avail rf region zs st := by
          simp only [fillZonesInRegion, hc, hnz, if_true, if_false, Bool.false_eq_true]
        rw [hstep]
        exact ih st hmem hndsel hkey hlt
      | false =>
        cases hsel : selectLeastLoadedNode (nodesByRegionZone avail region zone)
            st.counts with
        | none =>
          have hstep : fillZonesInRegion avail rf region (zone :: zs) st =
              fillZonesInRegion avail rf region zs st := by
            simp only [fillZonesInRegion, hc, hnz, hsel, if_false, Bool.false_eq_true]
          rw [hstep]
          exact ih st hmem hndsel hkey hlt
        | some n =>
          have hn := mem_nodesByRegionZone (selectLeastLoadedNode_mem hsel)
          obtain ⟨hnavail, hnreg, hnzone⟩ := hn
          have hstep : fillZonesInRegion avail rf region (zone :: zs) st =
              (if (st.selected ++ [n]).length = rf then
                ({ selected := st.selected ++ [n],
                   counts := Function.update st.counts n.id (st.counts n.id + 1),
                   usedRegions := st.usedRegions,
                   usedZones := st.usedZones ++ [(region, zone)] } : SelSt)
               else fillZonesInRegion avail rf region zs
                ({ selected := st.selected ++ [n],
                   counts := Function.update st.counts n.id (st.counts n.id + 1),
                   usedRegions := st.usedRegions,
                   usedZones := st.usedZones ++ [(region, zone)] } : SelSt)) := by
            simp only [fillZonesInRegion, hc, hnz, hsel, if_false, Bool.false_eq_true]
          rw [hstep]
          have hmem' : ∀ m ∈ st.selected ++ [n], m ∈ avail := by
            intro m hm
            rcases List.mem_append.mp hm with h | h
            · exact hmem m h
            · rw [List.mem_singleton] at h; exact h ▸ hnavail
          have hnd' : ((st.selected ++ [n]).map (fun m => m.id)).Nodup := by
            refine nodup_map_id_append hndsel ?_
            intro m hm hid
            have hmn : m = n := id_injective_of_nodup hnd (hmem m hm) hnavail hid
            have hkm := hkey m hm
            rw [hmn, hnreg, hnzone] at hkm
            exact hkfree hkm
          have hkey' : ∀ m ∈ st.selected ++ [n],
              (m.region, m.zone) ∈ st.usedZones ++ [(region, zone)] := by
            intro m hm
            rcases List.mem_append.mp hm with h | h
            · exact List.mem_append_left _ (hkey m h)
            · rw [List.mem_singleton] at h
              subst h
              rw [hnreg, hnzone]
              exact List.mem_append_right _ (List.mem_singleton.mpr rfl)
          have hlen' : (st.selected ++ [n]).length = st.selected.length + 1 := by
            rw [List.length_append, List.length_singleton]
          by_cases hrf : (st.selected ++ [n]).length = rf
          · rw [if_pos hrf]
            exact ⟨hmem', hnd', hkey', Nat.le_of_eq hrf⟩
          · rw [if_neg hrf]
            refine ih _ hmem' hnd' hkey' ?_
            show (st.selected ++ [n]).length < rf
            rw [hlen'] at hrf ⊢
            omega

/-- Step 5 outer loop: filling zones region by region preserves the
selection safety invariant. -/
theorem fillZones_spec (avail : List Node) (rf : Nat)
    (hnd : (avail.map (fun n => n.id)).Nodup) :
    ∀ (L : List String) (st : SelSt),
      (∀ n ∈ st.selected, n ∈ avail) →
      ((st.selected.map (fun n => n.id)).Nodup) →
      (∀ n ∈ st.selected, (n.region, n.zone) ∈ st.usedZones) →
      st.selected.length < rf →
      (∀ n ∈ (fillZones avail rf L st).selected, n ∈ avail) ∧
        ((fillZones avail rf L st).selected.map (fun n => n.id)).Nodup ∧
        (fillZones avail rf L st).selected.length ≤ rf := by
  intro L
  induction L with
  | nil =>
    intro st hmem hndsel _ hlt
    exact ⟨hmem, hndsel, Nat.le_of_lt hlt⟩
  | cons region rest ih =>
    intro st hmem hndsel hkey hlt
    obtain ⟨hmem1, hnd1, hkey1, hle1⟩ :=
      fillZonesInRegion_spec avail rf region hnd (allZonesOf avail region) st
        hmem hndsel hkey hlt
    have hstep : fillZones avail rf (region :: rest) st =
        (if (fillZonesInRegion avail rf region (allZonesOf avail region)
              st).selected.length = rf then
          fillZonesInRegion avail rf region (allZonesOf avail region) st
         else fillZones avail rf rest
          (fillZonesInRegion avail rf region (allZonesOf avail region) st)) := by
      simp only [fillZones]
    rw [hstep]
    by_cases hrf : (fillZonesInRegion avail rf region (allZonesOf avail region)
        st).selected.length = rf
    · rw [if_pos hrf]
      exact ⟨hmem1, hnd1, Nat.le_of_eq hrf⟩
    · rw [if_neg hrf]
      exact ih _ hmem1 hnd1 hkey1 (Nat.lt_of_le_of_ne hle1 hrf)

/-- Step 6 (last resort top up): starting from at most rf distinct
selected nodes, topping up from the not yet selected nodes reaches
exactly rf distinct available nodes whenever the pool holds at least rf
nodes. -/
theorem lastResort_spec (avail : List Node) (rf : Nat)
    (hnd : (avail.map (fun n => n.id)).Nodup) (st : SelSt)
    (hmem : ∀ n ∈ st.selected, n ∈ avail)
    (hndsel : (st.selected.map (fun n => n.id)).Nodup)
    (hle : st.selected.length ≤ rf)
    (hcap : rf ≤ avail.length) :
    (lastResort avail rf st).selected.length = rf ∧
      (∀ n ∈ (lastResort avail rf st).selected, n ∈ avail) ∧
      ((lastResort avail rf st).selected.map (fun n => n.id)).Nodup := by
  have hselres : (lastResort avail rf st).selected =
      st.selected ++ (sortByAsc (fun n => st.counts n.id)
        (avail.filter (fun n => !(st.selected.any (fun sel => sel.id == n.id))))).take
        (rf - st.selected.length) := rfl
  have hfo : (avail.filter
      (fun n => !(!(st.selected.any (fun sel => sel.id == n.id))))).length ≤
      st.selected.length := by
    have hsub : List.Subperm ((avail.filter
        (fun n => !(!(st.selected.any (fun sel => sel.id == n.id))))).map
          (fun n => n.id)) (st.selected.map (fun n => n.id)) := by
      apply List.Nodup.subperm
      · exact ((List.filter_sublist avail).map (fun n => n.id)).nodup hnd
      · intro x hx
        obtain ⟨m, hm, hmx⟩ := List.mem_map.mp hx
        have hpm := (List.mem_filter.mp hm).2
        rw [Bool.not_not] at hpm
        obtain ⟨sel, hsel, hselx⟩ := List.any_eq_true.mp hpm
        have : sel.id = m.id := by simpa using hselx
        exact List.mem_map.mpr ⟨sel, hsel, by rw [this, hmx]⟩
    have := hsub.length_le
    simpa using this
  have hrem : rf - st.selected.length ≤ (avail.filter
      (fun n => !(st.selected.any (fun sel => sel.id == n.id)))).length := by
    have hpart := length_filter_partition
      (fun n => !(st.selected.any (fun sel => sel.id == n.id))) avail
    omega
  have hsortlen : (sortByAsc (fun n => st.counts n.id)
      (avail.filter (fun n => !(st.selected.any
        (fun sel => sel.id == n.id))))).length =
      (avail.filter (fun n => !(st.selected.any
        (fun sel => sel.id == n.id)))).length :=
    (sortByAsc_perm _ _).length_eq
  have htakelen : ((sortByAsc (fun n => st.counts n.id)
      (avail.filter (fun n => !(st.selected.any
        (fun sel => sel.id == n.id))))).take (rf - st.selected.length)).length =
      rf - st.selected.length := by
    rw [List.length_take, hsortlen]
    omega
  have htakemem : ∀ m ∈ (sortByAsc (fun n => st.counts n.id)
      (avail.filter (fun n => !(st.selected.any
        (fun sel => sel.id == n.id))))).take (rf - st.selected.length),
      m ∈ avail.filter (fun n => !(st.selected.any (fun sel => sel.id == n.id))) := by
    intro m hm
    have := (List.take_sublist (rf - st.selected.length) _).subset hm
    exact (sortByAsc_perm (fun n => st.counts n.id) _).mem_iff.mp this
  refine ⟨?_, ?_, ?_⟩
  · rw [hselres, List.length_append, htakelen]
    omega
  · rw [hselres]
    intro m hm
    rcases List.mem_append.mp hm with h | h
    · exact hmem m h
    · exact List.mem_of_mem_filter (htakemem m h)
  · rw [hselres, List.map_append]
    refine List.Nodup.append hndsel ?_ ?_
    · rw [List.map_take]
      apply (List.take_sublist (rf - st.selected.length) _).nodup
      exact ((sortByAsc_perm (fun n => st.counts n.id) _).map
        (fun n => n.id)).nodup_iff.mpr (((List.filter_sublist avail).map
          (fun n => n.id)).nodup hnd)
    · intro x hxsel hxtake
      obtain ⟨m, hm, hmx⟩ := List.mem_map.mp hxtake
      have hpm := (List.mem_filter.mp (htakemem m hm)).2
      rw [Bool.not_eq_eq_eq_not, Bool.not_true, List.any_eq_false] at hpm
      obtain ⟨sel, hsel, hselx⟩ := List.mem_map.mp hxsel
      have := hpm sel hsel
      rw [hselx, ← hmx] at this
      simp at this

/-- selectNodesForReplicas, called with genuine shuffles on a pool of at
least replicationFactor nodes with distinct ids, returns exactly
replicationFactor nodes of the pool with pairwise distinct ids. -/
theorem selectNodesForReplicas_spec (ranges : List Range) (avail : List Node)
    (rf : Nat) (ch : SelChoice) (hch : ch.Wf)
    (hnd : (avail.map (fun n => n.id)).Nodup) (hcap : rf ≤ avail.length) :
    (selectNodesForReplicas ranges avail rf ch).length = rf ∧
      ((selectNodesForReplicas ranges avail rf ch).map (fun n => n.id)).Nodup ∧
      (∀ n ∈ selectNodesForReplicas ranges avail rf ch, n ∈ avail) := by
  unfold selectNodesForReplicas
  by_cases hbr : rf ≤ (allRegionsOf avail).length
  · rw [if_pos hbr]
    have hperm : (ch.shufRegions (allRegionsOf avail)).Perm (allRegionsOf avail) :=
      hch.1 _
    have hlen : (ch.shufRegions (allRegionsOf avail)).length =
        (allRegionsOf avail).length := hperm.length_eq
    have hsub := List.take_sublist rf (ch.shufRegions (allRegionsOf avail))
    obtain ⟨h1, h2, h3⟩ := pickDiverseRegions_spec avail rf hnd
      ((ch.shufRegions (allRegionsOf avail)).take rf)
      ⟨[], calculateNodeReplicaCounts ranges, [], []⟩
      (hsub.nodup (hperm.nodup_iff.mpr (nodup_insertionDedup _)))
      (fun r hr => hperm.mem_iff.mp (hsub.subset hr))
      (by intro n hn; cases hn) (by simp) (by intro n hn; cases hn)
      (by
        simp only [List.length_nil, Nat.zero_add, List.length_take, hlen]
        omega)
    exact ⟨h1, h3, h2⟩
  · rw [if_neg hbr]
    have hrf1 : 0 < rf := by
      rcases Nat.eq_zero_or_pos rf with h0 | h
      · exact absurd (h0 ▸ Nat.zero_le _) hbr
      · exact h
    obtain ⟨m1, n1, k1, l1⟩ := pickPerRegion_spec avail rf hnd
      (allRegionsOf avail) ⟨[], calculateNodeReplicaCounts ranges, [], []⟩
      (nodup_insertionDedup _)
      (by intro n hn; cases hn) (by simp) (by intro n hn; cases hn)
      (by intro k hk; cases hk)
      (by simpa using hrf1)
    dsimp only
    set st1 := pickPerRegion avail rf (allRegionsOf avail)
      ⟨[], calculateNodeReplicaCounts ranges, [], []⟩ with hst1
    have hstep2 : ∀ st2 : SimRoach.SelSt,
        (∀ n ∈ st2.selected, n ∈ avail) →
        ((st2.selected.map (fun n => n.id)).Nodup) →
        st2.selected.length ≤ rf →
        ((if st2.selected.length < rf then lastResort avail rf st2
          else st2).selected.length = rf ∨
          (if st2.selected.length < rf then lastResort avail rf st2
           else st2).selected.length = st2.selected.length ∧ ¬st2.selected.length < rf) := by
      intro st2 hm hn hl
      by_cases hlt : st2.selected.length < rf
      · rw [if_pos hlt]
        exact Or.inl (lastResort_spec avail rf hnd st2 hm hn hl hcap).1
      · rw [if_neg hlt]
        exact Or.inr ⟨rfl, hlt⟩
    by_cases hlt1 : st1.selected.length < rf
    · rw [if_pos hlt1]
      obtain ⟨m2, n2, l2⟩ := fillZones_spec avail rf hnd
        (ch.shufUsedRegions st1.usedRegions) st1 m1 n1 k1 hlt1
      set st2 := fillZones avail rf (ch.shufUsedRegions st1.usedRegions) st1 with hst2
      by_cases hlt2 : st2.selected.length < rf
      · rw [if_pos hlt2]
        obtain ⟨e3, m3, n3⟩ := lastResort_spec avail rf hnd st2 m2 n2 l2 hcap
        exact ⟨e3, n3, m3⟩
      · rw [if_neg hlt2]
        exact ⟨Nat.le_antisymm l2 (Nat.le_of_not_lt hlt2), n2, m2⟩
    · rw [if_neg hlt1]
      have heq1 : st1.selected.length = rf :=
        Nat.le_antisymm l1 (Nat.le_of_not_lt hlt1)
      rw [if_neg (by rw [heq1]; exact Nat.lt_irrefl rf)]
      exact ⟨heq1, n1, m1⟩

/-! ### Invariant preservation -/

theorem availableReplaceNodesOf_spec {nodes : List Node} {r : Range} {n : Node}
    (h : n ∈ availableReplaceNodesOf nodes r) :
    n ∈ nodes ∧ n.status = Status.online ∧ n.id ∉ r.replicas := by
  unfold availableReplaceNodesOf at h
  have h1 := List.mem_filter.mp h
  have h2 := h1.2
  rw [Bool.and_eq_true] at h2
  refine ⟨h1.1, by simpa using h2.1, ?_⟩
  intro hmm
  have hc : r.replicas.contains n.id = true := by simpa using hmm
  rw [hc] at h2
  simp at h2

/-- The failure migrator changes a range's replica list only by replacing
the failing id with the id of a node not yet hosting the range. -/
theorem migrateOneRange_replicas (nodes : List Node) (off : Node) (nodeId : Nat)
    (rs : List Range) (r : Range) :
    (migrateOneRange nodes off nodeId rs r).replicas = r.replicas ∨
    ∃ repl, repl ∈ nodes ∧ repl.id ∉ r.replicas ∧
      (migrateOneRange nodes off nodeId rs r).replicas =
        replaceId nodeId repl.id r.replicas := by
  unfold migrateOneRange
  by_cases hc : r.replicas.contains nodeId
  · rw [if_pos hc]
    dsimp only
    by_cases he : (availableReplaceNodesOf nodes r).isEmpty
    · rw [if_pos he]
      by_cases hlh : r.leaseholder = nodeId ∧
          (migrateLeaseholderChoice nodes off nodeId r).1 ≠ nodeId
      · rw [if_pos hlh]; left; rfl
      · rw [if_neg hlh]; left; rfl
    · rw [if_neg he]
      cases hrc : migrateReplacementChoice nodes nodeId rs r with
      | none => left; rfl
      | some repl =>
        right
        obtain ⟨hmem, _, hnot⟩ := availableReplaceNodesOf_spec
          (migrateReplacementChoice_mem hrc)
        exact ⟨repl, hmem, hnot, rfl⟩
  · rw [if_neg hc]; left; rfl

theorem migrateOneRange_rangeOk {nodes : List Node} {rf : Nat} (off : Node)
    (nodeId : Nat) (rs : List Range) {r : Range}
    (hok : RangeOk nodes rf r) :
    RangeOk nodes rf (migrateOneRange nodes off nodeId rs r) := by
  obtain ⟨hlen, hnodup, hmem⟩ := hok
  rcases migrateOneRange_replicas nodes off nodeId rs r with heq |
    ⟨repl, hrmem, hrnot, heq⟩
  · exact ⟨heq ▸ hlen, heq ▸ hnodup, heq ▸ hmem⟩
  · refine ⟨?_, ?_, ?_⟩
    · rw [heq, length_replaceId]; exact hlen
    · rw [heq]; exact nodup_replaceId hnodup hrnot
    · intro rid hrid
      rw [heq] at hrid
      rcases mem_replaceId hrid with h | h
      · exact hmem rid h
      · rw [h]; exact List.mem_map.mpr ⟨repl, hrmem, rfl⟩

theorem migrate_invariant (s : SimState) (nodeId : Nat) (hinv : Invariant s) :
    Invariant (migrateLeaseholdersFromOfflineNode s nodeId) := by
  obtain ⟨h1, h2, h3⟩ := hinv
  unfold migrateLeaseholdersFromOfflineNode
  cases hf : findNode s.nodes nodeId with
  | none => exact ⟨h1, h2, h3⟩
  | some off =>
    refine ⟨h1, h2, ?_⟩
    intro r hr
    refine foldl_updateAt_forall _ ?_ _ s.ranges h3 r hr
    intro rs r1 r2 hq hg
    obtain rfl : migrateOneRange s.nodes off nodeId rs r1 = r2 :=
      Option.some_injective _ hg
    exact migrateOneRange_rangeOk off nodeId rs hq

/-- The pointwise fold lemma with a side condition drawn from the
original list: when the processed indices are pairwise distinct, the
body sees each range in its original form, so a property of the original
entries may be assumed in the preservation step. -/
theorem foldl_updateAt_forall_nodup (g : List Range → Range → Option Range)
    {Q R : Range → Prop} (is : List Nat) (hnd : is.Nodup) (rs : List Range)
    (hR : ∀ i ∈ is, ∀ r, rs[i]? = some r → R r)
    (hQ : ∀ r ∈ rs, Q r)
    (hg : ∀ rsMid r r2, Q r → R r → g rsMid r = some r2 → Q r2) :
    ∀ r ∈ is.foldl (updateAt g) rs, Q r := by
  intro r hr
  obtain ⟨j, hj, hjr⟩ := List.getElem_of_mem hr
  have hjq : (is.foldl (updateAt g) rs)[j]? = some r :=
    List.getElem?_eq_some_iff.mpr ⟨hj, hjr⟩
  by_cases hjin : j ∈ is
  · have hjlen : j < rs.length := by
      have := hj
      rw [foldl_updateAt_length] at this
      exact this
    have hr0 : rs[j]? = some rs[j] := List.getElem?_eq_some_iff.mpr ⟨hjlen, rfl⟩
    obtain ⟨rsMid, hmid, hfin⟩ := foldl_updateAt_processed g is hnd rs j hjin rs[j] hr0
    rw [hjq] at hfin
    have hrq : r = (g rsMid rs[j]).getD rs[j] := Option.some_injective _ hfin
    cases hg2 : g rsMid rs[j] with
    | none =>
      rw [hg2, Option.getD_none] at hrq
      exact hrq ▸ hQ rs[j] (List.getElem_mem hjlen)
    | some r2 =>
      rw [hg2, Option.getD_some] at hrq
      rw [hrq]
      exact hg rsMid rs[j] r2 (hQ rs[j] (List.getElem_mem hjlen))
        (hR j hjin rs[j] hr0) hg2
  · rw [foldl_updateAt_untouched g is rs j hjin] at hjq
    exact hQ r (List.getElem?_mem hjq)

theorem repairRange_some_inv {nodes : List Node} {rf nodeId : Nat} {r r2 : Range}
    (h : repairRange nodes rf nodeId r = some r2) :
    nodeId ∉ r.replicas ∧ (onlineReplicasOf nodes r).length < rf := by
  unfold repairRange at h
  dsimp only at h
  by_cases hc : r.replicas.contains nodeId
  · rw [if_pos hc] at h; cases h
  · rw [if_neg hc] at h
    by_cases hl : (onlineReplicasOf nodes r).length < rf
    · exact ⟨by simpa using hc, hl⟩
    · rw [if_neg hl] at h; cases h

/-- The online replicas and the kept-out replicas partition a range's
replica list. -/
theorem online_offline_partition (nodes : List Node) (r : Range) :
    (onlineReplicasOf nodes r).length +
      (r.replicas.filter
        (fun rid => !((onlineReplicasOf nodes r).contains rid))).length =
      r.replicas.length := by
  have hofeq : r.replicas.filter
      (fun rid => !((onlineReplicasOf nodes r).contains rid)) =
      r.replicas.filter (fun rid => !(isOnlineId nodes rid)) := by
    apply List.filter_congr
    intro x hxmem
    by_cases hon : isOnlineId nodes x = true
    · have hxin : x ∈ onlineReplicasOf nodes r := List.mem_filter.mpr ⟨hxmem, hon⟩
      simp [hxin, hon]
    · have hxnot : x ∉ onlineReplicasOf nodes r :=
        fun hc => hon (List.mem_filter.mp hc).2
      simp [hxnot, hon]
  rw [hofeq]
  unfold onlineReplicasOf
  exact length_filter_partition _ _

theorem repairRange_rangeOk {nodes : List Node} {rf nodeId : Nat} {r r2 : Range}
    (hnid : nodeId ∈ nodes.map (fun n => n.id))
    (hok : RangeOk nodes rf r)
    (h : repairRange nodes rf nodeId r = some r2) :
    RangeOk nodes rf r2 := by
  obtain ⟨hlen, hnodup, hmem⟩ := hok
  obtain ⟨hnm, hund⟩ := repairRange_some_inv h
  obtain ⟨r1, hr1, hreps, _, _⟩ := repairRange_spec nodes rf nodeId r hnm hund
  rw [h] at hr1
  obtain rfl : r2 = r1 := Option.some_injective _ hr1
  have honlnd : (onlineReplicasOf nodes r).Nodup := List.Nodup.filter _ hnodup
  have hoffnd : (r.replicas.filter
      (fun rid => !((onlineReplicasOf nodes r).contains rid))).Nodup :=
    List.Nodup.filter _ hnodup
  have hpart := online_offline_partition nodes r
  have htakesub : ∀ x ∈ (r.replicas.filter
      (fun rid => !((onlineReplicasOf nodes r).contains rid))).take
        (rf - (onlineReplicasOf nodes r).length - 1),
      x ∈ r.replicas.filter (fun rid => !((onlineReplicasOf nodes r).contains rid)) :=
    fun x hx => (List.take_sublist _ _).subset hx
  refine ⟨?_, ?_, ?_⟩
  · rw [hreps, List.length_append, List.length_cons, List.length_take]
    rw [hlen] at hpart
    omega
  · rw [hreps]
    refine List.Nodup.append honlnd ?_ ?_
    · refine List.nodup_cons.mpr ⟨?_, (List.take_sublist _ _).nodup hoffnd⟩
      intro hcmem
      exact hnm (List.mem_of_mem_filter (htakesub _ hcmem))
    · intro x hxon hxtail
      rcases List.mem_cons.mp hxtail with hx | hx
      · exact hnm (hx ▸ List.mem_of_mem_filter hxon)
      · have := (List.mem_filter.mp (htakesub x hx)).2
        have hcon : (onlineReplicasOf nodes r).contains x = true := by simpa using hxon
        rw [hcon] at this
        cases this
  · intro rid hrid
    rw [hreps] at hrid
    rcases List.mem_append.mp hrid with hx | hx
    · exact hmem rid (List.mem_of_mem_filter hx)
    · rcases List.mem_cons.mp hx with hx' | hx'
      · exact hx' ▸ hnid
      · exact hmem rid (List.mem_of_mem_filter (htakesub rid hx'))

theorem opportunisticOne_rangeOk {nodes : List Node} {rf : Nat}
    (overloaded : List Node) {nodeId : Nat}
    (hnid : nodeId ∈ nodes.map (fun n => n.id)) {r : Range}
    (hnotmem : nodeId ∉ r.replicas) (hok : RangeOk nodes rf r) :
    RangeOk nodes rf (opportunisticOne nodes overloaded nodeId r) := by
  obtain ⟨hlen, hnodup, hmem⟩ := hok
  unfold opportunisticOne
  dsimp only
  cases hh : (r.replicas.filter
      (fun rid => overloaded.any (fun n => n.id == rid))).head? with
  | none => exact ⟨hlen, hnodup, hmem⟩
  | some dflt =>
    dsimp only
    refine ⟨?_, ?_, ?_⟩
    · rw [length_replaceId]; exact hlen
    · exact nodup_replaceId hnodup hnotmem
    · intro rid hrid
      rcases mem_replaceId hrid with h | h
      · exact hmem rid h
      · exact h ▸ hnid

theorem rebalance_invariant (s : SimState) (nodeId : Nat)
    (shufIdx : List Nat → List Nat) (hsh : IsShuffle shufIdx)
    (hinv : Invariant s) :
    Invariant (rebalanceToOnlineNode s nodeId shufIdx) := by
  obtain ⟨h1, h2, h3⟩ := hinv
  unfold rebalanceToOnlineNode
  cases hf : findNode s.nodes nodeId with
  | none => exact ⟨h1, h2, h3⟩
  | some node =>
    dsimp only
    by_cases hon : (node.status != Status.online) = true
    · rw [if_pos hon]; exact ⟨h1, h2, h3⟩
    · rw [if_neg hon]
      have hnid : nodeId ∈ s.nodes.map (fun n => n.id) := by
        obtain ⟨hm, hid⟩ := findNode_spec hf
        exact List.mem_map.mpr ⟨node, hm, hid⟩
      set rf := s.config.replicationFactor with hrf
      set underIdx := (List.range s.ranges.length).filter (fun i =>
        match s.ranges[i]? with
        | some r => decide ((onlineReplicasOf s.nodes r).length < rf)
        | none => false) with hunder
      have hrs1 : ∀ r ∈ underIdx.foldl
          (updateAt (fun _ r => repairRange s.nodes rf nodeId r)) s.ranges,
          RangeOk s.nodes rf r := by
        refine foldl_updateAt_forall _ ?_ underIdx s.ranges h3
        intro rs r1 r2 hq hg
        exact repairRange_rangeOk hnid hq hg
      by_cases hemp : underIdx.isEmpty = true
      · rw [if_pos hemp]
        have hu0 : underIdx = [] := List.isEmpty_iff.mp hemp
        rw [hu0]
        simp only [List.foldl_nil]
        set ov := (s.nodes.filter (fun n => n.status == Status.online)).filter
          (fun n => n.id != nodeId &&
            decide (calculateNodeReplicaCounts s.ranges nodeId + 1 <
              calculateNodeReplicaCounts s.ranges n.id)) with hov
        by_cases hov0 : ov.isEmpty = true
        · rw [if_pos hov0]
          exact ⟨h1, h2, h3⟩
        · rw [if_neg hov0]
          refine ⟨h1, h2, ?_⟩
          intro r hr
          set candIdx := (List.range s.ranges.length).filter (fun i =>
            match s.ranges[i]? with
            | some r =>
              !(r.replicas.contains nodeId) &&
                r.replicas.any (fun rid =>
                  (sortByDesc (fun n => calculateNodeReplicaCounts s.ranges n.id)
                    ov).any (fun n => n.id == rid))
            | none => false) with hcand
          have hchnd : ((shufIdx candIdx).take
              (min 3 ((candIdx.length + 3) / 4))).Nodup :=
            (List.take_sublist _ _).nodup
              ((hsh candIdx).nodup_iff.mpr (List.Nodup.filter _ (List.nodup_range _)))
          refine @foldl_updateAt_forall_nodup _ (RangeOk s.nodes rf)
            (fun r => nodeId ∉ r.replicas) _ hchnd s.ranges ?_ h3 ?_ r hr
          · intro i hi r1 hr1
            have hic : i ∈ candIdx :=
              (hsh candIdx).mem_iff.mp ((List.take_sublist _ _).subset hi)
            have hpred := (List.mem_filter.mp (hcand ▸ hic)).2
            have hp : (match s.ranges[i]? with
                | some r =>
                  !(r.replicas.contains nodeId) &&
                    r.replicas.any (fun rid =>
                      (sortByDesc (fun n => calculateNodeReplicaCounts s.ranges n.id)
                        ov).any (fun n => n.id == rid))
                | none => false) = true := hpred
            rw [hr1] at hp
            have hp2 : (!(r1.replicas.contains nodeId) &&
                r1.replicas.any (fun rid =>
                  (sortByDesc (fun n => calculateNodeReplicaCounts s.ranges n.id)
                    ov).any (fun n => n.id == rid))) = true := hp
            rw [Bool.and_eq_true] at hp2
            have hc1 := hp2.1
            intro hmm
            have hc2 : r1.replicas.contains nodeId = true := by simpa using hmm
            rw [hc2] at hc1
            cases hc1
          · intro rsMid r1 r2 hq hrq hgeq
            obtain rfl : opportunisticOne s.nodes
                (sortByDesc (fun n => calculateNodeReplicaCounts s.ranges n.id) ov)
                nodeId r1 = r2 :=
              Option.some_injective _ hgeq
            exact opportunisticOne_rangeOk _ hnid hrq hq
      · rw [if_neg hemp]
        exact ⟨h1, h2, fun r hr => hrs1 r hr⟩

theorem map_id_set_status {nodes : List Node} {k : Nat} {nd : Node}
    (hget : nodes[k]? = some nd) (st : Status) :
    (nodes.set k { nd with status := st }).map (fun n => n.id) =
      nodes.map (fun n => n.id) := by
  apply List.ext_getElem?
  intro j
  rw [List.getElem?_map, List.getElem?_map]
  by_cases hjk : j = k
  · subst hjk
    rw [List.getElem?_set_self (List.getElem?_eq_some_iff.mp hget).1, hget]
    rfl
  · rw [List.getElem?_set_ne (fun h => hjk h.symm)]

/-- Setting one node's status (the node found at index k) preserves the
invariant: ids and ranges are untouched. -/
theorem set_status_invariant {s : SimState} {k : Nat} {nd : Node}
    (hget : s.nodes[k]? = some nd) (st : Status) (hinv : Invariant s) :
    Invariant { s with nodes := s.nodes.set k { nd with status := st } } := by
  obtain ⟨h1, h2, h3⟩ := hinv
  have hmapeq := map_id_set_status hget st
  refine ⟨?_, ?_, ?_⟩
  · show ((s.nodes.set k { nd with status := st }).map (fun n => n.id)).Nodup
    rw [hmapeq]; exact h1
  · intro n hn
    rcases List.mem_or_eq_of_mem_set hn with h | h
    · exact h2 n h
    · rw [h]
      exact h2 nd (List.getElem?_mem hget)
  · intro r hr
    obtain ⟨ha, hb, hc⟩ := h3 r hr
    refine ⟨ha, hb, ?_⟩
    intro rid hrid
    show rid ∈ (s.nodes.set k { nd with status := st }).map (fun n => n.id)
    rw [hmapeq]
    exact hc rid hrid

theorem toggleNode_invariant (s : SimState) (nodeId : Nat)
    (shufIdx : List Nat → List Nat) (hsh : IsShuffle shufIdx)
    (hinv : Invariant s) :
    Invariant (toggleNodeStatus s nodeId shufIdx) := by
  unfold toggleNodeStatus
  cases hidx : s.nodes.findIdx? (fun n => n.id == nodeId) with
  | none => exact hinv
  | some k =>
    dsimp only
    cases hget : s.nodes[k]? with
    | none => exact hinv
    | some nd =>
      dsimp only
      have hinv1 := set_status_invariant hget
        (if nd.status == Status.online then Status.offline else Status.online) hinv
      by_cases hoff : ((if nd.status == Status.online then Status.offline
          else Status.online) == Status.offline) = true
      · rw [if_pos hoff]
        exact migrate_invariant _ nodeId hinv1
      · rw [if_neg hoff]
        exact rebalance_invariant _ nodeId shufIdx hsh hinv1

/-- Replacing one range by a range with the same replica list preserves
the invariant. -/
theorem invariant_set_range {s : SimState} {i : Nat} {r : Range} (newR : Range)
    (hget : s.ranges[i]? = some r) (heq : newR.replicas = r.replicas)
    (hinv : Invariant s) :
    Invariant { s with ranges := s.ranges.set i newR } := by
  obtain ⟨h1, h2, h3⟩ := hinv
  refine ⟨h1, h2, ?_⟩
  intro r1 hr1
  rcases List.mem_or_eq_of_mem_set hr1 with h | h
  · exact h3 r1 h
  · subst h
    obtain ⟨ha, hb, hc⟩ := h3 r (List.getElem?_mem hget)
    exact ⟨by rw [heq]; exact ha, by rw [heq]; exact hb, by rw [heq]; exact hc⟩

theorem balanceHot_invariant (s : SimState) (rangeId : Nat) (hinv : Invariant s) :
    Invariant (balanceHotRange s rangeId) := by
  unfold balanceHotRange
  cases h1 : s.ranges.findIdx? (fun r => r.id == rangeId) with
  | none => exact hinv
  | some i =>
    dsimp only
    cases h2 : s.ranges[i]? with
    | none => exact hinv
    | some range =>
      dsimp only
      by_cases h3 : (onlineReplicaNodesOf s.nodes range).length ≤ 1
      · rw [if_pos h3]; exact hinv
      · rw [if_neg h3]
        cases h4 : findNode s.nodes range.leaseholder with
        | none => exact hinv
        | some cur =>
          dsimp only
          by_cases h5 : 40 < calculateRegionLoad s cur.region
          · rw [if_pos h5]
            cases h6 : (sortByAsc (fun n => calculateRegionLoad s n.region)
                (onlineReplicaNodesOf s.nodes range)).head? with
            | none => exact hinv
            | some best =>
              dsimp only
              by_cases h7 : best.id ≠ range.leaseholder
              · rw [if_pos h7]
                exact invariant_set_range _ h2 rfl hinv
              · rw [if_neg h7]; exact hinv
          · rw [if_neg h5]; exact hinv

theorem markRangeHot_invariant (s : SimState) (rangeId : Nat)
    (hinv : Invariant s) : Invariant (SimRoach.markRangeHot s rangeId) := by
  unfold SimRoach.markRangeHot
  cases h1 : s.ranges.findIdx? (fun r => r.id == rangeId) with
  | none => exact hinv
  | some i =>
    dsimp only
    cases h2 : s.ranges[i]? with
    | none => exact hinv
    | some r =>
      dsimp only
      exact balanceHot_invariant _ rangeId (invariant_set_range _ h2 rfl hinv)

theorem addRangeE_invariant (s : SimState) (ch : SelChoice) (hch : ch.Wf)
    (hinv : Invariant s) : Invariant (addRangeE s ch).2 := by
  obtain ⟨h1, h2, h3⟩ := hinv
  unfold addRangeE
  dsimp only
  by_cases hc : (s.nodes.filter (fun n => n.status == Status.online)).length <
      s.config.replicationFactor
  · rw [if_pos hc]; exact ⟨h1, h2, h3⟩
  · rw [if_neg hc]
    have hcap : s.config.replicationFactor ≤
        (s.nodes.filter (fun n => n.status == Status.online)).length :=
      Nat.le_of_not_lt hc
    have hndon : ((s.nodes.filter (fun n => n.status == Status.online)).map
        (fun n => n.id)).Nodup :=
      ((List.filter_sublist s.nodes).map _).nodup h1
    obtain ⟨hslen, hsnd, hsmem⟩ := selectNodesForReplicas_spec s.ranges
      (s.nodes.filter (fun n => n.status == Status.online))
      s.config.replicationFactor ch hch hndon hcap
    cases hh : (sortByDesc
        (fun n => (s.nodes.filter (fun m => m.region == n.region)).length)
        (selectNodesForReplicas s.ranges
          (s.nodes.filter (fun n => n.status == Status.online))
          s.config.replicationFactor ch)).head? with
    | none => exact ⟨h1, h2, h3⟩
    | some lead =>
      dsimp only
      refine ⟨h1, h2, ?_⟩
      intro r hr
      rcases List.mem_append.mp hr with h | h
      · exact h3 r h
      · rw [List.mem_singleton] at h
        subst h
        refine ⟨?_, ?_, ?_⟩
        · rw [List.length_map]; exact hslen
        · exact hsnd
        · intro rid hrid
          obtain ⟨n, hn, hnid⟩ := List.mem_map.mp hrid
          exact List.mem_map.mpr ⟨n, List.mem_of_mem_filter (hsmem n hn), hnid⟩

/-! ### Parametrized updateAt folds (one g per processed pair) -/

theorem foldl_updateAt_pairs_length {β : Type}
    (gf : β → List Range → Range → Option Range) (idx : β → Nat) :
    ∀ (ps : List β) (rs : List Range),
      (ps.foldl (fun rs p => updateAt (gf p) rs (idx p)) rs).length = rs.length := by
  intro ps
  induction ps with
  | nil => intro rs; rfl
  | cons p ps ih =>
    intro rs
    simp only [List.foldl_cons]
    rw [ih, length_updateAt]

theorem foldl_updateAt_pairs_untouched {β : Type}
    (gf : β → List Range → Range → Option Range) (idx : β → Nat) :
    ∀ (ps : List β) (rs : List Range) (j : Nat), (∀ p ∈ ps, idx p ≠ j) →
      (ps.foldl (fun rs p => updateAt (gf p) rs (idx p)) rs)[j]? = rs[j]? := by
  intro ps
  induction ps with
  | nil => intro rs j _; rfl
  | cons p ps ih =>
    intro rs j hj
    simp only [List.foldl_cons]
    rw [ih _ j (fun q hq => hj q (List.mem_cons_of_mem p hq)),
      getElem?_updateAt_ne _ rs (fun h => hj p (List.mem_cons_self p ps) h.symm)]

theorem foldl_updateAt_pairs_processed {β : Type}
    (gf : β → List Range → Range → Option Range) (idx : β → Nat) :
    ∀ (ps : List β), (ps.map idx).Nodup → ∀ (rs : List Range) (p : β), p ∈ ps →
      ∀ (r0 : Range), rs[idx p]? = some r0 →
        ∃ rsMid, rsMid[idx p]? = some r0 ∧
          (ps.foldl (fun rs q => updateAt (gf q) rs (idx q)) rs)[idx p]? =
            some ((gf p rsMid r0).getD r0) := by
  intro ps
  induction ps with
  | nil => intro _ rs p hp; exact absurd hp (List.not_mem_nil p)
  | cons q ps ih =>
    intro hnd rs p hp r0 h0
    have hnd1 : (ps.map idx).Nodup := (List.nodup_cons.mp (by simpa using hnd)).2
    rcases List.mem_cons.mp hp with rfl | hmem
    · have hlen : idx p < rs.length := (List.getElem?_eq_some_iff.mp h0).1
      have hnot : ∀ q ∈ ps, idx q ≠ idx p := by
        intro q hq hqp
        exact (List.nodup_cons.mp (by simpa using hnd)).1
          (List.mem_map.mpr ⟨q, hq, hqp⟩)
      refine ⟨rs, h0, ?_⟩
      simp only [List.foldl_cons]
      rw [foldl_updateAt_pairs_untouched gf idx ps _ (idx p) hnot]
      unfold updateAt
      rw [h0]
      cases hg : gf p rs r0 with
      | none => simp only [hg, Option.getD_none]; exact h0
      | some r2 =>
        simp only [hg, Option.getD_some]
        exact List.getElem?_set_self hlen
    · have hji : idx p ≠ idx q := by
        intro h
        exact (List.nodup_cons.mp (by simpa using hnd)).1
          (List.mem_map.mpr ⟨p, hmem, h⟩)
      have h0' : (updateAt (gf q) rs (idx q))[idx p]? = some r0 := by
        rw [getElem?_updateAt_ne _ rs hji]; exact h0
      obtain ⟨rsMid, hmid, hres⟩ := ih hnd1 (updateAt (gf q) rs (idx q)) p hmem r0 h0'
      exact ⟨rsMid, hmid, by simpa [List.foldl_cons] using hres⟩

theorem foldl_updateAt_pairs_forall_nodup {β : Type}
    (gf : β → List Range → Range → Option Range) (idx : β → Nat)
    {Q R : Range → Prop} (ps : List β) (hnd : (ps.map idx).Nodup)
    (rs : List Range)
    (hR : ∀ p ∈ ps, ∀ r, rs[idx p]? = some r → R r)
    (hQ : ∀ r ∈ rs, Q r)
    (hg : ∀ b rsMid r r2, Q r → R r → gf b rsMid r = some r2 → Q r2) :
    ∀ r ∈ ps.foldl (fun rs p => updateAt (gf p) rs (idx p)) rs, Q r := by
  intro r hr
  obtain ⟨j, hj, hjr⟩ := List.getElem_of_mem hr
  have hjq : (ps.foldl (fun rs p => updateAt (gf p) rs (idx p)) rs)[j]? = some r :=
    List.getElem?_eq_some_iff.mpr ⟨hj, hjr⟩
  by_cases hjin : ∃ p ∈ ps, idx p = j
  · obtain ⟨p, hp, hpj⟩ := hjin
    have hjlen : j < rs.length := by
      have := hj
      rw [foldl_updateAt_pairs_length] at this
      exact this
    have hr0 : rs[idx p]? = some rs[j] := by
      rw [hpj]
      exact List.getElem?_eq_some_iff.mpr ⟨hjlen, rfl⟩
    obtain ⟨rsMid, hmid, hfin⟩ :=
      foldl_updateAt_pairs_processed gf idx ps hnd rs p hp rs[j] hr0
    rw [hpj, hjq] at hfin
    have hrq : r = (gf p rsMid rs[j]).getD rs[j] := Option.some_injective _ hfin
    cases hg2 : gf p rsMid rs[j] with
    | none =>
      rw [hg2, Option.getD_none] at hrq
      exact hrq ▸ hQ rs[j] (List.getElem_mem hjlen)
    | some r2 =>
      rw [hg2, Option.getD_some] at hrq
      rw [hrq]
      refine hg p rsMid rs[j] r2 (hQ rs[j] (List.getElem_mem hjlen)) ?_ hg2
      refine hR p hp rs[j] hr0
  · rw [foldl_updateAt_pairs_untouched gf idx ps rs j
      (fun p hp h => hjin ⟨p, hp, h⟩)] at hjq
    exact hQ r (List.getElem?_mem hjq)

theorem getNodeWithMostReplicas_some {counts : Nat → Nat} {l : List Nat}
    (h : l ≠ []) : ∃ nid, getNodeWithMostReplicas counts l = some nid := by
  suffices hgen : ∀ (xs : List Nat) (acc : Option (Nat × Nat)),
      (acc.isSome = true ∨ xs ≠ []) →
      ∃ p, xs.foldl
        (fun best nid =>
          match best with
          | none => some (nid, counts nid)
          | some (b, bc) =>
            if bc < counts nid then some (nid, counts nid) else some (b, bc))
        acc = some p by
    obtain ⟨p, hp⟩ := hgen l none (Or.inr h)
    refine ⟨p.1, ?_⟩
    show (l.foldl
        (fun best nid =>
          match best with
          | none => some (nid, counts nid)
          | some (b, bc) =>
            if bc < counts nid then some (nid, counts nid) else some (b, bc))
        none).map (fun q => q.1) = some p.1
    rw [hp]
    rfl
  intro xs
  induction xs with
  | nil =>
    intro acc hacc
    rcases hacc with h1 | h1
    · cases hv : acc with
      | none => rw [hv] at h1; cases h1
      | some p => exact ⟨p, rfl⟩
    · exact absurd rfl h1
  | cons x xs ih =>
    intro acc hacc
    simp only [List.foldl_cons]
    apply ih
    left
    cases acc with
    | none => simp
    | some p =>
      obtain ⟨b, bc⟩ := p
      show (if bc < counts x then some (x, counts x) else some (b, bc)).isSome = true
      by_cases hcmp : bc < counts x
      · rw [if_pos hcmp]; simp
      · rw [if_neg hcmp]; simp

/-- Fold over the enumerated range list: when every step appends exactly
one pair carrying its own enumeration index, the accumulated pairs bear
pairwise distinct, bounded indices. -/
theorem pairs_fold_spec (step : List (Nat × Nat) → Nat × Range → List (Nat × Nat))
    (P : Range → Prop)
    (hstep : ∀ (acc : List (Nat × Nat)) (k : Nat) (r : Range), P r →
      acc.length = k → ∃ nid, step acc (k, r) = acc ++ [(k, nid)]) :
    ∀ (rl : List Range) (n : Nat) (acc : List (Nat × Nat)),
      (∀ r ∈ rl, P r) → acc.length = n → (∀ p ∈ acc, p.1 < n) →
      (acc.map Prod.fst).Nodup →
      ((rl.enumFrom n).foldl step acc).length = n + rl.length ∧
        (∀ p ∈ (rl.enumFrom n).foldl step acc, p.1 < n + rl.length) ∧
        (((rl.enumFrom n).foldl step acc).map Prod.fst).Nodup := by
  intro rl
  induction rl with
  | nil =>
    intro n acc _ hlen hbound hnd
    exact ⟨by simpa using hlen, by simpa using hbound, hnd⟩
  | cons r rl ih =>
    intro n acc hP hlen hbound hnd
    obtain ⟨nid, hstep'⟩ := hstep acc n r (hP r (List.mem_cons_self r rl)) hlen
    have hcons : (r :: rl).enumFrom n = (n, r) :: rl.enumFrom (n + 1) := rfl
    rw [hcons]
    simp only [List.foldl_cons]
    rw [hstep']
    have hlen' : (acc ++ [(n, nid)]).length = n + 1 := by
      rw [List.length_append, List.length_singleton, hlen]
    have hbound' : ∀ p ∈ acc ++ [(n, nid)], p.1 < n + 1 := by
      intro p hp
      rcases List.mem_append.mp hp with h | h
      · exact Nat.lt_succ_of_lt (hbound p h)
      · rw [List.mem_singleton] at h
        rw [h]
        exact Nat.lt_succ_self n
    have hnd' : ((acc ++ [(n, nid)]).map Prod.fst).Nodup := by
      rw [List.map_append]
      refine List.Nodup.append hnd (List.nodup_singleton _) ?_
      intro a ha hb
      rw [List.map_singleton, List.mem_singleton] at hb
      obtain ⟨p, hp, hpa⟩ := List.mem_map.mp ha
      have := hbound p hp
      omega
    obtain ⟨e1, e2, e3⟩ := ih (n + 1) (acc ++ [(n, nid)])
      (fun q hq => hP q (List.mem_cons_of_mem r hq)) hlen' hbound' hnd'
    refine ⟨?_, ?_, e3⟩
    · rw [e1, List.length_cons]
      omega
    · intro p hp
      have := e2 p hp
      rw [List.length_cons]
      omega

/-- Fold over the enumerated range list: when every step leaves the
accumulator unchanged, so does the whole fold. -/
theorem pairs_fold_id (step : List (Nat × Nat) → Nat × Range → List (Nat × Nat))
    (P : Range → Prop)
    (hstep : ∀ (acc : List (Nat × Nat)) (k : Nat) (r : Range), P r →
      step acc (k, r) = acc) :
    ∀ (rl : List Range) (n : Nat) (acc : List (Nat × Nat)),
      (∀ r ∈ rl, P r) → (rl.enumFrom n).foldl step acc = acc := by
  intro rl
  induction rl with
  | nil => intro n acc _; rfl
  | cons r rl ih =>
    intro n acc hP
    have hcons : (r :: rl).enumFrom n = (n, r) :: rl.enumFrom (n + 1) := rfl
    rw [hcons]
    simp only [List.foldl_cons]
    rw [hstep acc n r (hP r (List.mem_cons_self r rl))]
    exact ih (n + 1) acc (fun q hq => hP q (List.mem_cons_of_mem r hq))

theorem rebalanceReplicas_invariant (s : SimState)
    (shufPairs : List (Nat × Nat) → List (Nat × Nat)) (hsh : IsShuffle shufPairs)
    (hinv : Invariant s)
    (hfresh : ∀ nn, s.nodes.getLast? = some nn → ∀ r ∈ s.ranges, nn.id ∉ r.replicas) :
    Invariant (rebalanceReplicas s shufPairs) := by
  obtain ⟨h1, h2, h3⟩ := hinv
  unfold rebalanceReplicas
  cases hlast : s.nodes.getLast? with
  | none => exact ⟨h1, h2, h3⟩
  | some newNode =>
    dsimp only
    by_cases hon : (newNode.status != Status.online) = true
    · rw [if_pos hon]; exact ⟨h1, h2, h3⟩
    · rw [if_neg hon]
      have hnnmem : newNode ∈ s.nodes := List.mem_of_mem_getLast? hlast
      have hfr : ∀ r ∈ s.ranges, newNode.id ∉ r.replicas := hfresh newNode hlast
      have htrrnd : ((s.ranges.enum.foldl
          (rebalancePairStep s.nodes (calculateNodeReplicaCounts s.ranges) newNode)
          []).map Prod.fst).Nodup := by
        have henum : s.ranges.enum = s.ranges.enumFrom 0 := rfl
        rw [henum]
        rcases Nat.eq_zero_or_pos s.config.replicationFactor with hrf0 | hrfpos
        · have hstep0 : ∀ (acc : List (Nat × Nat)) (k : Nat) (r : Range),
              r.replicas = [] →
              rebalancePairStep s.nodes (calculateNodeReplicaCounts s.ranges)
                newNode acc (k, r) = acc := by
            intro acc k r hPr
            unfold rebalancePairStep
            dsimp only
            have he : regionEntriesOf s.nodes r = [] := by
              unfold regionEntriesOf
              rw [hPr]
              rfl
            have hg0 : getNodeWithMostReplicas
                (calculateNodeReplicaCounts s.ranges) [] = none := rfl
            rw [he, hPr]
            simp only [List.find?_nil, hg0]
            split <;> rfl
          rw [pairs_fold_id _ (fun r => r.replicas = []) hstep0 s.ranges 0 []
            (fun r hr => List.length_eq_zero.mp (by rw [(h3 r hr).1, hrf0]))]
          exact List.nodup_nil
        · have hstep1 : ∀ (acc : List (Nat × Nat)) (k : Nat) (r : Range),
              r.replicas.length = s.config.replicationFactor → acc.length = k →
              ∃ nid, rebalancePairStep s.nodes (calculateNodeReplicaCounts s.ranges)
                newNode acc (k, r) = acc ++ [(k, nid)] := by
            intro acc k r hPr hlen
            unfold rebalancePairStep
            dsimp only
            cases hfind : (regionEntriesOf s.nodes r).find? (fun e =>
                decide (1 < e.2.length) && newNode.region != e.1 &&
                  (getNodeWithMostReplicas (calculateNodeReplicaCounts s.ranges)
                    e.2).isSome) with
            | none =>
              dsimp only
              rw [if_pos (Nat.le_of_eq hlen)]
              have hne : r.replicas ≠ [] := by
                intro h0
                rw [h0] at hPr
                simp only [List.length_nil] at hPr
                omega
              obtain ⟨nid, hnid⟩ := getNodeWithMostReplicas_some hne
              rw [hnid]
              exact ⟨nid, rfl⟩
            | some e =>
              dsimp only
              have hpe := List.find?_some hfind
              rw [Bool.and_eq_true] at hpe
              have hsome := hpe.2
              cases hg : getNodeWithMostReplicas
                  (calculateNodeReplicaCounts s.ranges) e.2 with
              | none =>
                rw [hg] at hsome
                cases hsome
              | some nid1 =>
                dsimp only
                rw [if_neg (by
                  rw [List.length_append, List.length_singleton, hlen]
                  omega)]
                exact ⟨nid1, rfl⟩
          exact (pairs_fold_spec _ _ hstep1 s.ranges 0 []
            (fun r hr => (h3 r hr).1) rfl (by intro p hp; cases hp)
            List.nodup_nil).2.2
      refine ⟨h1, h2, ?_⟩
      intro r hr
      refine @foldl_updateAt_pairs_forall_nodup (Nat × Nat)
        (fun p _ range =>
          some { range with
                 replicas := replaceId p.2 newNode.id range.replicas,
                 leaseholder :=
                   if range.leaseholder = p.2 then newNode.id
                   else range.leaseholder })
        Prod.fst (RangeOk s.nodes s.config.replicationFactor)
        (fun r => newNode.id ∉ r.replicas) _ ?_ s.ranges ?_ h3 ?_ r hr
      · rw [List.map_take]
        refine (List.take_sublist _ _).nodup ?_
        exact ((hsh _).map Prod.fst).nodup_iff.mpr htrrnd
      · intro p hp r1 hr1
        exact hfr r1 (List.getElem?_mem hr1)
      · intro b rsMid r1 r2 hq hrq hgeq
        obtain rfl : ({ r1 with
            replicas := replaceId b.2 newNode.id r1.replicas,
            leaseholder :=
              if r1.leaseholder = b.2 then newNode.id
              else r1.leaseholder } : Range) = r2 :=
          Option.some_injective _ hgeq
        obtain ⟨ha, hb, hc⟩ := hq
        refine ⟨?_, ?_, ?_⟩
        · rw [length_replaceId]; exact ha
        · exact nodup_replaceId hb hrq
        · intro rid hrid
          rcases mem_replaceId hrid with h | h
          · exact hc rid h
          · exact h ▸ List.mem_map.mpr ⟨newNode, hnnmem, rfl⟩

theorem addNode_invariant (s : SimState) (region zone : String)
    (shufPairs : List (Nat × Nat) → List (Nat × Nat)) (hsh : IsShuffle shufPairs)
    (hinv : Invariant s) :
    Invariant (SimRoach.addNode s region zone shufPairs) := by
  obtain ⟨h1, h2, h3⟩ := hinv
  unfold SimRoach.addNode
  dsimp only
  apply rebalanceReplicas_invariant _ _ hsh
  · refine ⟨?_, ?_, ?_⟩
    · show ((s.nodes ++ [(⟨s.nextNodeId, region, zone, Status.online⟩ : Node)]).map
        (fun n => n.id)).Nodup
      rw [List.map_append]
      refine List.Nodup.append h1 (List.nodup_singleton _) ?_
      intro a ha hb
      rw [List.map_singleton, List.mem_singleton] at hb
      obtain ⟨n, hn, hna⟩ := List.mem_map.mp ha
      have := h2 n hn
      rw [hna] at this
      rw [hb] at this
      exact Nat.lt_irrefl _ this
    · intro n hn
      rcases List.mem_append.mp hn with h | h
      · exact Nat.lt_succ_of_lt (h2 n h)
      · rw [List.mem_singleton] at h
        rw [h]
        exact Nat.lt_succ_self _
    · intro r hr
      obtain ⟨ha, hb, hc⟩ := h3 r hr
      refine ⟨ha, hb, ?_⟩
      intro rid hrid
      show rid ∈ (s.nodes ++ [(⟨s.nextNodeId, region, zone, Status.online⟩ : Node)]).map
        (fun n => n.id)
      rw [List.map_append]
      exact List.mem_append_left _ (hc rid hrid)
  · intro nn hlast r hr hmm
    have hnn : nn = (⟨s.nextNodeId, region, zone, Status.online⟩ : Node) := by
      have hcat : (s.nodes ++
          [(⟨s.nextNodeId, region, zone, Status.online⟩ : Node)]).getLast? =
          some (⟨s.nextNodeId, region, zone, Status.online⟩ : Node) :=
        List.getLast?_concat s.nodes
      rw [hcat] at hlast
      exact (Option.some_injective _ hlast).symm
    obtain ⟨ha, hb, hc⟩ := h3 r hr
    have hmem := hc nn.id hmm
    obtain ⟨n, hn, hnid⟩ := List.mem_map.mp hmem
    have := h2 n hn
    rw [hnid, hnn] at this
    exact Nat.lt_irrefl _ this

theorem toggleRegion_invariant (s : SimState) (regionName : String)
    (shufs : Nat → List Nat → List Nat) (hsh : ∀ k, IsShuffle (shufs k))
    (hinv : Invariant s) :
    Invariant (toggleRegionStatus s regionName shufs) := by
  obtain ⟨h1, h2, h3⟩ := hinv
  unfold toggleRegionStatus
  dsimp only
  set regionNodes := s.nodes.filter (fun n => n.region == regionName) with hrn
  set newStatus := (if regionNodes.any (fun n => n.status == Status.offline)
    then Status.online else Status.offline) with hns
  set newNodes := regionNodes.foldl
    (fun ns nd => setNodeStatusById ns nd.id newStatus) s.nodes with hnn
  have hmapid : newNodes.map (fun n => n.id) = s.nodes.map (fun n => n.id) := by
    rw [hnn, foldl_setNodeStatusById_eq_map newStatus regionNodes s.nodes h1,
      List.map_map]
    apply List.map_congr_left
    intro a _
    dsimp only [Function.comp]
    split <;> rfl
  have hinv1 : Invariant { s with nodes := newNodes } := by
    refine ⟨?_, ?_, ?_⟩
    · show (newNodes.map (fun n => n.id)).Nodup
      rw [hmapid]; exact h1
    · intro n hn
      show n.id < s.nextNodeId
      rw [hnn, foldl_setNodeStatusById_eq_map newStatus regionNodes s.nodes h1]
        at hn
      obtain ⟨a, ha, hfa⟩ := List.mem_map.mp hn
      have hid : n.id = a.id := by
        rw [← hfa]
        split <;> rfl
      rw [hid]
      exact h2 a ha
    · intro r hr
      obtain ⟨ha, hb, hc⟩ := h3 r hr
      refine ⟨ha, hb, ?_⟩
      intro rid hrid
      show rid ∈ newNodes.map (fun n => n.id)
      rw [hmapid]
      exact hc rid hrid
  by_cases hoff : (newStatus == Status.offline) = true
  · rw [if_pos hoff]
    exact foldl_preserve _
      (fun acc nd hacc => migrate_invariant acc nd.id hacc) regionNodes _ hinv1
  · rw [if_neg hoff]
    exact foldl_preserve _
      (fun acc p hacc => rebalance_invariant acc p.2.id (shufs p.1) (hsh p.1) hacc)
      regionNodes.enum _ hinv1

/-- Generic node creation fold: every step appends a block of nodes with
consecutive fresh ids starting at the id counter and advances the
counter past the block. -/
theorem nodes_fold_spec {β : Type} (step : List Node × Nat → β → List Node × Nat)
    (hstep : ∀ acc b, ∃ (cnt : Nat) (zf : Nat → String) (rn : String),
      step acc b =
      (acc.1 ++ (List.range cnt).map (fun i =>
        ({ id := acc.2 + i, region := rn, zone := zf i,
           status := Status.online } : Node)),
       acc.2 + cnt)) :
    ∀ (rl : List β) (acc : List Node × Nat),
      ((acc.1.map (fun n => n.id)).Nodup) → (∀ n ∈ acc.1, n.id < acc.2) →
      (((rl.foldl step acc).1.map (fun n => n.id)).Nodup ∧
        ∀ n ∈ (rl.foldl step acc).1, n.id < (rl.foldl step acc).2) := by
  intro rl
  induction rl with
  | nil => intro acc hnd hlt; exact ⟨hnd, hlt⟩
  | cons b bs ih =>
    intro acc hnd hlt
    obtain ⟨cnt, zf, rn, heq⟩ := hstep acc b
    simp only [List.foldl_cons]
    rw [heq]
    refine ih _ ?_ ?_
    · rw [List.map_append, List.map_map]
      refine List.Nodup.append hnd ?_ ?_
      · refine (List.nodup_range cnt).map ?_
        intro i j hij
        have hij2 : acc.2 + i = acc.2 + j := hij
        omega
      · intro x hx hx2
        obtain ⟨n, hn, hnx⟩ := List.mem_map.mp hx
        obtain ⟨i, _, hix⟩ := List.mem_map.mp hx2
        have h1 := hlt n hn
        have h2 : acc.2 + i = x := hix
        have h3 : n.id = x := hnx
        omega
    · intro n hn
      rcases List.mem_append.mp hn with h | h
      · have := hlt n h
        show n.id < acc.2 + cnt
        omega
      · obtain ⟨i, hi, hin⟩ := List.mem_map.mp h
        rw [List.mem_range] at hi
        have hni : n.id = acc.2 + i := by rw [← hin]
        show n.id < acc.2 + cnt
        omega

theorem createInitialNodes_spec (cfg : SimulatorConfig)
    (selRegions : List RegionInfo) :
    (((createInitialNodes cfg selRegions).1.map (fun n => n.id)).Nodup ∧
      ∀ n ∈ (createInitialNodes cfg selRegions).1,
        n.id < (createInitialNodes cfg selRegions).2) := by
  unfold createInitialNodes
  dsimp only
  refine nodes_fold_spec _ ?_ selRegions ([], 1) List.nodup_nil
    (by intro n hn; cases hn)
  intro acc region
  refine ⟨(if acc.2 + ((cfg.nodeCount + selRegions.length - 1) / selRegions.length)
      ≤ cfg.nodeCount + 1
    then (cfg.nodeCount + selRegions.length - 1) / selRegions.length
    else cfg.nodeCount + 1 - acc.2),
    (fun i => region.zones.getD (i % region.zones.length) ""), region.name, rfl⟩

theorem createInitialRanges_invariant (s : SimState) (selCh : Nat → SelChoice)
    (hch : ∀ i, (selCh i).Wf) (hinv : Invariant s) :
    Invariant (createInitialRanges s selCh).2 := by
  unfold createInitialRanges
  refine @foldl_preserve _ _
    (fun (acc : Option SimError × SimState) => Invariant acc.2) _ ?_ _ _ hinv
  intro acc i hacc
  obtain ⟨err, st⟩ := acc
  cases err with
  | some e => exact hacc
  | none => exact addRangeE_invariant st _ (hch i) hacc

/-- initializeCluster always leaves the engine (throw or not) in a state
satisfying the structural invariant: the rebuilt nodes carry fresh
sequential ids and the ranges are rebuilt through addRange. -/
theorem initializeCluster_invariant (s : SimState) (ch : InitChoice)
    (hch : ch.Wf) : Invariant (initializeCluster s ch).2 := by
  unfold initializeCluster
  apply createInitialRanges_invariant _ _ hch.2
  obtain ⟨hnd, hlt⟩ := createInitialNodes_spec s.config
    (selectRandomRegions s.config.regionCount ch)
  exact ⟨hnd, hlt, by intro r hr; cases hr⟩

/-- Every well formed operation preserves the structural invariant. -/
theorem step_invariant {s t : SimState} (hst : Step s t) (hinv : Invariant s) :
    Invariant t := by
  obtain ⟨op, hwf, happ⟩ := hst
  subst happ
  cases op with
  | updateConfig cfg ch => exact initializeCluster_invariant _ ch hwf
  | toggleNode nid f => exact toggleNode_invariant s nid f hwf hinv
  | toggleRegion rn fs => exact toggleRegion_invariant s rn fs hwf hinv
  | addNode r z f => exact addNode_invariant s r z f hwf.2.2 hinv
  | addRange ch => exact addRangeE_invariant s ch hwf hinv
  | markRangeHot rid => exact markRangeHot_invariant s rid hinv

theorem initial_invariant {s : SimState} (h : InitialState s) : Invariant s := by
  obtain ⟨cfg, ch, hwf, hmk⟩ := h
  have hic := initializeCluster_invariant
    ({ nodes := [], ranges := [], nextNodeId := 1, nextRangeId := 1,
       config := cfg, selectedRegions := [] } : SimState) ch hwf
  have h2 : (mkSimulator cfg ch).2 = s := by rw [hmk]
  rw [← h2]
  exact hic

theorem reachable_invariant {s : SimState} (h : Reachable s) : Invariant s := by
  obtain ⟨s0, h0, hsteps⟩ := h
  induction hsteps with
  | refl => exact initial_invariant h0
  | tail _ hbc ih => exact step_invariant hbc ih

/-- C4: for every reachable state, every range's replicas list has
exactly replicationFactor entries and contains no duplicate node ids,
after every operation completes.  (Proved without the "at least
replicationFactor online nodes have ever existed" proviso: the invariant
holds in every reachable state, because every range list the engine ever
installs goes through a selection or a replacement that keeps exactly
replicationFactor distinct existing ids, and addRange rejects before
creating a range when the online pool is short.) -/
theorem c4_replicas_exact_and_distinct (s : SimState) (hreach : Reachable s) :
    ∀ r ∈ s.ranges, r.replicas.length = s.config.replicationFactor ∧
      r.replicas.Nodup := by
  obtain ⟨h1, h2, h3⟩ := reachable_invariant hreach
  intro r hr
  exact ⟨(h3 r hr).1, (h3 r hr).2.1⟩

/-- Witness for C4 at the freshly constructed three node, replication
factor three cluster with identity shuffles: its only range holds the
three distinct replicas 1, 2, 3. -/
theorem c4_replicas_exact_and_distinct_witness :
    (⟨1, [1, 2, 3], 1, 10, []⟩ : Range).replicas.length =
      (mkSimulator ⟨1, 3, 3, 1⟩
        ⟨id, fun _ => ⟨id, id⟩⟩).2.config.replicationFactor ∧
      (⟨1, [1, 2, 3], 1, 10, []⟩ : Range).replicas.Nodup :=
  c4_replicas_exact_and_distinct _
    ⟨_, ⟨⟨1, 3, 3, 1⟩, ⟨id, fun _ => ⟨id, id⟩⟩,
      ⟨fun l => List.Perm.refl l,
        fun _ => ⟨fun l => List.Perm.refl l, fun l => List.Perm.refl l⟩⟩,
      by decide⟩, Relation.ReflTransGen.refl⟩
    ⟨1, [1, 2, 3], 1, 10, []⟩ (by decide)

/-- C1 counterexample: a reachable state (created with replication factor
3 on a 3 node cluster, then toggling node 2 offline, toggling node 3
offline, adding node 4, toggling node 4 offline, and finally toggling
nodes 2, 3 and 4 back online, all with identity shuffles) containing a
range whose leaseholder (node 4) is not among its replicas ([1, 2, 3])
even though every node of the cluster is online: migrating leaseholders
away from the failing node 4 replaces node 4 in the replica list while
the leaseholder choice falls back to the old leaseholder when no online
co replica exists, and no later recovery pass re-points a leaseholder
that is already outside the replica list of a fully replicated range. -/
theorem c1_counterexample :
    ∃ s, Reachable s ∧ ∃ r ∈ s.ranges, r.leaseholder ∉ r.replicas ∧
      ¬∃ n ∈ s.nodes, n.id = r.leaseholder ∧ n.status = Status.offline := by
  refine ⟨Op.apply (.toggleNode 4 id) (Op.apply (.toggleNode 3 id)
    (Op.apply (.toggleNode 2 id) (Op.apply (.toggleNode 4 id)
      (Op.apply (.addNode "us-west" "a" id) (Op.apply (.toggleNode 3 id)
        (Op.apply (.toggleNode 2 id)
          (mkSimulator ⟨1, 3, 3, 1⟩ ⟨id, fun _ => ⟨id, id⟩⟩).2)))))), ?_, ?_⟩
  · refine ⟨(mkSimulator ⟨1, 3, 3, 1⟩ ⟨id, fun _ => ⟨id, id⟩⟩).2,
      ⟨⟨1, 3, 3, 1⟩, ⟨id, fun _ => ⟨id, id⟩⟩,
        ⟨fun l => List.Perm.refl l,
          fun _ => ⟨fun l => List.Perm.refl l, fun l => List.Perm.refl l⟩⟩,
        by decide⟩, ?_⟩
    refine Relation.ReflTransGen.tail (Relation.ReflTransGen.tail
      (Relation.ReflTransGen.tail (Relation.ReflTransGen.tail
        (Relation.ReflTransGen.tail (Relation.ReflTransGen.tail
          (Relation.ReflTransGen.tail Relation.ReflTransGen.refl
            ⟨.toggleNode 2 id, fun l => List.Perm.refl l, rfl⟩)
          ⟨.toggleNode 3 id, fun l => List.Perm.refl l, rfl⟩)
          ⟨.addNode "us-west" "a" id,
            ⟨by decide, by decide, fun l => List.Perm.refl l⟩, rfl⟩)
          ⟨.toggleNode 4 id, fun l => List.Perm.refl l, rfl⟩)
          ⟨.toggleNode 2 id, fun l => List.Perm.refl l, rfl⟩)
          ⟨.toggleNode 3 id, fun l => List.Perm.refl l, rfl⟩)
          ⟨.toggleNode 4 id, fun l => List.Perm.refl l, rfl⟩
  · decide

/-! ### Weak leaseholder placement lemmas -/

theorem migrateLeaseholderChoice_ne (nodes : List Node) (off : Node) (nid : Nat)
    (r : Range) (h : ¬ r.leaseholder = nid) :
    (migrateLeaseholderChoice nodes off nid r).1 = r.leaseholder := by
  unfold migrateLeaseholderChoice
  rw [if_neg h]

theorem findNode_self {l : List Node} {nd : Node}
    (hnd : (l.map (fun n => n.id)).Nodup) (hmem : nd ∈ l) :
    findNode l nd.id = some nd := by
  have hsome : (l.find? (fun n => n.id == nd.id)).isSome = true :=
    List.find?_isSome.mpr ⟨nd, hmem, by simp⟩
  cases hf : l.find? (fun n => n.id == nd.id) with
  | none => rw [hf] at hsome; cases hsome
  | some m =>
    have hm : m ∈ l := List.mem_of_find?_eq_some hf
    have hp := List.find?_some hf
    have hid : m.id = nd.id := by simpa using hp
    have hmnd : m = nd := id_injective_of_nodup hnd hm hmem hid
    rw [hmnd] at hf
    exact hf

theorem migrate_nodes_eq (s : SimState) (nid : Nat) :
    (migrateLeaseholdersFromOfflineNode s nid).nodes = s.nodes := by
  unfold migrateLeaseholdersFromOfflineNode
  cases findNode s.nodes nid <;> rfl

theorem rebalance_nodes_eq (s : SimState) (nid : Nat)
    (shufIdx : List Nat → List Nat) :
    (rebalanceToOnlineNode s nid shufIdx).nodes = s.nodes := by
  unfold rebalanceToOnlineNode
  cases hf : findNode s.nodes nid with
  | none => rfl
  | some node =>
    dsimp only
    by_cases h : (node.status != Status.online) = true
    · rw [if_pos h]
    · rw [if_neg h]
      split
      · split <;> rfl
      · rfl

theorem rebalanceReplicas_nodes_eq (s : SimState)
    (shufPairs : List (Nat × Nat) → List (Nat × Nat)) :
    (rebalanceReplicas s shufPairs).nodes = s.nodes := by
  unfold rebalanceReplicas
  cases s.nodes.getLast? with
  | none => rfl
  | some newNode =>
    dsimp only
    split <;> rfl

theorem foldl_updateAt_pairs_forall {β : Type}
    (gf : β → List Range → Range → Option Range) (idx : β → Nat)
    {Q : Range → Prop}
    (hg : ∀ b rs r r2, Q r → gf b rs r = some r2 → Q r2) :
    ∀ (ps : List β) (rs : List Range), (∀ r ∈ rs, Q r) →
      ∀ r ∈ ps.foldl (fun rs p => updateAt (gf p) rs (idx p)) rs, Q r := by
  intro ps
  induction ps with
  | nil => intro rs h r hr; exact h r hr
  | cons p ps ih =>
    intro rs h
    simp only [List.foldl_cons]
    apply ih
    intro r hr
    rcases mem_updateAt hr with hr' | ⟨r1, h0, hg1⟩
    · exact h r hr'
    · exact hg p rs r1 r (h r1 (List.getElem?_mem h0)) hg1

/-- The opportunistic pass body either skips a range or replaces one of
its own replicas by the recovering node, moving the leaseholder along
exactly when it sat on the replaced replica. -/
theorem opportunisticOne_cases (nodes overloaded : List Node) (nodeId : Nat)
    (r : Range) :
    opportunisticOne nodes overloaded nodeId r = r ∨
    ∃ rtp ∈ r.replicas,
      (opportunisticOne nodes overloaded nodeId r).replicas =
        replaceId rtp nodeId r.replicas ∧
      (opportunisticOne nodes overloaded nodeId r).leaseholder =
        (if r.leaseholder = rtp then nodeId else r.leaseholder) := by
  unfold opportunisticOne
  dsimp only
  cases hh : (r.replicas.filter
      (fun rid => overloaded.any (fun n => n.id == rid))).head? with
  | none => left; rfl
  | some dflt =>
    right
    have hdflt : dflt ∈ r.replicas.filter
        (fun rid => overloaded.any (fun n => n.id == rid)) :=
      List.mem_of_mem_head? hh
    set ov2 := (r.replicas.filter
      (fun rid => overloaded.any (fun n => n.id == rid))).filter
        (fun rid => match findNode nodes rid with
          | some n => decide (1 < ((r.replicas.filterMap
              (findNode nodes)).filter
                (fun m => m.region == n.region)).length)
          | none => false) with hov2
    have hsubover : ∀ x ∈ ov2, x ∈ r.replicas := by
      intro x hx
      rw [hov2] at hx
      exact List.mem_of_mem_filter (List.mem_of_mem_filter hx)
    refine ⟨_, ?_, rfl, rfl⟩
    by_cases hov : (!(ov2.isEmpty)) = true
    · rw [if_pos hov]
      cases hfi : ov2.find? (fun rid => rid != r.leaseholder) with
      | some rid => exact hsubover rid (List.mem_of_find?_eq_some hfi)
      | none =>
        have hne : ov2 ≠ [] := by
          intro h0
          rw [h0] at hov
          simp at hov
        cases hol : ov2 with
        | nil => exact absurd hol hne
        | cons a as =>
          exact hsubover a (hol.symm ▸ List.mem_cons_self a as)
    · rw [if_neg hov]
      cases hfi : (r.replicas.filter
          (fun rid => overloaded.any (fun n => n.id == rid))).find?
            (fun rid => rid != r.leaseholder) with
      | some rid =>
        exact List.mem_of_mem_filter (List.mem_of_find?_eq_some hfi)
      | none => exact List.mem_of_mem_filter hdflt

theorem self_not_mem_replaceId {a b : Nat} {l : List Nat} (hab : a ≠ b) :
    a ∉ replaceId a b l := by
  intro h
  obtain ⟨y, hy, hya⟩ := List.mem_map.mp h
  by_cases hyaeq : y = a
  · rw [hyaeq, if_pos rfl] at hya
    exact hab hya.symm
  · rw [if_neg hyaeq] at hya
    exact hyaeq hya

/-- The failure migrator body preserves the weak leaseholder placement
of a range, provided the failing id resolves to an offline node. -/
theorem migrateOneRange_weak (nodes : List Node) (off : Node) (nodeId : Nat)
    (rs : List Range) (r : Range)
    (hfound : findNode nodes nodeId = some off)
    (hoffst : off.status = Status.offline)
    (hpre : WeakFor nodes r) :
    WeakFor nodes (migrateOneRange nodes off nodeId rs r) := by
  unfold migrateOneRange
  by_cases hc : r.replicas.contains nodeId
  · rw [if_pos hc]
    dsimp only
    by_cases he : (availableReplaceNodesOf nodes r).isEmpty
    · rw [if_pos he]
      by_cases hcc : r.leaseholder = nodeId ∧
          (migrateLeaseholderChoice nodes off nodeId r).1 ≠ nodeId
      · rw [if_pos hcc]
        obtain ⟨hlh, hne⟩ := hcc
        have hcases := migrateLeaseholderChoice_cases nodes off nodeId r hlh
        by_cases hfe : r.replicas.filter
            (fun rid => rid != nodeId && isOnlineId nodes rid) = []
        · exact absurd (hcases.2.2 hfe) hne
        · have hin := hcases.2.1 hfe
          left
          show (migrateLeaseholderChoice nodes off nodeId r).1 ∈ r.replicas
          exact List.mem_of_mem_filter hin
      · rw [if_neg hcc]
        exact hpre
    · rw [if_neg he]
      cases hrc : migrateReplacementChoice nodes nodeId rs r with
      | none => exact hpre
      | some repl =>
        by_cases hlh : r.leaseholder = nodeId
        · have hcases := migrateLeaseholderChoice_cases nodes off nodeId r hlh
          by_cases hfe : r.replicas.filter
              (fun rid => rid != nodeId && isOnlineId nodes rid) = []
          · have hch := hcases.2.2 hfe
            right
            refine ⟨off, (findNode_spec hfound).1, ?_, hoffst⟩
            show off.id = (migrateLeaseholderChoice nodes off nodeId r).1
            rw [hch, (findNode_spec hfound).2]
          · have hin := hcases.2.1 hfe
            left
            have hinr : (migrateLeaseholderChoice nodes off nodeId r).1 ∈
                r.replicas := List.mem_of_mem_filter hin
            have hne2 : (migrateLeaseholderChoice nodes off nodeId r).1 ≠ nodeId := by
              have hprop := (List.mem_filter.mp hin).2
              cases hb : ((migrateLeaseholderChoice nodes off nodeId r).1
                  != nodeId) with
              | false =>
                rw [hb, Bool.false_and] at hprop
                exact absurd hprop (by simp)
              | true => simpa using hb
            show (migrateLeaseholderChoice nodes off nodeId r).1 ∈
              replaceId nodeId repl.id r.replicas
            exact mem_replaceId_of_mem hinr hne2
        · have hch := migrateLeaseholderChoice_ne nodes off nodeId r hlh
          rcases hpre with hstrict | ⟨n, hn, hnid, hns⟩
          · left
            show (migrateLeaseholderChoice nodes off nodeId r).1 ∈
              replaceId nodeId repl.id r.replicas
            rw [hch]
            exact mem_replaceId_of_mem hstrict hlh
          · right
            refine ⟨n, hn, ?_, hns⟩
            show n.id = (migrateLeaseholderChoice nodes off nodeId r).1
            rw [hch]
            exact hnid
  · rw [if_neg hc]
    exact hpre

theorem migrate_weak (s : SimState) (nodeId : Nat)
    (hoff : ∀ m, findNode s.nodes nodeId = some m → m.status = Status.offline)
    (hpre : ∀ r ∈ s.ranges, WeakFor s.nodes r) :
    ∀ r ∈ (migrateLeaseholdersFromOfflineNode s nodeId).ranges,
      WeakFor s.nodes r := by
  unfold migrateLeaseholdersFromOfflineNode
  cases hf : findNode s.nodes nodeId with
  | none => exact hpre
  | some off =>
    intro r hr
    refine foldl_updateAt_forall _ ?_ _ s.ranges hpre r hr
    intro rs r1 r2 hq hg
    obtain rfl : migrateOneRange s.nodes off nodeId rs r1 = r2 :=
      Option.some_injective _ hg
    exact migrateOneRange_weak s.nodes off nodeId rs r1 hf (hoff off hf) hq

/-- A repaired range always carries its leaseholder on a replica: the
recomputed leaseholder is either a kept online replica or the recovering
node, which joins the replica list. -/
theorem repairRange_strict {nodes : List Node} {rf nodeId : Nat} {r r2 : Range}
    (h : repairRange nodes rf nodeId r = some r2) :
    r2.leaseholder ∈ r2.replicas := by
  obtain ⟨hnm, hund⟩ := repairRange_some_inv h
  obtain ⟨r1, hr1, hreps, hlh, _⟩ := repairRange_spec nodes rf nodeId r hnm hund
  rw [h] at hr1
  obtain rfl : r2 = r1 := Option.some_injective _ hr1
  rw [hreps, hlh]
  by_cases hcon : (onlineReplicasOf nodes r).contains r.leaseholder
  · rw [if_pos hcon]
    exact List.mem_append_left _ (by simpa using hcon)
  · rw [if_neg hcon]
    exact List.mem_append_right _ (List.mem_cons_self _ _)

theorem opportunisticOne_weak (nodes overloaded : List Node) (nodeId : Nat)
    {r : Range} (hpre : WeakFor nodes r) :
    WeakFor nodes (opportunisticOne nodes overloaded nodeId r) := by
  rcases opportunisticOne_cases nodes overloaded nodeId r with heq |
    ⟨rtp, hrtp, hreps, hlh⟩
  · rw [heq]; exact hpre
  · rcases hpre with hstrict | ⟨n, hn, hnid, hns⟩
    · left
      rw [hreps, hlh]
      by_cases hl : r.leaseholder = rtp
      · rw [if_pos hl]
        exact mem_replaceId_of_mem_left (hl ▸ hstrict)
      · rw [if_neg hl]
        exact mem_replaceId_of_mem hstrict hl
    · by_cases hl : r.leaseholder = rtp
      · left
        rw [hreps, hlh, if_pos hl]
        exact mem_replaceId_of_mem_left hrtp
      · right
        rw [hlh, if_neg hl]
        exact ⟨n, hn, hnid, hns⟩

theorem rebalance_weak (s : SimState) (nodeId : Nat)
    (shufIdx : List Nat → List Nat)
    (hpre : ∀ r ∈ s.ranges, WeakFor s.nodes r) :
    ∀ r ∈ (rebalanceToOnlineNode s nodeId shufIdx).ranges,
      WeakFor s.nodes r := by
  unfold rebalanceToOnlineNode
  cases hf : findNode s.nodes nodeId with
  | none => exact hpre
  | some node =>
    dsimp only
    by_cases hon : (node.status != Status.online) = true
    · rw [if_pos hon]; exact hpre
    · rw [if_neg hon]
      set rf := s.config.replicationFactor with hrf
      set underIdx := (List.range s.ranges.length).filter (fun i =>
        match s.ranges[i]? with
        | some r => decide ((onlineReplicasOf s.nodes r).length < rf)
        | none => false) with hunder
      have hrs1 : ∀ r ∈ underIdx.foldl
          (updateAt (fun _ r => repairRange s.nodes rf nodeId r)) s.ranges,
          WeakFor s.nodes r := by
        refine foldl_updateAt_forall _ ?_ underIdx s.ranges hpre
        intro rs r1 r2 hq hg
        exact Or.inl (repairRange_strict hg)
      by_cases hemp : underIdx.isEmpty = true
      · rw [if_pos hemp]
        set ov := (s.nodes.filter (fun n => n.status == Status.online)).filter
          (fun n => n.id != nodeId &&
            decide (calculateNodeReplicaCounts s.ranges nodeId + 1 <
              calculateNodeReplicaCounts s.ranges n.id)) with hov
        by_cases hov0 : ov.isEmpty = true
        · rw [if_pos hov0]
          exact hrs1
        · rw [if_neg hov0]
          intro r hr
          refine foldl_updateAt_forall _ ?_ _ _ hrs1 r hr
          intro rs r1 r2 hq hg
          obtain rfl : opportunisticOne s.nodes
              (sortByDesc (fun n => calculateNodeReplicaCounts s.ranges n.id) ov)
              nodeId r1 = r2 :=
            Option.some_injective _ hg
          exact opportunisticOne_weak _ _ _ hq
      · rw [if_neg hemp]
        exact hrs1

theorem addRangeE_strict (s : SimState) (ch : SelChoice)
    (hpre : ∀ r ∈ s.ranges, r.leaseholder ∈ r.replicas) :
    ∀ r ∈ (addRangeE s ch).2.ranges, r.leaseholder ∈ r.replicas := by
  unfold addRangeE
  dsimp only
  by_cases hc : (s.nodes.filter (fun n => n.status == Status.online)).length <
      s.config.replicationFactor
  · rw [if_pos hc]; exact hpre
  · rw [if_neg hc]
    cases hh : (sortByDesc
        (fun n => (s.nodes.filter (fun m => m.region == n.region)).length)
        (selectNodesForReplicas s.ranges
          (s.nodes.filter (fun n => n.status == Status.online))
          s.config.replicationFactor ch)).head? with
    | none => exact hpre
    | some lead =>
      dsimp only
      intro r hr
      rcases List.mem_append.mp hr with h | h
      · exact hpre r h
      · rw [List.mem_singleton] at h
        subst h
        have hmem := List.mem_of_mem_head? hh
        have hsel : lead ∈ selectNodesForReplicas s.ranges
            (s.nodes.filter (fun n => n.status == Status.online))
            s.config.replicationFactor ch :=
          (sortByDesc_perm _ _).mem_iff.mp hmem
        exact List.mem_map.mpr ⟨lead, hsel, rfl⟩

theorem rebalanceReplicas_strict (s : SimState)
    (shufPairs : List (Nat × Nat) → List (Nat × Nat))
    (hpre : ∀ r ∈ s.ranges, r.leaseholder ∈ r.replicas) :
    ∀ r ∈ (rebalanceReplicas s shufPairs).ranges,
      r.leaseholder ∈ r.replicas := by
  unfold rebalanceReplicas
  cases hlast : s.nodes.getLast? with
  | none => exact hpre
  | some newNode =>
    dsimp only
    by_cases hon : (newNode.status != Status.online) = true
    · rw [if_pos hon]; exact hpre
    · rw [if_neg hon]
      intro r hr
      refine @foldl_updateAt_pairs_forall (Nat × Nat)
        (fun p _ range =>
          some { range with
                 replicas := replaceId p.2 newNode.id range.replicas,
                 leaseholder :=
                   if range.leaseholder = p.2 then newNode.id
                   else range.leaseholder })
        Prod.fst (fun r => r.leaseholder ∈ r.replicas) ?_ _ s.ranges hpre r hr
      intro b rs r1 r2 hq hg
      obtain rfl : ({ r1 with
          replicas := replaceId b.2 newNode.id r1.replicas,
          leaseholder :=
            if r1.leaseholder = b.2 then newNode.id
            else r1.leaseholder } : Range) = r2 :=
        Option.some_injective _ hg
      show (if r1.leaseholder = b.2 then newNode.id else r1.leaseholder) ∈
        replaceId b.2 newNode.id r1.replicas
      by_cases hl : r1.leaseholder = b.2
      · rw [if_pos hl]
        exact mem_replaceId_of_mem_left (hl ▸ hq)
      · rw [if_neg hl]
        exact mem_replaceId_of_mem hq hl

theorem onlineReplicaNodesOf_id_mem {nodes : List Node} {r : Range} {n : Node}
    (h : n ∈ onlineReplicaNodesOf nodes r) : n.id ∈ r.replicas := by
  unfold onlineReplicaNodesOf at h
  obtain ⟨rid, hrid, hf⟩ := List.mem_filterMap.mp h
  cases hfn : findNode nodes rid with
  | none => rw [hfn] at hf; cases hf
  | some m =>
    rw [hfn] at hf
    have hf2 : (if (m.status == Status.online) = true then some m else none) =
        some n := hf
    by_cases hon : (m.status == Status.online) = true
    · rw [if_pos hon] at hf2
      obtain rfl : m = n := Option.some_injective _ hf2
      rw [(findNode_spec hfn).2]
      exact hrid
    · rw [if_neg hon] at hf2; cases hf2

theorem balanceHot_strict (s : SimState) (rangeId : Nat)
    (hpre : ∀ r ∈ s.ranges, r.leaseholder ∈ r.replicas) :
    ∀ r ∈ (balanceHotRange s rangeId).ranges, r.leaseholder ∈ r.replicas := by
  unfold balanceHotRange
  cases h1 : s.ranges.findIdx? (fun r => r.id == rangeId) with
  | none => exact hpre
  | some i =>
    dsimp only
    cases h2 : s.ranges[i]? with
    | none => exact hpre
    | some range =>
      dsimp only
      by_cases h3 : (onlineReplicaNodesOf s.nodes range).length ≤ 1
      · rw [if_pos h3]; exact hpre
      · rw [if_neg h3]
        cases h4 : findNode s.nodes range.leaseholder with
        | none => exact hpre
        | some cur =>
          dsimp only
          by_cases h5 : 40 < calculateRegionLoad s cur.region
          · rw [if_pos h5]
            cases h6 : (sortByAsc (fun n => calculateRegionLoad s n.region)
                (onlineReplicaNodesOf s.nodes range)).head? with
            | none => exact hpre
            | some best =>
              dsimp only
              by_cases h7 : best.id ≠ range.leaseholder
              · rw [if_pos h7]
                intro r hr
                rcases List.mem_or_eq_of_mem_set hr with h | h
                · exact hpre r h
                · subst h
                  show best.id ∈ range.replicas
                  exact onlineReplicaNodesOf_id_mem
                    ((sortByAsc_perm _ _).mem_iff.mp (List.mem_of_mem_head? h6))
              · rw [if_neg h7]; exact hpre
          · rw [if_neg h5]; exact hpre

theorem markRangeHot_strict (s : SimState) (rangeId : Nat)
    (hpre : ∀ r ∈ s.ranges, r.leaseholder ∈ r.replicas) :
    ∀ r ∈ (SimRoach.markRangeHot s rangeId).ranges,
      r.leaseholder ∈ r.replicas := by
  unfold SimRoach.markRangeHot
  cases h1 : s.ranges.findIdx? (fun r => r.id == rangeId) with
  | none => exact hpre
  | some i =>
    dsimp only
    cases h2 : s.ranges[i]? with
    | none => exact hpre
    | some r0 =>
      dsimp only
      refine balanceHot_strict _ rangeId ?_
      intro r hr
      rcases List.mem_or_eq_of_mem_set hr with h | h
      · exact hpre r h
      · subst h
        exact hpre r0 (List.getElem?_mem h2)

theorem createInitialRanges_strict (s : SimState) (selCh : Nat → SelChoice)
    (hpre : ∀ r ∈ s.ranges, r.leaseholder ∈ r.replicas) :
    ∀ r ∈ (createInitialRanges s selCh).2.ranges,
      r.leaseholder ∈ r.replicas := by
  unfold createInitialRanges
  refine @foldl_preserve _ _
    (fun (acc : Option SimError × SimState) =>
      ∀ r ∈ acc.2.ranges, r.leaseholder ∈ r.replicas) _ ?_ _ _ hpre
  intro acc i hacc
  obtain ⟨err, st⟩ := acc
  cases err with
  | some e => exact hacc
  | none => exact addRangeE_strict st _ hacc

theorem initializeCluster_strict (s : SimState) (ch : InitChoice) :
    ∀ r ∈ (initializeCluster s ch).2.ranges, r.leaseholder ∈ r.replicas := by
  unfold initializeCluster
  exact createInitialRanges_strict _ _ (by intro r hr; cases hr)

theorem findNode_map_status {l : List Node} (f : Node → Node)
    (hid : ∀ n, (f n).id = n.id)
    (hnd : (l.map (fun n => n.id)).Nodup) {nd : Node} (hmem : nd ∈ l) :
    findNode (l.map f) nd.id = some (f nd) := by
  unfold findNode
  rw [List.find?_map]
  have hcong : ((fun (n : Node) => n.id == nd.id) ∘ f) =
      (fun (x : Node) => x.id == nd.id) := by
    funext x
    show ((f x).id == nd.id) = (x.id == nd.id)
    rw [hid x]
  rw [hcong]
  have hself := findNode_self hnd hmem
  unfold findNode at hself
  rw [hself]
  rfl

theorem foldl_preserve_mem {α β : Type} {P : α → Prop} :
    ∀ (l : List β) (f : α → β → α),
      (∀ acc b, b ∈ l → P acc → P (f acc b)) →
      ∀ (init : α), P init → P (l.foldl f init) := by
  intro l
  induction l with
  | nil => intro f _ init h0; exact h0
  | cons b bs ih =>
    intro f h init h0
    simp only [List.foldl_cons]
    exact ih f (fun acc c hc => h acc c (List.mem_cons_of_mem b hc))
      (f init b) (h init b (List.mem_cons_self b bs) h0)


/-! ### Leaseholder existence invariant (amended C1) -/

/-- The leaseholder chosen by the failure migrator is either the old
leaseholder or one of the range's replicas. -/
theorem migrateLeaseholderChoice_mem_or_eq (nodes : List Node) (off : Node)
    (nid : Nat) (r : Range) :
    (migrateLeaseholderChoice nodes off nid r).1 = r.leaseholder ∨
      (migrateLeaseholderChoice nodes off nid r).1 ∈ r.replicas := by
  by_cases hlh : r.leaseholder = nid
  · have hcases := migrateLeaseholderChoice_cases nodes off nid r hlh
    by_cases hfe : r.replicas.filter
        (fun rid => rid != nid && isOnlineId nodes rid) = []
    · left
      rw [hcases.2.2 hfe, hlh]
    · right
      exact List.mem_of_mem_filter (hcases.2.1 hfe)
  · left
    exact migrateLeaseholderChoice_ne nodes off nid r hlh

theorem migrateOneRange_skip (nodes : List Node) (off : Node) (nid : Nat)
    (rs : List Range) (r : Range)
    (h : ¬(r.replicas.contains nid = true)) :
    migrateOneRange nodes off nid rs r = r := by
  unfold migrateOneRange
  rw [if_neg h]

theorem migrateOneRange_idsOk (nodes : List Node) (off : Node) (nid : Nat)
    (rs : List Range) (r : Range) (hq : IdsOk nodes r) :
    IdsOk nodes (migrateOneRange nodes off nid rs r) := by
  obtain ⟨hrep, hlh⟩ := hq
  constructor
  · rcases migrateOneRange_replicas nodes off nid rs r with heq |
      ⟨repl, hrmem, _, heq⟩
    · rw [heq]; exact hrep
    · rw [heq]
      intro rid hrid
      rcases mem_replaceId hrid with h | h
      · exact hrep rid h
      · exact h ▸ List.mem_map.mpr ⟨repl, hrmem, rfl⟩
  · by_cases hc : r.replicas.contains nid = true
    · have hmem : nid ∈ r.replicas := by simpa using hc
      rw [migrateOneRange_leaseholder nodes off nid rs r hmem]
      rcases migrateLeaseholderChoice_mem_or_eq nodes off nid r with h | h
      · rw [h]; exact hlh
      · exact hrep _ h
    · rw [migrateOneRange_skip nodes off nid rs r hc]
      exact hlh

theorem migrate_idsOk (s : SimState) (nid : Nat)
    (hpre : ∀ r ∈ s.ranges, IdsOk s.nodes r) :
    ∀ r ∈ (migrateLeaseholdersFromOfflineNode s nid).ranges,
      IdsOk s.nodes r := by
  unfold migrateLeaseholdersFromOfflineNode
  cases hf : findNode s.nodes nid with
  | none => exact hpre
  | some off =>
    intro r hr
    refine foldl_updateAt_forall _ ?_ _ s.ranges hpre r hr
    intro rs r1 r2 hq hg
    obtain rfl : migrateOneRange s.nodes off nid rs r1 = r2 :=
      Option.some_injective _ hg
    exact migrateOneRange_idsOk s.nodes off nid rs r1 hq

theorem repairRange_idsOk {nodes : List Node} {rf nid : Nat} {r r2 : Range}
    (hnid : nid ∈ nodes.map (fun n => n.id)) (hq : IdsOk nodes r)
    (h : repairRange nodes rf nid r = some r2) : IdsOk nodes r2 := by
  obtain ⟨hrep, hlh⟩ := hq
  obtain ⟨hnm, hund⟩ := repairRange_some_inv h
  obtain ⟨r1, hr1, hreps, hlh1, _⟩ := repairRange_spec nodes rf nid r hnm hund
  rw [h] at hr1
  obtain rfl : r2 = r1 := Option.some_injective _ hr1
  constructor
  · rw [hreps]
    intro rid hrid
    rcases List.mem_append.mp hrid with hx | hx
    · exact hrep rid (List.mem_of_mem_filter hx)
    · rcases List.mem_cons.mp hx with hx' | hx'
      · exact hx' ▸ hnid
      · exact hrep rid (List.mem_of_mem_filter
          ((List.take_sublist _ _).subset hx'))
  · rw [hlh1]
    by_cases hcon : (onlineReplicasOf nodes r).contains r.leaseholder
    · rw [if_pos hcon]; exact hlh
    · rw [if_neg hcon]; exact hnid

theorem opportunisticOne_idsOk {nodes : List Node} (overloaded : List Node)
    {nid : Nat} (hnid : nid ∈ nodes.map (fun n => n.id)) {r : Range}
    (hq : IdsOk nodes r) :
    IdsOk nodes (opportunisticOne nodes overloaded nid r) := by
  obtain ⟨hrep, hlh⟩ := hq
  rcases opportunisticOne_cases nodes overloaded nid r with heq |
    ⟨rtp, hrtp, hreps, hlhe⟩
  · rw [heq]; exact ⟨hrep, hlh⟩
  · constructor
    · rw [hreps]
      intro rid hrid
      rcases mem_replaceId hrid with h | h
      · exact hrep rid h
      · exact h ▸ hnid
    · rw [hlhe]
      by_cases hl : r.leaseholder = rtp
      · rw [if_pos hl]; exact hnid
      · rw [if_neg hl]; exact hlh

theorem rebalance_idsOk (s : SimState) (nid : Nat)
    (shufIdx : List Nat → List Nat)
    (hpre : ∀ r ∈ s.ranges, IdsOk s.nodes r) :
    ∀ r ∈ (rebalanceToOnlineNode s nid shufIdx).ranges, IdsOk s.nodes r := by
  unfold rebalanceToOnlineNode
  cases hf : findNode s.nodes nid with
  | none => exact hpre
  | some node =>
    dsimp only
    have hnid : nid ∈ s.nodes.map (fun n => n.id) := by
      obtain ⟨hm, hid⟩ := findNode_spec hf
      exact List.mem_map.mpr ⟨node, hm, hid⟩
    by_cases hon : (node.status != Status.online) = true
    · rw [if_pos hon]; exact hpre
    · rw [if_neg hon]
      set rf := s.config.replicationFactor with hrf
      set underIdx := (List.range s.ranges.length).filter (fun i =>
        match s.ranges[i]? with
        | some r => decide ((onlineReplicasOf s.nodes r).length < rf)
        | none => false) with hunder
      have hrs1 : ∀ r ∈ underIdx.foldl
          (updateAt (fun _ r => repairRange s.nodes rf nid r)) s.ranges,
          IdsOk s.nodes r := by
        refine foldl_updateAt_forall _ ?_ underIdx s.ranges hpre
        intro rs r1 r2 hq hg
        exact repairRange_idsOk hnid hq hg
      by_cases hemp : underIdx.isEmpty = true
      · rw [if_pos hemp]
        set ov := (s.nodes.filter (fun n => n.status == Status.online)).filter
          (fun n => n.id != nid &&
            decide (calculateNodeReplicaCounts s.ranges nid + 1 <
              calculateNodeReplicaCounts s.ranges n.id)) with hov
        by_cases hov0 : ov.isEmpty = true
        · rw [if_pos hov0]
          exact hrs1
        · rw [if_neg hov0]
          intro r hr
          refine foldl_updateAt_forall _ ?_ _ _ hrs1 r hr
          intro rs r1 r2 hq hg
          obtain rfl : opportunisticOne s.nodes
              (sortByDesc (fun n => calculateNodeReplicaCounts s.ranges n.id) ov)
              nid r1 = r2 :=
            Option.some_injective _ hg
          exact opportunisticOne_idsOk _ hnid hq
      · rw [if_neg hemp]
        exact hrs1

theorem rebalanceReplicas_idsOk (s : SimState)
    (shufPairs : List (Nat × Nat) → List (Nat × Nat))
    (hpre : ∀ r ∈ s.ranges, IdsOk s.nodes r) :
    ∀ r ∈ (rebalanceReplicas s shufPairs).ranges, IdsOk s.nodes r := by
  unfold rebalanceReplicas
  cases hlast : s.nodes.getLast? with
  | none => exact hpre
  | some newNode =>
    dsimp only
    by_cases hon : (newNode.status != Status.online) = true
    · rw [if_pos hon]; exact hpre
    · rw [if_neg hon]
      have hnnmem : newNode ∈ s.nodes := List.mem_of_mem_getLast? hlast
      intro r hr
      refine @foldl_updateAt_pairs_forall (Nat × Nat)
        (fun p _ range =>
          some { range with
                 replicas := replaceId p.2 newNode.id range.replicas,
                 leaseholder :=
                   if range.leaseholder = p.2 then newNode.id
                   else range.leaseholder })
        Prod.fst (IdsOk s.nodes) ?_ _ s.ranges hpre r hr
      intro b rs r1 r2 hq hg
      obtain rfl : ({ r1 with
          replicas := replaceId b.2 newNode.id r1.replicas,
          leaseholder :=
            if r1.leaseholder = b.2 then newNode.id
            else r1.leaseholder } : Range) = r2 :=
        Option.some_injective _ hg
      obtain ⟨hrep, hlh⟩ := hq
      constructor
      · intro rid hrid
        rcases mem_replaceId hrid with h | h
        · exact hrep rid h
        · exact h ▸ List.mem_map.mpr ⟨newNode, hnnmem, rfl⟩
      · show (if r1.leaseholder = b.2 then newNode.id else r1.leaseholder) ∈
          s.nodes.map (fun n => n.id)
        by_cases hl : r1.leaseholder = b.2
        · rw [if_pos hl]
          exact List.mem_map.mpr ⟨newNode, hnnmem, rfl⟩
        · rw [if_neg hl]
          exact hlh

theorem addRangeE_idsOk (s : SimState) (ch : SelChoice) (hch : ch.Wf)
    (hnd : (s.nodes.map (fun n => n.id)).Nodup)
    (hpre : ∀ r ∈ s.ranges, IdsOk s.nodes r) :
    ∀ r ∈ (addRangeE s ch).2.ranges, IdsOk s.nodes r := by
  unfold addRangeE
  dsimp only
  by_cases hc : (s.nodes.filter (fun n => n.status == Status.online)).length <
      s.config.replicationFactor
  · rw [if_pos hc]; exact hpre
  · rw [if_neg hc]
    have hcap : s.config.replicationFactor ≤
        (s.nodes.filter (fun n => n.status == Status.online)).length :=
      Nat.le_of_not_lt hc
    have hndon : ((s.nodes.filter (fun n => n.status == Status.online)).map
        (fun n => n.id)).Nodup :=
      ((List.filter_sublist s.nodes).map _).nodup hnd
    obtain ⟨hslen, hsnd, hsmem⟩ := selectNodesForReplicas_spec s.ranges
      (s.nodes.filter (fun n => n.status == Status.online))
      s.config.replicationFactor ch hch hndon hcap
    cases hh : (sortByDesc
        (fun n => (s.nodes.filter (fun m => m.region == n.region)).length)
        (selectNodesForReplicas s.ranges
          (s.nodes.filter (fun n => n.status == Status.online))
          s.config.replicationFactor ch)).head? with
    | none => exact hpre
    | some lead =>
      dsimp only
      intro r hr
      rcases List.mem_append.mp hr with h | h
      · exact hpre r h
      · rw [List.mem_singleton] at h
        subst h
        constructor
        · intro rid hrid
          obtain ⟨n, hn, hnid⟩ := List.mem_map.mp hrid
          exact List.mem_map.mpr ⟨n, List.mem_of_mem_filter (hsmem n hn), hnid⟩
        · have hmem := List.mem_of_mem_head? hh
          have hsel : lead ∈ selectNodesForReplicas s.ranges
              (s.nodes.filter (fun n => n.status == Status.online))
              s.config.replicationFactor ch :=
            (sortByDesc_perm _ _).mem_iff.mp hmem
          exact List.mem_map.mpr
            ⟨lead, List.mem_of_mem_filter (hsmem lead hsel), rfl⟩

theorem onlineReplicaNodesOf_mem_nodes {nodes : List Node} {r : Range}
    {n : Node} (h : n ∈ onlineReplicaNodesOf nodes r) : n ∈ nodes := by
  unfold onlineReplicaNodesOf at h
  obtain ⟨rid, hrid, hf⟩ := List.mem_filterMap.mp h
  cases hfn : findNode nodes rid with
  | none => rw [hfn] at hf; cases hf
  | some m =>
    rw [hfn] at hf
    have hf2 : (if (m.status == Status.online) = true then some m else none) =
        some n := hf
    by_cases hon : (m.status == Status.online) = true
    · rw [if_pos hon] at hf2
      obtain rfl : m = n := Option.some_injective _ hf2
      exact (findNode_spec hfn).1
    · rw [if_neg hon] at hf2; cases hf2

theorem balanceHot_idsOk (s : SimState) (rangeId : Nat)
    (hpre : ∀ r ∈ s.ranges, IdsOk s.nodes r) :
    ∀ r ∈ (balanceHotRange s rangeId).ranges, IdsOk s.nodes r := by
  unfold balanceHotRange
  cases h1 : s.ranges.findIdx? (fun r => r.id == rangeId) with
  | none => exact hpre
  | some i =>
    dsimp only
    cases h2 : s.ranges[i]? with
    | none => exact hpre
    | some range =>
      dsimp only
      by_cases h3 : (onlineReplicaNodesOf s.nodes range).length ≤ 1
      · rw [if_pos h3]; exact hpre
      · rw [if_neg h3]
        cases h4 : findNode s.nodes range.leaseholder with
        | none => exact hpre
        | some cur =>
          dsimp only
          by_cases h5 : 40 < calculateRegionLoad s cur.region
          · rw [if_pos h5]
            cases h6 : (sortByAsc (fun n => calculateRegionLoad s n.region)
                (onlineReplicaNodesOf s.nodes range)).head? with
            | none => exact hpre
            | some best =>
              dsimp only
              by_cases h7 : best.id ≠ range.leaseholder
              · rw [if_pos h7]
                intro r hr
                rcases List.mem_or_eq_of_mem_set hr with h | h
                · exact hpre r h
                · subst h
                  refine ⟨(hpre range (List.getElem?_mem h2)).1, ?_⟩
                  show best.id ∈ s.nodes.map (fun n => n.id)
                  refine List.mem_map.mpr ⟨best, ?_, rfl⟩
                  exact onlineReplicaNodesOf_mem_nodes
                    ((sortByAsc_perm _ _).mem_iff.mp (List.mem_of_mem_head? h6))
              · rw [if_neg h7]; exact hpre
          · rw [if_neg h5]; exact hpre

theorem markRangeHot_idsOk (s : SimState) (rangeId : Nat)
    (hpre : ∀ r ∈ s.ranges, IdsOk s.nodes r) :
    ∀ r ∈ (SimRoach.markRangeHot s rangeId).ranges, IdsOk s.nodes r := by
  unfold SimRoach.markRangeHot
  cases h1 : s.ranges.findIdx? (fun r => r.id == rangeId) with
  | none => exact hpre
  | some i =>
    dsimp only
    cases h2 : s.ranges[i]? with
    | none => exact hpre
    | some r0 =>
      dsimp only
      refine balanceHot_idsOk _ rangeId ?_
      intro r hr
      rcases List.mem_or_eq_of_mem_set hr with h | h
      · exact hpre r h
      · subst h
        exact hpre r0 (List.getElem?_mem h2)

theorem createInitialRanges_idsOk (s : SimState) (selCh : Nat → SelChoice)
    (hch : ∀ i, (selCh i).Wf) (hinv : Invariant s)
    (hpre : ∀ r ∈ s.ranges, IdsOk s.nodes r) :
    ∀ r ∈ (createInitialRanges s selCh).2.ranges,
      IdsOk (createInitialRanges s selCh).2.nodes r := by
  unfold createInitialRanges
  refine (@foldl_preserve _ _
    (fun (acc : Option SimError × SimState) =>
      Invariant acc.2 ∧ ∀ r ∈ acc.2.ranges, IdsOk acc.2.nodes r) _ ?_ _ _
    ⟨hinv, hpre⟩).2
  intro acc i hacc
  obtain ⟨err, st⟩ := acc
  cases err with
  | some e => exact hacc
  | none =>
    refine ⟨addRangeE_invariant st _ (hch i) hacc.1, ?_⟩
    have hnodes : (addRangeE st (selCh i)).2.nodes = st.nodes := by
      unfold addRangeE
      dsimp only
      split
      · rfl
      · split <;> rfl
    rw [hnodes]
    exact addRangeE_idsOk st _ (hch i) hacc.1.1 hacc.2

theorem initializeCluster_idsOk (s : SimState) (ch : InitChoice)
    (hch : ch.Wf) :
    ∀ r ∈ (initializeCluster s ch).2.ranges,
      IdsOk (initializeCluster s ch).2.nodes r := by
  unfold initializeCluster
  refine createInitialRanges_idsOk _ _ hch.2 ?_ ?_
  · obtain ⟨hnd, hlt⟩ := createInitialNodes_spec s.config
      (selectRandomRegions s.config.regionCount ch)
    exact ⟨hnd, hlt, by intro r hr; cases hr⟩
  · intro r hr
    cases hr

theorem addRangeE_nodes_eq (s : SimState) (ch : SelChoice) :
    (addRangeE s ch).2.nodes = s.nodes := by
  unfold addRangeE
  dsimp only
  split
  · rfl
  · split <;> rfl

theorem balanceHot_nodes_eq (s : SimState) (rangeId : Nat) :
    (balanceHotRange s rangeId).nodes = s.nodes := by
  unfold balanceHotRange
  repeat' (first | split | dsimp only)
  all_goals rfl

theorem markRangeHot_nodes_eq (s : SimState) (rangeId : Nat) :
    (SimRoach.markRangeHot s rangeId).nodes = s.nodes := by
  unfold SimRoach.markRangeHot
  cases h1 : s.ranges.findIdx? (fun r => r.id == rangeId) with
  | none => rfl
  | some i =>
    dsimp only
    cases h2 : s.ranges[i]? with
    | none => rfl
    | some r0 =>
      dsimp only
      exact balanceHot_nodes_eq _ rangeId

/-- setNodeStatusById never changes the node ids, with no hypotheses. -/
theorem map_id_setNodeStatusById_uncond (ns : List Node) (tid : Nat)
    (st : Status) :
    (setNodeStatusById ns tid st).map (fun n => n.id) =
      ns.map (fun n => n.id) := by
  unfold setNodeStatusById
  cases hfi : ns.findIdx? (fun n => n.id == tid) with
  | none => rfl
  | some i =>
    dsimp only
    cases hget : ns[i]? with
    | none => rfl
    | some cur =>
      dsimp only
      exact map_id_set_status hget st

theorem toggleNode_idsOk (s : SimState) (nid : Nat)
    (shufIdx : List Nat → List Nat)
    (hpre : ∀ r ∈ s.ranges, IdsOk s.nodes r) :
    ∀ r ∈ (toggleNodeStatus s nid shufIdx).ranges,
      IdsOk (toggleNodeStatus s nid shufIdx).nodes r := by
  unfold toggleNodeStatus
  cases hidx : s.nodes.findIdx? (fun n => n.id == nid) with
  | none => exact hpre
  | some k =>
    dsimp only
    cases hget : s.nodes[k]? with
    | none => exact hpre
    | some nd =>
      dsimp only
      set newStatus := (if nd.status == Status.online then Status.offline
        else Status.online) with hns
      set s1 : SimState :=
        { s with nodes := s.nodes.set k { nd with status := newStatus } }
        with hs1
      have hmapeq := map_id_set_status hget newStatus
      have hpre1 : ∀ r ∈ s1.ranges, IdsOk s1.nodes r := by
        intro r hr
        obtain ⟨hrep, hlh⟩ := hpre r hr
        constructor
        · intro rid hrid
          show rid ∈ (s.nodes.set k { nd with status := newStatus }).map
            (fun n => n.id)
          rw [hmapeq]
          exact hrep rid hrid
        · show r.leaseholder ∈ (s.nodes.set k
            { nd with status := newStatus }).map (fun n => n.id)
          rw [hmapeq]
          exact hlh
      by_cases hoffb : (newStatus == Status.offline) = true
      · rw [if_pos hoffb]
        intro r hr
        rw [migrate_nodes_eq]
        exact migrate_idsOk s1 nid hpre1 r hr
      · rw [if_neg hoffb]
        intro r hr
        rw [rebalance_nodes_eq]
        exact rebalance_idsOk s1 nid shufIdx hpre1 r hr

theorem toggleRegion_idsOk (s : SimState) (rn : String)
    (fs : Nat → List Nat → List Nat)
    (hpre : ∀ r ∈ s.ranges, IdsOk s.nodes r) :
    ∀ r ∈ (toggleRegionStatus s rn fs).ranges,
      IdsOk (toggleRegionStatus s rn fs).nodes r := by
  unfold toggleRegionStatus
  dsimp only
  set regionNodes := s.nodes.filter (fun n => n.region == rn) with hrn
  set newStatus := (if regionNodes.any (fun n => n.status == Status.offline)
    then Status.online else Status.offline) with hns
  set newNodes := regionNodes.foldl
    (fun ns nd => setNodeStatusById ns nd.id newStatus) s.nodes with hnn
  have hmapfold : newNodes.map (fun n => n.id) = s.nodes.map (fun n => n.id) := by
    rw [hnn]
    refine @foldl_preserve (List Node) Node
      (fun ns => ns.map (fun n => n.id) = s.nodes.map (fun n => n.id))
      _ ?_ regionNodes s.nodes rfl
    intro acc nd hacc
    rw [map_id_setNodeStatusById_uncond, hacc]
  have hpre1 : ∀ r ∈ s.ranges, IdsOk newNodes r := by
    intro r hr
    obtain ⟨hrep, hlh⟩ := hpre r hr
    constructor
    · intro rid hrid
      rw [hmapfold]
      exact hrep rid hrid
    · rw [hmapfold]
      exact hlh
  by_cases hoffb : (newStatus == Status.offline) = true
  · rw [if_pos hoffb]
    have hP : ((regionNodes.foldl
          (fun st nd => migrateLeaseholdersFromOfflineNode st nd.id)
          { s with nodes := newNodes }).nodes = newNodes ∧
        ∀ r ∈ (regionNodes.foldl
          (fun st nd => migrateLeaseholdersFromOfflineNode st nd.id)
          { s with nodes := newNodes }).ranges, IdsOk newNodes r) := by
      refine @foldl_preserve SimState Node
        (fun st => st.nodes = newNodes ∧ ∀ r ∈ st.ranges, IdsOk newNodes r)
        _ ?_ regionNodes _ ⟨rfl, hpre1⟩
      intro st nd hP0
      obtain ⟨hEq, hW⟩ := hP0
      have hW2 : ∀ r ∈ st.ranges, IdsOk st.nodes r := by
        rw [hEq]; exact hW
      refine ⟨by rw [migrate_nodes_eq]; exact hEq, ?_⟩
      intro r hr
      have h3 := migrate_idsOk st nd.id hW2 r hr
      rw [hEq] at h3
      exact h3
    intro r hr
    rw [hP.1]
    exact hP.2 r hr
  · rw [if_neg hoffb]
    have hP : ((regionNodes.enum.foldl
          (fun st p => rebalanceToOnlineNode st p.2.id (fs p.1))
          { s with nodes := newNodes }).nodes = newNodes ∧
        ∀ r ∈ (regionNodes.enum.foldl
          (fun st p => rebalanceToOnlineNode st p.2.id (fs p.1))
          { s with nodes := newNodes }).ranges, IdsOk newNodes r) := by
      refine @foldl_preserve SimState (Nat × Node)
        (fun st => st.nodes = newNodes ∧ ∀ r ∈ st.ranges, IdsOk newNodes r)
        _ ?_ regionNodes.enum _ ⟨rfl, hpre1⟩
      intro st p hP0
      obtain ⟨hEq, hW⟩ := hP0
      have hW2 : ∀ r ∈ st.ranges, IdsOk st.nodes r := by
        rw [hEq]; exact hW
      refine ⟨by rw [rebalance_nodes_eq]; exact hEq, ?_⟩
      intro r hr
      have h3 := rebalance_idsOk st p.2.id (fs p.1) hW2 r hr
      rw [hEq] at h3
      exact h3
    intro r hr
    rw [hP.1]
    exact hP.2 r hr

theorem addNode_idsOk (s : SimState) (region zone : String)
    (shufPairs : List (Nat × Nat) → List (Nat × Nat))
    (hpre : ∀ r ∈ s.ranges, IdsOk s.nodes r) :
    ∀ r ∈ (SimRoach.addNode s region zone shufPairs).ranges,
      IdsOk (SimRoach.addNode s region zone shufPairs).nodes r := by
  unfold SimRoach.addNode
  dsimp only
  intro r hr
  rw [rebalanceReplicas_nodes_eq]
  refine rebalanceReplicas_idsOk
    { s with
      nodes := s.nodes ++ [⟨s.nextNodeId, region, zone, Status.online⟩],
      nextNodeId := s.nextNodeId + 1 } shufPairs ?_ r hr
  intro r1 hr1
  obtain ⟨hrep, hlh⟩ := hpre r1 hr1
  constructor
  · intro rid hrid
    show rid ∈ (s.nodes ++
      [(⟨s.nextNodeId, region, zone, Status.online⟩ : Node)]).map (fun n => n.id)
    rw [List.map_append]
    exact List.mem_append_left _ (hrep rid hrid)
  · show r1.leaseholder ∈ (s.nodes ++
      [(⟨s.nextNodeId, region, zone, Status.online⟩ : Node)]).map (fun n => n.id)
    rw [List.map_append]
    exact List.mem_append_left _ hlh

theorem step_lhInv {s t : SimState} (hst : Step s t) (hinv : Invariant s)
    (h : LhInv s) : LhInv t := by
  obtain ⟨op, hwf, happ⟩ := hst
  subst happ
  cases op with
  | updateConfig cfg ch => exact initializeCluster_idsOk _ ch hwf
  | toggleNode nid f => exact toggleNode_idsOk s nid f h
  | toggleRegion rn fs => exact toggleRegion_idsOk s rn fs h
  | addNode r z f => exact addNode_idsOk s r z f h
  | addRange ch =>
    intro r hr
    show IdsOk (addRangeE s ch).2.nodes r
    rw [addRangeE_nodes_eq]
    exact addRangeE_idsOk s ch hwf hinv.1 h r hr
  | markRangeHot rid =>
    intro r hr
    show IdsOk (SimRoach.markRangeHot s rid).nodes r
    rw [markRangeHot_nodes_eq]
    exact markRangeHot_idsOk s rid h r hr

theorem initial_lhInv {s : SimState} (h : InitialState s) : LhInv s := by
  obtain ⟨cfg, ch, hwf, hmk⟩ := h
  have hic := initializeCluster_idsOk
    ({ nodes := [], ranges := [], nextNodeId := 1, nextRangeId := 1,
       config := cfg, selectedRegions := [] } : SimState) ch hwf
  have h2 : (mkSimulator cfg ch).2 = s := by rw [hmk]
  rw [← h2]
  exact hic

theorem reachable_lhInv {s : SimState} (h : Reachable s) : LhInv s := by
  obtain ⟨s0, h0, hsteps⟩ := h
  have main : Invariant s ∧ LhInv s := by
    induction hsteps with
    | refl => exact ⟨initial_invariant h0, initial_lhInv h0⟩
    | tail hab hbc ih =>
      exact ⟨step_invariant hbc ih.1, step_lhInv hbc ih.1 ih.2⟩
  exact main.2

/-- C1 amended: for every reachable engine state and every range, after
every operation the range's leaseholder names a node id that exists in
the cluster.  This is the invariant the code actually maintains: the
leaseholder need not belong to the range's replicas list.  The failure
migrator can strand it outside (counterexample above), and it can stay
outside even after the node returns online, because the recovery passes
only repair under replicated ranges and only move replicas. -/
theorem c1_amended_leaseholder_exists (s : SimState) (hreach : Reachable s) :
    ∀ r ∈ s.ranges, r.leaseholder ∈ nodeIds s := by
  intro r hr
  exact (reachable_lhInv hreach r hr).2

/-- Witness for the amended C1 at the freshly constructed three node
cluster: the only range's leaseholder (node 1) exists in the cluster. -/
theorem c1_amended_leaseholder_exists_witness :
    (⟨1, [1, 2, 3], 1, 10, []⟩ : Range).leaseholder ∈
      nodeIds (mkSimulator ⟨1, 3, 3, 1⟩ ⟨id, fun _ => ⟨id, id⟩⟩).2 :=
  c1_amended_leaseholder_exists _
    ⟨_, ⟨⟨1, 3, 3, 1⟩, ⟨id, fun _ => ⟨id, id⟩⟩,
      ⟨fun l => List.Perm.refl l,
        fun _ => ⟨fun l => List.Perm.refl l, fun l => List.Perm.refl l⟩⟩,
      by decide⟩, Relation.ReflTransGen.refl⟩
    ⟨1, [1, 2, 3], 1, 10, []⟩ (by decide)

end SimRoach
